import Mathlib

/-!
# libSoX effects helpers (`src/effects_i.c`): a shallow embedding

Conventions of the embedding.

* A C string is the list of its characters. The string ends at the end of the
  list or at the first NUL character, whichever comes first; a pointer into the
  string is the suffix that starts at it.
* `size_t` is a natural number below `2 ^ 64`, `int` an integer in
  `[-2 ^ 31, 2 ^ 31)`, `long` an integer in `[-2 ^ 63, 2 ^ 63)`.
* A finite `double` or `float` value is the rational number it stands for (the
  sign of a zero is not kept); `CDouble` adds the infinities and NaN where the
  code can return them. The operations that IEEE 754 specifies (conversion from
  a literal, `+`, `-`, `*`, `/`, `sqrt`, conversion between the formats) round
  to nearest, ties to even, in the format of their C type (`to_double`,
  `to_float`), each operation once (`FLT_EVAL_METHOD` 0, no product and sum
  contracted into one operation). This covers
  `lsx_parsesamples`, `lsx_parse_frequency`, the phase offset and the stores of
  `lsx_generate_wave_table`, `lsx_bessel_I_0` and the window functions.
* The functions `pow` and `cos` of the C library, whose results IEEE 754 does
  not fix, are parameters of the functions that call them.
* Three parts are kept in exact arithmetic, for properties that do not depend
  on the rounding: the sums of squares of `lsx_power_spectrum` (which cells are
  stored), the shape values of `lsx_generate_wave_table` (the 32-bit wrap of the
  quadrant) and `lsx_kaiser_beta` (its branches).
* The C library routines `sscanf`, `strtod` and `strchr` are not part of the
  repository; they are modelled after ISO C and glibc.
* The transform primitives of `fft4g.c` are parameters of the functions that
  call them.
-/

namespace Sox

/-! ## C library: characters and strings -/

/-- The string terminator. -/
def NUL : Char := Char.ofNat 0

/-- The character a pointer points at: the head of the suffix, NUL at the end. -/
def peek (s : List Char) : Char := s.headD NUL

/-- C `isspace` in the "C" locale. -/
def isspace (c : Char) : Bool :=
  c == ' ' || c == '\t' || c == '\n' || c == Char.ofNat 11 || c == Char.ofNat 12 || c == '\r'

/-- C `isdigit`. -/
def isdigit (c : Char) : Bool := decide (48 ≤ c.toNat) && decide (c.toNat ≤ 57)

/-- C `strchr(s, ch)` as the offset of the first occurrence of `ch`; `none` is the
null pointer. The search stops at the terminator. -/
def strchr : List Char → Char → Option Nat
  | [], _ => none
  | c :: s, ch =>
    if c = ch then some 0
    else if c = NUL then none
    else (strchr s ch).map (· + 1)

/-- Leading white space is skipped by every numeric conversion. -/
def skip_space : List Char → List Char
  | [] => []
  | c :: s => if isspace c then skip_space s else c :: s

/-- Reads a maximal run of decimal digits, accumulating their value onto `acc`. -/
def read_digits : List Char → Nat → Nat × List Char
  | [], acc => (acc, [])
  | c :: s, acc =>
    if isdigit c then read_digits s (10 * acc + (c.toNat - 48)) else (acc, c :: s)

/-- An optionally signed decimal integer after optional white space (the subject
sequence of `strtol` in base 10): its mathematical value and the text after it,
or `none` when there is no digit to convert. -/
def scan_int (s : List Char) : Option (Int × List Char) :=
  let s1 := skip_space s
  let neg := peek s1 == '-'
  let s2 := if peek s1 == '-' || peek s1 == '+' then s1.tail else s1
  if isdigit (peek s2) then
    let r := read_digits s2 0
    some (if neg then -(r.1 : Int) else (r.1 : Int), r.2)
  else none

/-- The call `sscanf(s, "%d", &x) == 1` with the stored `int`; `none` when the call does
not return 1. A value outside the range of `int` is reduced modulo `2 ^ 32`
(ISO C leaves that case undefined). -/
def sscanf_d (s : List Char) : Option Int :=
  (scan_int s).map fun r => Int.bmod r.1 (2 ^ 32)

/-- The call `sscanf(s, "%ld", &x) == 1` with the stored `long` (64 bits); `none` when the
call does not return 1. -/
def sscanf_ld (s : List Char) : Option Int :=
  (scan_int s).map fun r => Int.bmod r.1 (2 ^ 64)

/-! ## Binary floating point -/

/-- The number of times a natural number can be halved before it is below 2, with
a bound on the number of halvings. -/
def log2_fuel : Nat → Nat → Nat
  | 0, _ => 0
  | fuel + 1, n => if n < 2 then 0 else log2_fuel fuel (n / 2) + 1

/-- The position of the leading binary digit of a natural number: the floor of
its binary logarithm (0 for 0). -/
def nat_log2 (n : Nat) : Nat := log2_fuel n n

/-- The binary exponent of a positive number: the `e` with `2 ^ e ≤ x < 2 ^ (e + 1)`
(`binade_spec`). -/
def binade {K : Type} [LinearOrderedField K] [FloorRing K] (x : K) : Int :=
  let k : Nat := if 1 ≤ x then 0 else nat_log2 (Int.toNat ⌈x⁻¹⌉) + 1
  (nat_log2 (Int.toNat ⌊x * 2 ^ k⌋) : Int) - k

/-- The nearest integer, the even one of the two when they are equally near. -/
def round_even {K : Type} [LinearOrderedField K] [FloorRing K] (x : K) : Int :=
  if x - ⌊x⌋ < 1 / 2 then ⌊x⌋
  else if 1 / 2 < x - ⌊x⌋ then ⌊x⌋ + 1
  else if ⌊x⌋ % 2 = 0 then ⌊x⌋ else ⌊x⌋ + 1

/-- Rounding to the nearest value of a binary format with `prec` significant bits
and least normal exponent `emin`, ties to even: the multiples of
`2 ^ (e - (prec - 1))` are the values with exponent `e`, and below `2 ^ emin` the
values are the multiples of `2 ^ (emin - (prec - 1))` (subnormal numbers). The
exponent has no upper bound here: a result of magnitude `2 ^ 1024` or more
(`2 ^ 128` for `float`) stands for an infinity, see `double_of_rat`. -/
def round_binary {K : Type} [LinearOrderedField K] [FloorRing K] (prec : Nat) (emin : Int)
    (x : K) : K :=
  if x = 0 then 0
  else
    let q : K := 2 ^ (max (binade |x|) emin - ((prec : Int) - 1))
    (round_even (x / q) : K) * q

/-- Rounding to `double` (IEEE 754 binary64). -/
def to_double {K : Type} [LinearOrderedField K] [FloorRing K] (x : K) : K :=
  round_binary 53 (-1022) x

/-- Rounding to `float` (IEEE 754 binary32). -/
def to_float {K : Type} [LinearOrderedField K] [FloorRing K] (x : K) : K :=
  round_binary 24 (-126) x

/-- A `double` or `float` value at run time: a finite value, an infinity with its
sign, or a NaN. -/
inductive CDouble where
  /-- A finite value. -/
  | fin (q : ℚ)
  /-- An infinity, negative when `neg` is true. -/
  | inf (neg : Bool)
  /-- A NaN. -/
  | nan
  deriving DecidableEq

/-- The `double` nearest to a rational number; from `2 ^ 1024 - 2 ^ 970` on (the
largest finite value plus half a unit in its last place) it is an infinity. -/
def double_of_rat (x : ℚ) : CDouble :=
  if (2 : ℚ) ^ 1024 - 2 ^ 970 ≤ |x| then CDouble.inf (decide (x < 0))
  else CDouble.fin (to_double x)

/-- The `float` nearest to a rational number; from `2 ^ 128 - 2 ^ 103` on it is an
infinity. -/
def float_of_rat (x : ℚ) : CDouble :=
  if (2 : ℚ) ^ 128 - 2 ^ 103 ≤ |x| then CDouble.inf (decide (x < 0))
  else CDouble.fin (to_float x)

/-- The product `a * c` in `double` arithmetic, `c` being a positive finite
constant. -/
def CDouble.mul_const (a : CDouble) (c : ℚ) : CDouble :=
  match a with
  | CDouble.fin q => double_of_rat (q * c)
  | CDouble.inf neg => CDouble.inf neg
  | CDouble.nan => CDouble.nan

/-- The quotient `a / c` in `double` arithmetic, `c` being a positive finite
constant. -/
def CDouble.div_const (a : CDouble) (c : ℚ) : CDouble :=
  match a with
  | CDouble.fin q => double_of_rat (q / c)
  | CDouble.inf neg => CDouble.inf neg
  | CDouble.nan => CDouble.nan

/-- The comparison `a < 0`, false for a NaN. -/
def CDouble.lt_zero (a : CDouble) : Bool :=
  match a with
  | CDouble.fin q => decide (q < 0)
  | CDouble.inf neg => neg
  | CDouble.nan => false

/-! ## C library: floating literals -/

/-- C `tolower` in the "C" locale. -/
def tolower (c : Char) : Char :=
  if 65 ≤ c.toNat ∧ c.toNat ≤ 90 then Char.ofNat (c.toNat + 32) else c

/-- C `isxdigit`. -/
def isxdigit (c : Char) : Bool :=
  isdigit c || (decide (97 ≤ (tolower c).toNat) && decide ((tolower c).toNat ≤ 102))

/-- The value of a hexadecimal digit. -/
def xdigit_value (c : Char) : Nat :=
  if isdigit c then c.toNat - 48 else (tolower c).toNat - 87

/-- Reads a maximal run of hexadecimal digits, accumulating their value onto `acc`. -/
def read_xdigits : List Char → Nat → Nat × List Char
  | [], acc => (acc, [])
  | c :: s, acc =>
    if isxdigit c then read_xdigits s (16 * acc + xdigit_value c) else (acc, c :: s)

/-- Matches the lower-case `word` at the start of the text, ignoring case: the
text after it, or `none`. -/
def match_word : List Char → List Char → Option (List Char)
  | [], s => some s
  | _ :: _, [] => none
  | w :: ws, c :: s => if tolower c = w then match_word ws s else none

/-- Skips the digits, letters and underscores of the character sequence of
`NAN(...)`. -/
def skip_nchars : List Char → List Char
  | [] => []
  | c :: s =>
    if isdigit c || (decide (97 ≤ (tolower c).toNat) && decide ((tolower c).toNat ≤ 122)) ||
        c == '_' then skip_nchars s
    else c :: s

/-- The optional `(n-char-sequence)` after `NAN`: the text after it when it is
complete, the text as it is otherwise. -/
def nan_payload (s : List Char) : List Char :=
  if peek s == '(' then
    if peek (skip_nchars s.tail) == ')' then (skip_nchars s.tail).tail else s
  else s

/-- The optional exponent part of a literal whose significand has the value
`mant`: `s` starts with the exponent marker, and the part is taken only when
digits follow the marker and the optional sign. The exponent scales by powers
of `base`. -/
def scan_exponent (mant base : ℚ) (s : List Char) : ℚ × List Char :=
  let s4 := s.tail
  let eneg := peek s4 == '-'
  let s5 := if peek s4 == '-' || peek s4 == '+' then s4.tail else s4
  if isdigit (peek s5) then
    let ex := read_digits s5 0
    (if eneg then mant / base ^ ex.1 else mant * base ^ ex.1, ex.2)
  else (mant, s)

/-- An unsigned decimal floating literal: digits with an optional point (at least
one digit) and an optional exponent; its exact value and the text after it. -/
def scan_decimal (s : List Char) : Option (ℚ × List Char) :=
  let ip := read_digits s 0
  let has_point := peek ip.2 == '.'
  let s3 := if has_point then ip.2.tail else ip.2
  let fp := if has_point then read_digits s3 ip.1 else ip
  let ndigits := (s.length - ip.2.length) + (s3.length - fp.2.length)
  if ndigits = 0 then none
  else
    let mant : ℚ := (fp.1 : ℚ) / (10 : ℚ) ^ (s3.length - fp.2.length)
    if peek fp.2 == 'e' || peek fp.2 == 'E' then some (scan_exponent mant 10 fp.2)
    else some (mant, fp.2)

/-- An unsigned hexadecimal floating literal after its `0x`: hexadecimal digits
with an optional point (at least one digit) and an optional binary exponent. -/
def scan_hex (s : List Char) : Option (ℚ × List Char) :=
  let ip := read_xdigits s 0
  let has_point := peek ip.2 == '.'
  let s3 := if has_point then ip.2.tail else ip.2
  let fp := if has_point then read_xdigits s3 ip.1 else ip
  let ndigits := (s.length - ip.2.length) + (s3.length - fp.2.length)
  if ndigits = 0 then none
  else
    let mant : ℚ := (fp.1 : ℚ) / (16 : ℚ) ^ (s3.length - fp.2.length)
    if peek fp.2 == 'p' || peek fp.2 == 'P' then some (scan_exponent mant 2 fp.2)
    else some (mant, fp.2)

/-- What a floating literal denotes before it is rounded to a format. -/
inductive FloatLit where
  /-- A number, with its exact value. -/
  | num (v : ℚ)
  /-- `INF` or `INFINITY`, negative when `neg` is true. -/
  | inf (neg : Bool)
  /-- `NAN` or `NAN(...)`. -/
  | nan
  deriving DecidableEq

/-- The text after the optional white space and the optional sign of a numeric
literal. -/
def after_sign (s : List Char) : List Char :=
  if peek (skip_space s) == '-' || peek (skip_space s) == '+' then (skip_space s).tail
  else skip_space s

/-- The subject sequence of `strtod` (ISO C 7.22.1.3): optional white space, an
optional sign, then `INF` or `INFINITY`, `NAN` with an optional character
sequence in parentheses, a hexadecimal literal, or a decimal literal. The result
is what the sequence denotes and the text after it; `none` when the text does
not start with such a sequence. -/
def scan_float (s : List Char) : Option (FloatLit × List Char) :=
  let neg := peek (skip_space s) == '-'
  let s2 := after_sign s
  match match_word "infinity".toList s2 with
  | some r => some (FloatLit.inf neg, r)
  | none =>
    match match_word "inf".toList s2 with
    | some r => some (FloatLit.inf neg, r)
    | none =>
      match match_word "nan".toList s2 with
      | some r => some (FloatLit.nan, nan_payload r)
      | none =>
        match (if peek s2 == '0' && tolower (peek s2.tail) == 'x' then scan_hex s2.tail.tail
          else none) with
        | some p => some (FloatLit.num (if neg then -p.1 else p.1), p.2)
        | none =>
          (scan_decimal s2).map fun p => (FloatLit.num (if neg then -p.1 else p.1), p.2)

/-- The value of a literal as a `double`. -/
def FloatLit.as_double : FloatLit → CDouble
  | FloatLit.num v => double_of_rat v
  | FloatLit.inf neg => CDouble.inf neg
  | FloatLit.nan => CDouble.nan

/-- The value of a literal as a `float`. -/
def FloatLit.as_float : FloatLit → CDouble
  | FloatLit.num v => float_of_rat v
  | FloatLit.inf neg => CDouble.inf neg
  | FloatLit.nan => CDouble.nan

/-- The call `sscanf(s, "%f", &x) == 1` with the stored `float`; `none` when the call does
not return 1. The input item is converted as `strtof` converts it (glibc): an
exponent marker that no digits follow is read, and the value is that of the
significand. -/
def sscanf_f (s : List Char) : Option CDouble :=
  (scan_float s).map fun r => r.1.as_float

/-- The call `strtod(s, &end)`: the value and the end pointer, `none` when no conversion is
performed (C then returns 0 and sets the end pointer to `s`). -/
def strtod (s : List Char) : Option (CDouble × List Char) :=
  (scan_float s).map fun r => (r.1.as_double, r.2)

/-! ## Conversions between arithmetic types -/

/-- Conversion of a `double` to `size_t`: truncation toward zero. Outside
`[0, 2 ^ 64)` the conversion is undefined in C; the model then gives 0 for
negative values and wraps large ones. -/
def double_to_size_t (x : ℚ) : Nat := (Int.floor x).toNat % 2 ^ 64

/-- Conversion of a signed integer to `size_t` (reduction modulo `2 ^ 64`). -/
def int_to_size_t (x : Int) : Nat := (x % 2 ^ 64).toNat

/-! ## lsx_parsesamples -/

/-- The characters of `"0123456789:.ts"`; `*end && strchr("0123456789:.ts", *end)`. -/
def in_run_set (c : Char) : Bool := c != NUL && "0123456789:.ts".toList.contains c

/-- Length of the run scanned by
`for (end = str; *end && strchr("0123456789:.ts", *end); ++end);`,
that is `end - str`. -/
def run_len : List Char → Nat
  | [] => 0
  | c :: s => if in_run_set c then run_len s + 1 else 0

/-- The inner loop `while (*str != ':' && *str != '.' && *str != 0) str++;`. -/
def skip_field : List Char → List Char
  | [] => []
  | c :: s => if c = ':' ∨ c = '.' ∨ c = NUL then c :: s else skip_field s

/-- How the `while(1)` loop of the time branch is left. -/
inductive LoopExit where
  /-- `return NULL` inside the loop, with the content of `*samples`. -/
  | fail (samples : Nat)
  /-- `break`, with `str` and the content of `*samples`. -/
  | brk (str : List Char) (samples : Nat)
  /-- The iteration bound of the model is used up (this never happens when the
  bound exceeds the length of the text). -/
  | out_of_fuel
  deriving DecidableEq, Repr

/-- The `while(1)` loop of the time branch. Every iteration that does not leave
the loop advances `str` by at least one character. -/
def time_loop : Nat → List Char → Int → Nat → LoopExit
  | 0, _, _, _ => LoopExit.out_of_fuel
  | fuel + 1, str, time, samples =>
    match (if peek str = '.' then some time else sscanf_d str) with
    | none => LoopExit.fail samples
    | some time1 =>
      let samples1 := int_to_size_t ((samples : Int) + time1)
      let str1 := skip_field str
      if peek str1 = '.' ∨ peek str1 = NUL then LoopExit.brk str1 samples1
      else time_loop fuel str1.tail time1 (samples1 * 60 % 2 ^ 64)

/-- Result of `lsx_parsesamples`: the returned pointer (`none` is NULL) and the
content of `*samples` after the call. -/
structure ParseResult where
  ret : Option (List Char)
  samples : Nat
  deriving DecidableEq, Repr

/-- The body of `if (found_time || (def == 't' && !found_samples))`; `n` is
`end - str`. The loop is given one more iteration than the text has characters,
which it never uses up (`time_loop_total`). The statements
`*samples *= rate; *samples += (rate * frac) + 0.5;` convert `*samples` to `double`,
round each product and sum to `double` and truncate the result to `size_t`. An
infinite `frac` (a fraction that overflows `float`) makes the last conversion
undefined in C; the model then stores 0. -/
def time_branch (rate : ℚ) (str : List Char) (n : Nat) : ParseResult :=
  match time_loop (str.length + 1) str 0 0 with
  | LoopExit.fail s => ⟨none, s⟩
  | LoopExit.out_of_fuel => ⟨none, 0⟩
  | LoopExit.brk str1 s =>
    match (if peek str1 = '.' then sscanf_f str1 else some (CDouble.fin 0)) with
    | none => ⟨none, s⟩
    | some (CDouble.fin frac) =>
      let s1 := double_to_size_t (to_double (to_double (s : ℚ) * rate))
      let s2 := double_to_size_t
        (to_double (to_double (s1 : ℚ) + to_double (to_double (rate * frac) + 1 / 2)))
      ⟨some (str.drop n), s2⟩
    | some _ => ⟨some (str.drop n), 0⟩

/-- The body of `if (found_samples || (def == 's' && !found_time))`. -/
def samples_branch (str : List Char) (n : Nat) (samples : Nat) : ParseResult :=
  match sscanf_ld str with
  | none => ⟨none, samples⟩
  | some v => ⟨some (str.drop n), int_to_size_t v⟩

/-- The flags `found_colon` and `found_dot`: `pos = strchr(str, ch); pos && pos < end`. -/
def found_before (str : List Char) (n : Nat) (ch : Char) : Bool :=
  match strchr str ch with
  | some p => decide (p < n)
  | none => false

/-- The flag `found_time` as set by the classification at lines 163-172. -/
def found_time (str : List Char) : Bool :=
  let n := run_len str
  found_before str n ':' || found_before str n '.' || (str.getD (n - 1) NUL == 't')

/-- The flag `found_samples` as set by the classification at lines 163-172. -/
def found_samples (str : List Char) : Bool :=
  !found_time str && (str.getD (run_len str - 1) NUL == 's')

/-- The function `lsx_parsesamples(rate, str, samples, def)`; `samples` is the content of
`*samples` before the call. -/
def lsx_parsesamples (rate : ℚ) (str : List Char) (samples : Nat) (def_ : Char) :
    ParseResult :=
  let n := run_len str
  if n = 0 then ⟨none, samples⟩
  else if found_time str || (def_ == 't' && !found_samples str) then
    time_branch rate str n
  else if found_samples str || (def_ == 's' && !found_time str) then
    samples_branch str n samples
  else ⟨none, samples⟩

/-! ## lsx_parse_frequency -/

/-- The function `calc_note_freq`: `440.0 * pow(2.0, note / 12.0)`. The C library function
`pow` is the parameter `pow`; the quotient and the product are `double`
operations. -/
def calc_note_freq (pow : CDouble → CDouble → CDouble) (note : CDouble) : CDouble :=
  (pow (CDouble.fin 2) (note.div_const 12)).mul_const 440

/-- The function `lsx_parse_frequency(text, end_ptr)`. The flag `has_end` tells whether
`end_ptr` is non-null. The result is the returned value with the content of
`*end_ptr` after the call (`none` when `end_ptr` is null); the whole result is
`none` when the call dereferences a null `end_ptr` (the note branch). -/
def lsx_parse_frequency (pow : CDouble → CDouble → CDouble) (text : List Char)
    (has_end : Bool) : Option (CDouble × Option (List Char)) :=
  if peek text = '%' then
    if has_end then
      match strtod text.tail with
      | none => some (CDouble.fin (-1), some text.tail)
      | some (note, e) => some (calc_note_freq pow note, some e)
    else none
  else
    match strtod text with
    | none =>
      if has_end then some (CDouble.fin (-1), some text)
      else some (CDouble.fin 0, none)
    | some (result, e) =>
      if has_end then
        let k := peek e == 'k'
        let result1 : CDouble := if k then result.mul_const 1000 else result
        let e1 := if k then e.tail else e
        some (if result1.lt_zero then CDouble.fin (-1) else result1, some e1)
      else some (if result.lt_zero then CDouble.fin (-1) else result, none)

/-! ## The FFT cache -/

/-- A heap block: its cells, `none` for a cell whose content is indeterminate. -/
abbrev Block (α : Type) := List (Option α)

/-- Modelled from the spec: the allocation substrate `lsx_realloc` (declared in
the repository outside `src/`), which never returns on out-of-memory. A null
pointer is `none`; the block keeps its old cells up to the new size and the
cells added are indeterminate. -/
def lsx_realloc {α : Type} (p : Option (Block α)) (size : Nat) : Option (Block α) :=
  match p with
  | none => some (List.replicate size none)
  | some b => some (b.take size ++ List.replicate (size - b.length) none)

/-- The static `n` of `update_fft_cache` with the globals `lsx_fft_br` and
`lsx_fft_sc`. -/
structure FFTCache where
  n : Int
  lsx_fft_br : Option (Block Int)
  lsx_fft_sc : Option (Block ℚ)
  deriving DecidableEq

/-- The state at program start: `n = 0` and both pointers null. -/
def FFTCache.fresh : FFTCache := ⟨0, none, none⟩

/-- The function `update_fft_cache(len)`. The sizing macros `dft_br_len` and `dft_sc_len` of
`fft4g.h` are parameters. -/
def update_fft_cache (dft_br_len dft_sc_len : Int → Nat) (c : FFTCache) (len : Int) :
    FFTCache :=
  if len = 0 then
    { n := 0, lsx_fft_br := none, lsx_fft_sc := none }
  else if len > c.n then
    let old_n := c.n
    let br := lsx_realloc c.lsx_fft_br (dft_br_len len)
    let sc := lsx_realloc c.lsx_fft_sc (dft_sc_len len)
    { n := len
      lsx_fft_br := if old_n = 0 then br.map fun b => b.set 0 (some 0) else br
      lsx_fft_sc := sc }
  else c

/-- The requests of a whole sequence of calls of `update_fft_cache`. -/
def update_fft_cache_seq (dft_br_len dft_sc_len : Int → Nat) (c : FFTCache) (lens : List Int) :
    FFTCache :=
  lens.foldl (update_fft_cache dft_br_len dft_sc_len) c

/-- The guard `is_power_of_2(x)`: `!(x < 2 || (x & (x - 1)))`. -/
def is_power_of_2 (x : Int) : Bool := !(decide (x < 2) || Int.land x (x - 1) != 0)

/-- The external transform primitives `lsx_rdft` and `lsx_cdft` of `fft4g.c`:
from `len`, `type`, the data and the two work tables to the data and the tables
after the call. -/
abbrev DFT := Int → Int → List ℚ → Option (Block Int) → Option (Block ℚ) →
  List ℚ × Option (Block Int) × Option (Block ℚ)

/-- The function `lsx_safe_rdft(len, type, d)`; `none` is the failed assertion (abort). -/
def lsx_safe_rdft (dft_br_len dft_sc_len : Int → Nat) (lsx_rdft : DFT) (c : FFTCache)
    (len type : Int) (d : List ℚ) : Option (FFTCache × List ℚ) :=
  if is_power_of_2 len then
    let c1 := update_fft_cache dft_br_len dft_sc_len c len
    let r := lsx_rdft len type d c1.lsx_fft_br c1.lsx_fft_sc
    some ({ n := c1.n, lsx_fft_br := r.2.1, lsx_fft_sc := r.2.2 }, r.1)
  else none

/-- The function `lsx_safe_cdft(len, type, d)`; `none` is the failed assertion (abort). -/
def lsx_safe_cdft (dft_br_len dft_sc_len : Int → Nat) (lsx_cdft : DFT) (c : FFTCache)
    (len type : Int) (d : List ℚ) : Option (FFTCache × List ℚ) :=
  if is_power_of_2 len then
    let c1 := update_fft_cache dft_br_len dft_sc_len c len
    let r := lsx_cdft len type d c1.lsx_fft_br c1.lsx_fft_sc
    some ({ n := c1.n, lsx_fft_br := r.2.1, lsx_fft_sc := r.2.2 }, r.1)
  else none

/-! ## Texts of the duration grammar (used to state the properties) -/

/-- Value of a string of decimal digits. -/
def digits_value (ds : List Char) : Nat :=
  ds.foldl (fun acc c => 10 * acc + (c.toNat - 48)) 0

/-- A non-empty string of decimal digits. -/
def is_digits (ds : List Char) : Prop := ds ≠ [] ∧ ∀ c ∈ ds, isdigit c = true

instance is_digits_decidable (ds : List Char) : Decidable (is_digits ds) :=
  inferInstanceAs (Decidable (ds ≠ [] ∧ ∀ c ∈ ds, isdigit c = true))

/-- The text `f1:f2:...:fk` of the fields `f1, ..., fk`. -/
def colon_text : List (List Char) → List Char
  | [] => []
  | [f] => f
  | f :: g :: rest => f ++ ':' :: colon_text (g :: rest)

/-- The value `f1 * 60 ^ (k - 1) + f2 * 60 ^ (k - 2) + ... + fk` of the fields. -/
def base60 : List (List Char) → Nat
  | [] => 0
  | f :: rest => digits_value f * 60 ^ rest.length + base60 rest

/-- The optional fractional part of a time text: nothing, or `.` and digits. -/
def frac_text : Option (List Char) → List Char
  | none => []
  | some ds => '.' :: ds

/-- The value `0.F` of the fractional part, 0 when there is none. -/
def frac_value : Option (List Char) → ℚ
  | none => 0
  | some ds => (digits_value ds : ℚ) / (10 : ℚ) ^ ds.length

/-- Round half up of a non-negative rational: `floor (x + 1/2)`. -/
def round_half_up (x : ℚ) : Nat := (Int.floor (x + 1 / 2)).toNat

/-- The `double` product of the accumulated seconds and the rate. -/
def time_product (rate : ℚ) (seconds : Nat) : ℚ :=
  to_double (to_double (seconds : ℚ) * rate)

/-- The `double` sum of the truncated product and `rate * frac + 0.5`, where `frac` is
the fraction rounded to `float`. -/
def time_sum (rate : ℚ) (seconds : Nat) (fraction : ℚ) : ℚ :=
  to_double (to_double (((Int.floor (time_product rate seconds)).toNat : ℕ) : ℚ) +
    to_double (to_double (rate * to_float fraction) + 1 / 2))

/-- No operation of the time branch rounds: the fraction is a `float`, the product
of the seconds and the rate is an integer, and the seconds, every product and
every sum are `double` values. -/
def time_exact (rate : ℚ) (seconds : Nat) (fraction : ℚ) : Prop :=
  to_float fraction = fraction ∧
  to_double (seconds : ℚ) = seconds ∧
  to_double ((seconds : ℚ) * rate) = (seconds : ℚ) * rate ∧
  (((Int.floor ((seconds : ℚ) * rate)).toNat : ℕ) : ℚ) = (seconds : ℚ) * rate ∧
  to_double (rate * fraction) = rate * fraction ∧
  to_double (rate * fraction + 1 / 2) = rate * fraction + 1 / 2 ∧
  to_double ((seconds : ℚ) * rate + (rate * fraction + 1 / 2)) =
    (seconds : ℚ) * rate + (rate * fraction + 1 / 2)

/-- The leading decimal literal of a text, as the specification of
`lsx_parse_frequency` reads it: optional white space, an optional sign, digits
with an optional point and an optional exponent; its value and the text after
it. -/
def decimal_literal (s : List Char) : Option (ℚ × List Char) :=
  (scan_decimal (after_sign s)).map fun p =>
    (if peek (skip_space s) == '-' then -p.1 else p.1, p.2)

/-! ## lsx_gcd and lsx_lcm -/

/-- The function `lsx_gcd(a, b)` on `unsigned` values: `b == 0 ? a : lsx_gcd(b, a % b)`.
No operation leaves the range of the operands. -/
def lsx_gcd (a b : Nat) : Nat :=
  if b = 0 then a else lsx_gcd b (a % b)
termination_by b
decreasing_by exact Nat.mod_lt _ (by omega)

/-- The function `lsx_lcm(a, b)`: `a * (b / lsx_gcd(a, b))` in 32-bit unsigned
arithmetic; `none` is the division by zero, which is undefined in C. -/
def lsx_lcm (a b : Nat) : Option Nat :=
  if lsx_gcd a b = 0 then none else some (a * (b / lsx_gcd a b) % 2 ^ 32)

/-! ## lsx_power_spectrum -/

/-- Modelled from the spec: the enumeration `lsx_wave_t` of `sox_i.h` (not under
`src/`), "shape ∈ {SINE, TRIANGLE}"; `other` stands for any other value, which
the `default` branch of the source handles. -/
inductive lsx_wave_t where
  | SOX_WAVE_SINE
  | SOX_WAVE_TRIANGLE
  | other
  deriving DecidableEq

/-- Modelled from the spec: the enumeration `sox_data_t` of `sox_i.h` (not under
`src/`), "32/64-bit float, or rounded 16/32-bit signed integer"; `other` stands
for any other value, for which nothing is stored. -/
inductive sox_data_t where
  | SOX_SHORT
  | SOX_INT
  | SOX_FLOAT
  | SOX_DOUBLE
  | other
  deriving DecidableEq

/-- A table element as stored through the cast pointer. -/
inductive TableCell where
  /-- A `float` element. -/
  | float_cell (x : ℝ)
  /-- A `double` element. -/
  | double_cell (x : ℝ)
  /-- A `short` element. -/
  | short_cell (z : Int)
  /-- An `int` element. -/
  | int_cell (z : Int)

/-- Truncation toward zero, the conversion of a `double` to an integer type. -/
def c_trunc {K : Type} [LinearOrderedField K] [FloorRing K] (x : K) : Int :=
  if 0 ≤ x then Int.floor x else Int.ceil x

/-- Conversion of a `double` to a signed integer type of `bits` bits. Outside the
range of the type the conversion is undefined in C; the model then reduces the
truncated value modulo `2 ^ bits`. -/
noncomputable def double_to_int (bits : Nat) (x : ℝ) : Int := Int.bmod (c_trunc x) (2 ^ bits)

/-- Conversion of a `double` to `uint32_t`: truncation toward zero. Outside
`[0, 2 ^ 32)` the conversion is undefined in C; the model then reduces the
truncated value modulo `2 ^ 32`, as the code compiled for x86-64 does. -/
def double_to_uint32 (x : ℚ) : Nat := (c_trunc x % 2 ^ 32).toNat

/-- The constant `M_PI` of `math.h`: the `double` nearest to pi,
`0x1.921fb54442d18p+1`. -/
def M_PI : ℚ := 884279719003555 / 281474976710656

/-- The initialiser `uint32_t phase_offset = phase / M_PI / 2 * table_size + 0.5`, in
`double` arithmetic; `table_size` is converted to `double`. -/
def wave_phase_offset (table_size : Nat) (phase : ℚ) : Nat :=
  double_to_uint32
    (to_double (to_double (to_double (to_double (phase / M_PI) / 2) *
      to_double (table_size : ℚ)) + 1 / 2))

/-- The index `uint32_t point = (t + phase_offset) % table_size`: the sum is formed
in 32 bits, the remainder in `size_t`. -/
def wave_point (table_size phase_offset t : Nat) : Nat :=
  (t + phase_offset) % 2 ^ 32 % table_size

/-- The quadrant `4 * point / table_size` of the triangle: the product is formed in
32 bits (`point` is a `uint32_t`), the quotient in `size_t`. -/
def wave_quadrant (table_size point : Nat) : Nat := 4 * point % 2 ^ 32 / table_size

/-- The value `d` set by `switch (wave_type)`, in exact arithmetic: the sine is the
real sine of the exact angle and the quotient `point * 2 / table_size` is not
rounded. The product `4 * point` of the inner `switch` wraps in 32 bits as in
the code (`wave_quadrant`). -/
noncomputable def wave_shape (wave_type : lsx_wave_t) (table_size point : Nat) : ℝ :=
  match wave_type with
  | lsx_wave_t.SOX_WAVE_SINE =>
    (Real.sin ((point : ℝ) / (table_size : ℝ) * 2 * Real.pi) + 1) / 2
  | lsx_wave_t.SOX_WAVE_TRIANGLE =>
    let d : ℝ := (point : ℝ) * 2 / (table_size : ℝ)
    if wave_quadrant table_size point = 0 then d + 0.5
    else if wave_quadrant table_size point = 1 ∨ wave_quadrant table_size point = 2 then 1.5 - d
    else if wave_quadrant table_size point = 3 then d - 1.5
    else d
  | lsx_wave_t.other => 0

/-- The value `d` of entry `t` after `d = d * (max - min) + min`, in exact arithmetic. -/
noncomputable def wave_scaled (wave_type : lsx_wave_t) (table_size : Nat) (min max : ℝ)
    (phase_offset t : Nat) : ℝ :=
  wave_shape wave_type table_size (wave_point table_size phase_offset t) * (max - min) + min

/-- The two `switch (data_type)` statements: what is stored for the `double` value
`d`, if anything. `SOX_FLOAT` stores `(float)d` and `SOX_DOUBLE` stores `d`; the
integer types store the truncation of the `double` sum `d + 0.5` or `d - 0.5`. A value
beyond the range of `float`, for which C stores an infinity, is not modelled. -/
noncomputable def wave_store (data_type : sox_data_t) (d : ℝ) : Option TableCell :=
  match data_type with
  | sox_data_t.SOX_FLOAT => some (TableCell.float_cell (to_float d))
  | sox_data_t.SOX_DOUBLE => some (TableCell.double_cell d)
  | sox_data_t.SOX_SHORT =>
    some (TableCell.short_cell
      (double_to_int 16 (to_double (d + if d < 0 then -0.5 else 0.5))))
  | sox_data_t.SOX_INT =>
    some (TableCell.int_cell
      (double_to_int 32 (to_double (d + if d < 0 then -0.5 else 0.5))))
  | sox_data_t.other => none

/-- The function `lsx_generate_wave_table`: the elements stored into `table`, in
order. The counter `t` is a `uint32_t`, so for `table_size ≥ 2 ^ 32` the loop does
not end: that is `none`. -/
noncomputable def lsx_generate_wave_table (wave_type : lsx_wave_t) (data_type : sox_data_t)
    (table_size : Nat) (min max : ℝ) (phase : ℚ) : Option (List TableCell) :=
  if 2 ^ 32 ≤ table_size then none
  else
    some ((List.range table_size).filterMap fun t =>
      wave_store data_type
        (wave_scaled wave_type table_size min max (wave_phase_offset table_size phase) t))

/-! ## lsx_bessel_I_0 and the window functions -/

/-- The binary digits of the integer square root, from bit `b - 1` down to bit 0,
`r` being the digits found so far. -/
def sqrt_bits : Nat → Nat → Nat → Nat
  | 0, _, r => r
  | b + 1, n, r =>
    if (r + 2 ^ b) * (r + 2 ^ b) ≤ n then sqrt_bits b n (r + 2 ^ b) else sqrt_bits b n r

/-- The integer square root: the greatest `r` with `r * r ≤ n` (`nat_sqrt_spec`). -/
def nat_sqrt (n : Nat) : Nat := sqrt_bits (nat_log2 n / 2 + 1) n 0

/-- The C library function `sqrt` on a finite `double` that is not negative: the `double`
nearest to the square root, as IEEE 754 requires. With `2 ^ e ≤ x < 2 ^ (e + 1)` the
root lies in `[2 ^ (e / 2), 2 ^ (e / 2 + 1))`, where the values of the format are the
multiples of `q = 2 ^ (e / 2 - 52)`; the root of a `double` is never half-way between
two of them. A negative argument (NaN in C) is not modelled and gives 0. -/
def sqrt_double (x : ℚ) : ℚ :=
  if x ≤ 0 then 0
  else
    let q : ℚ := 2 ^ (binade x / 2 - 52)
    let n : Nat := nat_sqrt (Int.toNat ⌊x / (q * q)⌋)
    if x / (q * q) < ((n : ℚ) + 1 / 2) * ((n : ℚ) + 1 / 2) then (n : ℚ) * q
    else ((n : ℚ) + 1) * q

/-- The loop `do { y = x2 / i++; last_sum = sum, sum += term *= y * y; } while (sum != last_sum);`
of `lsx_bessel_I_0`, every operation rounded to `double`. The first argument bounds
the number of iterations; `none` means that the bound is used up. -/
def bessel_loop : Nat → ℚ → ℚ → ℚ → Nat → Option ℚ
  | 0, _, _, _, _ => none
  | fuel + 1, x2, term, sum, i =>
    let y := to_double (x2 / (i : ℚ))
    let term1 := to_double (term * to_double (y * y))
    let sum1 := to_double (sum + term1)
    if sum1 = sum then some sum1 else bessel_loop fuel x2 term1 sum1 (i + 1)

/-- The function `lsx_bessel_I_0(x)`, with a bound on the number of iterations of its
loop (`none` when the bound is used up). Values of magnitude `2 ^ 1024` or more
(infinite in C) are not modelled. -/
def lsx_bessel_I_0 (fuel : Nat) (x : ℚ) : Option ℚ :=
  bessel_loop fuel (to_double (x / 2)) 1 1 1

/-- The loop `for (i = 0; i < count; ++i) h[i] *= coef(i);` on the cells of a `double`
array `h`. -/
def window_loop (coef : Nat → ℚ) (count : Nat) (h : Nat → ℚ) : Nat → ℚ :=
  (List.range count).foldl (fun g i => Function.update g i (to_double (g i * coef i))) h

/-- The same loop on a `float` array: the product is formed in `double` and converted
to `float` when it is stored. -/
def window_loop_f (coef : Nat → ℚ) (count : Nat) (h : Nat → ℚ) : Nat → ℚ :=
  (List.range count).foldl
    (fun g i => Function.update g i (to_float (to_double (g i * coef i)))) h

/-- The angle `x = 2 * M_PI * i / m` of the Hann and Hamming loops. -/
def window_angle (m : Int) (i : Nat) : ℚ :=
  to_double (to_double (to_double (2 * M_PI) * (i : ℚ)) / (m : ℚ))

/-- The factor `.5 - .5 * cos(x)` of the Hann loops; the C library function `cos` is the
parameter `cos`. -/
def hann_coef (cos : ℚ → ℚ) (m : Int) (i : Nat) : ℚ :=
  to_double (1 / 2 - to_double (1 / 2 * cos (window_angle m i)))

/-- The factor `.53836 - .46164 * cos(x)`. -/
def hamming_coef (cos : ℚ → ℚ) (m : Int) (i : Nat) : ℚ :=
  to_double (to_double (53836 / 100000) -
    to_double (to_double (46164 / 100000) * cos (window_angle m i)))

/-- The factor `2. / m * (m / 2. - fabs(i - m / 2.))`. -/
def bartlett_coef (m : Int) (i : Nat) : ℚ :=
  to_double (to_double (2 / (m : ℚ)) *
    to_double (to_double ((m : ℚ) / 2) - |to_double ((i : ℚ) - to_double ((m : ℚ) / 2))|))

/-- The abscissa `x = 2. * i / m - 1` of the Kaiser loop. -/
def kaiser_x (m : Int) (i : Nat) : ℚ :=
  to_double (to_double (to_double (2 * (i : ℚ)) / (m : ℚ)) - 1)

/-- The factor `lsx_bessel_I_0(beta * sqrt(1 - x * x)) / lsx_bessel_I_0(beta)` with
`x = 2. * i / m - 1`; `none` when a call of `lsx_bessel_I_0` uses up the bound. -/
def kaiser_coef (fuel : Nat) (beta : ℚ) (m : Int) (i : Nat) : Option ℚ :=
  match lsx_bessel_I_0 fuel
      (to_double (beta * sqrt_double (to_double (1 - to_double (kaiser_x m i * kaiser_x m i))))),
    lsx_bessel_I_0 fuel beta with
  | some a, some b => some (to_double (a / b))
  | _, _ => none

/-- The function `lsx_apply_hann_f(h, num_points)`. For `num_points = 1` the code divides by
`m = 0`, which is not modelled (as in the next four functions). -/
def lsx_apply_hann_f (cos : ℚ → ℚ) (h : Nat → ℚ) (num_points : Int) : Nat → ℚ :=
  window_loop_f (hann_coef cos (num_points - 1)) num_points.toNat h

/-- The function `lsx_apply_hann(h, num_points)`. -/
def lsx_apply_hann (cos : ℚ → ℚ) (h : Nat → ℚ) (num_points : Int) : Nat → ℚ :=
  window_loop (hann_coef cos (num_points - 1)) num_points.toNat h

/-- The function `lsx_apply_hamming(h, num_points)`. -/
def lsx_apply_hamming (cos : ℚ → ℚ) (h : Nat → ℚ) (num_points : Int) : Nat → ℚ :=
  window_loop (hamming_coef cos (num_points - 1)) num_points.toNat h

/-- The function `lsx_apply_bartlett(h, num_points)`. -/
def lsx_apply_bartlett (h : Nat → ℚ) (num_points : Int) : Nat → ℚ :=
  window_loop (bartlett_coef (num_points - 1)) num_points.toNat h

/-- The function `lsx_apply_kaiser(h, num_points, beta)`; the loop `for (i = 0; i <= m; ++i)`
runs `m + 1` times. The result is `none` when a call of `lsx_bessel_I_0` uses up the
bound `fuel`. -/
def lsx_apply_kaiser (fuel : Nat) (h : Nat → ℚ) (num_points : Int) (beta : ℚ) :
    Option (Nat → ℚ) :=
  if (List.range (num_points - 1 + 1).toNat).all
      (fun i => (kaiser_coef fuel beta (num_points - 1) i).isSome) then
    some (window_loop (fun i => (kaiser_coef fuel beta (num_points - 1) i).getD 0)
      (num_points - 1 + 1).toNat h)
  else none

/-- The function `lsx_kaiser_beta(att)`, in exact arithmetic and with `pow` the real power. -/
noncomputable def lsx_kaiser_beta (att : ℝ) : ℝ :=
  if att > 100 then 0.1117 * att - 1.11
  else if att > 50 then 0.1102 * (att - 8.7)
  else if att > 20.96 then
    0.58417 * (att - 20.96) ^ (0.4 : ℝ) + 0.07886 * (att - 20.96)
  else 0

/-! ## Rounding (used to state the properties) -/

/-- Round half away from zero: `trunc (v + 0.5)` when `v ≥ 0`, `trunc (v - 0.5)`
when `v < 0`. -/
noncomputable def round_half_away (v : ℝ) : Int :=
  if 0 ≤ v then c_trunc (v + 0.5) else c_trunc (v - 0.5)

/-! ## Lemmas on binary floating point -/

theorem log2_fuel_spec (fuel n : Nat) (h : n ≤ fuel) (hn : 0 < n) :
    2 ^ log2_fuel fuel n ≤ n ∧ n < 2 ^ (log2_fuel fuel n + 1) := by
  induction fuel generalizing n with
  | zero => omega
  | succ f ih =>
    unfold log2_fuel
    split_ifs with h2
    · simp; omega
    · have h3 := ih (n / 2) (by omega) (by omega)
      constructor
      · calc 2 ^ (log2_fuel f (n / 2) + 1) = 2 ^ log2_fuel f (n / 2) * 2 := pow_succ _ _
          _ ≤ (n / 2) * 2 := Nat.mul_le_mul_right _ h3.1
          _ ≤ n := Nat.div_mul_le_self n 2
      · have h4 : n / 2 + 1 ≤ 2 ^ (log2_fuel f (n / 2) + 1) := h3.2
        have h5 : n < (n / 2 + 1) * 2 := by omega
        calc n < (n / 2 + 1) * 2 := h5
          _ ≤ 2 ^ (log2_fuel f (n / 2) + 1) * 2 := Nat.mul_le_mul_right _ h4
          _ = 2 ^ (log2_fuel f (n / 2) + 1 + 1) := (pow_succ _ _).symm

theorem nat_log2_spec (n : Nat) (hn : 0 < n) :
    2 ^ nat_log2 n ≤ n ∧ n < 2 ^ (nat_log2 n + 1) :=
  log2_fuel_spec n n (le_refl n) hn

section
variable {K : Type} [LinearOrderedField K] [FloorRing K]

theorem binade_spec (x : K) (hx : 0 < x) :
    (2 : K) ^ binade x ≤ x ∧ x < (2 : K) ^ (binade x + 1) := by
  unfold binade
  set k : Nat := if 1 ≤ x then 0 else nat_log2 (Int.toNat ⌈x⁻¹⌉) + 1 with hk
  have h2 : (0 : K) < 2 ^ k := by positivity
  have h1 : 1 ≤ x * 2 ^ k := by
    by_cases h : 1 ≤ x
    · simp [hk, h]
    · have hlt : x < 1 := not_le.mp h
      have hinv : 1 < x⁻¹ := one_lt_inv₀ hx |>.mpr hlt
      have hc : 0 < ⌈x⁻¹⌉ := Int.ceil_pos.mpr (by linarith)
      have hc2 : 0 < Int.toNat ⌈x⁻¹⌉ := by omega
      have hs := (nat_log2_spec _ hc2).2
      have hk2 : k = nat_log2 (Int.toNat ⌈x⁻¹⌉) + 1 := by simp [hk, h]
      rw [← hk2] at hs
      have h3 : x⁻¹ ≤ ((Int.toNat ⌈x⁻¹⌉ : Nat) : K) := by
        have h4 : x⁻¹ ≤ ((⌈x⁻¹⌉ : Int) : K) := Int.le_ceil _
        have h5 : ((Int.toNat ⌈x⁻¹⌉ : Nat) : Int) = ⌈x⁻¹⌉ := Int.toNat_of_nonneg hc.le
        have h6 : (((Int.toNat ⌈x⁻¹⌉ : Nat) : Int) : K) = ((⌈x⁻¹⌉ : Int) : K) := by rw [h5]
        rw [Int.cast_natCast] at h6
        rw [h6]; exact h4
      have h7 : ((Int.toNat ⌈x⁻¹⌉ : Nat) : K) < 2 ^ k := by exact_mod_cast hs
      have h8 : x⁻¹ < 2 ^ k := lt_of_le_of_lt h3 h7
      have h9 : x * x⁻¹ = 1 := mul_inv_cancel₀ hx.ne'
      nlinarith
  set y : K := x * 2 ^ k with hy
  have hf : 1 ≤ ⌊y⌋ := Int.le_floor.mpr (by simpa using h1)
  have hn : 0 < Int.toNat ⌊y⌋ := by omega
  have hs := nat_log2_spec _ hn
  set L := nat_log2 (Int.toNat ⌊y⌋) with hL
  have hcast : ((Int.toNat ⌊y⌋ : Nat) : K) = ((⌊y⌋ : Int) : K) := by
    have h5 : ((Int.toNat ⌊y⌋ : Nat) : Int) = ⌊y⌋ := Int.toNat_of_nonneg (by omega)
    have h6 : (((Int.toNat ⌊y⌋ : Nat) : Int) : K) = ((⌊y⌋ : Int) : K) := by rw [h5]
    rwa [Int.cast_natCast] at h6
  have hlo : (2 : K) ^ L ≤ y := by
    have h3 : ((2 ^ L : Nat) : K) ≤ ((Int.toNat ⌊y⌋ : Nat) : K) := by exact_mod_cast hs.1
    rw [hcast] at h3
    have h4 : ((⌊y⌋ : Int) : K) ≤ y := Int.floor_le y
    push_cast at h3
    linarith
  have hhi : y < (2 : K) ^ (L + 1) := by
    have h3 : Int.toNat ⌊y⌋ + 1 ≤ 2 ^ (L + 1) := hs.2
    have h4 : (((Int.toNat ⌊y⌋ + 1 : Nat)) : K) ≤ ((2 ^ (L + 1) : Nat) : K) := by exact_mod_cast h3
    push_cast at h4
    rw [hcast] at h4
    have h5 : y < ((⌊y⌋ : Int) : K) + 1 := Int.lt_floor_add_one y
    linarith
  have hz1 : (2 : K) ^ ((L : Int) - (k : Int)) = 2 ^ L / 2 ^ k := by
    rw [zpow_sub₀ (by norm_num : (2 : K) ≠ 0), zpow_natCast, zpow_natCast]
  have hz2 : (2 : K) ^ ((L : Int) - (k : Int) + 1) = 2 ^ (L + 1) / 2 ^ k := by
    have : (L : Int) - (k : Int) + 1 = ((L + 1 : Nat) : Int) - (k : Int) := by push_cast; ring
    rw [this, zpow_sub₀ (by norm_num : (2 : K) ≠ 0), zpow_natCast, zpow_natCast]
  rw [hz1, hz2]
  constructor
  · rw [div_le_iff₀ h2]; exact hlo
  · rw [lt_div_iff₀ h2]; exact hhi

theorem binade_unique (x : K) (e : Int) (hx : 0 < x) (h1 : (2 : K) ^ e ≤ x)
    (h2 : x < (2 : K) ^ (e + 1)) : binade x = e := by
  have hs := binade_spec x hx
  have a : binade x < e + 1 :=
    (zpow_lt_zpow_iff_right₀ (by norm_num : (1 : K) < 2)).mp (lt_of_le_of_lt hs.1 h2)
  have b : e < binade x + 1 :=
    (zpow_lt_zpow_iff_right₀ (by norm_num : (1 : K) < 2)).mp (lt_of_le_of_lt h1 hs.2)
  omega

theorem round_even_intCast (n : Int) : round_even ((n : K)) = n := by
  unfold round_even
  simp

theorem round_even_nonneg (x : K) (hx : 0 ≤ x) : 0 ≤ round_even x := by
  have hf : 0 ≤ ⌊x⌋ := Int.floor_nonneg.mpr hx
  unfold round_even
  split_ifs <;> omega

theorem round_binary_nonneg (prec : Nat) (emin : Int) (x : K) (hx : 0 ≤ x) :
    0 ≤ round_binary prec emin x := by
  unfold round_binary
  split_ifs with h0
  · exact le_refl 0
  · have hq : (0 : K) < 2 ^ (max (binade |x|) emin - ((prec : Int) - 1)) := by positivity
    have h1 : 0 ≤ x / 2 ^ (max (binade |x|) emin - ((prec : Int) - 1)) := div_nonneg hx hq.le
    have h2 := round_even_nonneg _ h1
    have h3 : (0 : K) ≤ ((round_even (x / 2 ^ (max (binade |x|) emin - ((prec : Int) - 1))) : Int) : K) := by
      exact_mod_cast h2
    exact mul_nonneg h3 hq.le

/-- A number `k * 2 ^ j` with `|k| < 2 ^ prec` and `j` not below the least exponent of
the format is a value of the format: rounding leaves it as it is. -/
theorem round_binary_exact (prec : Nat) (emin : Int) (x : K) (k j : Int)
    (hx : x = (k : K) * 2 ^ j) (hk : |k| < 2 ^ prec) (hj : emin - ((prec : Int) - 1) ≤ j) :
    round_binary prec emin x = x := by
  unfold round_binary
  split_ifs with h0
  · exact h0.symm
  · have hxpos : 0 < |x| := abs_pos.mpr h0
    have hs := binade_spec |x| hxpos
    set t : Int := max (binade |x|) emin - ((prec : Int) - 1) with ht
    have h2ne : (2 : K) ≠ 0 := by norm_num
    have htj : t ≤ j := by
      rcases le_total (binade |x|) emin with hle | hle
      · rw [max_eq_right hle] at ht; omega
      · rw [max_eq_left hle] at ht
        have habs : |x| = ((|k| : Int) : K) * 2 ^ j := by
          rw [hx, abs_mul, abs_of_pos (zpow_pos (by norm_num : (0 : K) < 2) j)]
          simp
        have hk2 : ((|k| : Int) : K) < 2 ^ (prec : Int) := by
          have : ((|k| : Int) : K) < (((2 : Int) ^ prec : Int) : K) := by exact_mod_cast hk
          simpa using this
        have h3 : |x| < 2 ^ ((prec : Int) + j) := by
          rw [habs, zpow_add₀ h2ne]
          exact mul_lt_mul_of_pos_right hk2 (zpow_pos (by norm_num) j)
        have h4 : binade |x| < (prec : Int) + j :=
          (zpow_lt_zpow_iff_right₀ (by norm_num : (1 : K) < 2)).mp (lt_of_le_of_lt hs.1 h3)
        omega
    have hdiv : x / 2 ^ t = ((k * 2 ^ (j - t).toNat : Int) : K) := by
      rw [hx]
      have hjt : j = t + ((j - t).toNat : Int) := by
        rw [Int.toNat_of_nonneg (by omega)]; ring
      rw [show (2 : K) ^ j = 2 ^ (t + ((j - t).toNat : Int)) by rw [← hjt]]
      rw [zpow_add₀ h2ne, zpow_natCast]
      have htpos : (0 : K) < 2 ^ t := zpow_pos (by norm_num) t
      field_simp
      ring
    show ((round_even (x / 2 ^ t) : Int) : K) * 2 ^ t = x
    rw [hdiv, round_even_intCast, ← hdiv]
    have htpos : (0 : K) < 2 ^ t := zpow_pos (by norm_num) t
    field_simp

end

section
variable {K : Type} [LinearOrderedField K] [FloorRing K]

/-- The binary exponent of a rational number does not depend on the field it is
taken in. -/
theorem binade_ratCast (x : ℚ) (hx : 0 < x) : binade ((x : ℚ) : K) = binade x := by
  have hs := binade_spec x hx
  apply binade_unique
  · exact_mod_cast hx
  · have h1 : (((2 : ℚ) ^ binade x : ℚ) : K) ≤ ((x : ℚ) : K) := Rat.cast_le.2 hs.1
    simpa using h1
  · have h1 : ((x : ℚ) : K) < (((2 : ℚ) ^ (binade x + 1) : ℚ) : K) := Rat.cast_lt.2 hs.2
    simpa using h1

/-- Rounding a rational number to an integer does not depend on the field. -/
theorem round_even_ratCast (x : ℚ) : round_even ((x : ℚ) : K) = round_even x := by
  unfold round_even
  rw [Rat.floor_cast]
  have h1 : ((x : ℚ) : K) - ((⌊x⌋ : Int) : K) = ((x - (⌊x⌋ : Int) : ℚ) : K) := by
    push_cast
    rfl
  have h2 : ((1 : K) / 2) = (((1 : ℚ) / 2 : ℚ) : K) := by
    push_cast
    rfl
  rw [h1, h2]
  have h3 : (((x - (⌊x⌋ : Int) : ℚ) : K) < (((1 : ℚ) / 2 : ℚ) : K)) ↔
      (x - (⌊x⌋ : Int) < (1 : ℚ) / 2) := Rat.cast_lt
  have h4 : ((((1 : ℚ) / 2 : ℚ) : K) < ((x - (⌊x⌋ : Int) : ℚ) : K)) ↔
      ((1 : ℚ) / 2 < x - (⌊x⌋ : Int)) := Rat.cast_lt
  simp only [h3, h4]

/-- Rounding a rational number to a binary format does not depend on the field. -/
theorem round_binary_ratCast (prec : Nat) (emin : Int) (x : ℚ) :
    round_binary prec emin ((x : ℚ) : K) = ((round_binary prec emin x : ℚ) : K) := by
  unfold round_binary
  by_cases h0 : x = 0
  · subst h0
    simp
  · have h0K : ((x : ℚ) : K) ≠ 0 := by exact_mod_cast h0
    rw [if_neg h0, if_neg h0K]
    have habs : |((x : ℚ) : K)| = ((|x| : ℚ) : K) := by
      rw [Rat.cast_abs]
    have hb : binade |((x : ℚ) : K)| = binade |x| := by
      rw [habs]
      exact binade_ratCast _ (abs_pos.2 h0)
    simp only [hb]
    have hq : ((x : ℚ) : K) / 2 ^ (max (binade |x|) emin - ((prec : Int) - 1)) =
        (((x / 2 ^ (max (binade |x|) emin - ((prec : Int) - 1)) : ℚ)) : K) := by
      push_cast
      rfl
    rw [hq, round_even_ratCast]
    push_cast
    rfl

end

/-- Rounding leaves 0 as it is. -/
theorem round_binary_zero {K : Type} [LinearOrderedField K] [FloorRing K] (prec : Nat)
    (emin : Int) : round_binary prec emin (0 : K) = 0 := by
  simp [round_binary]

/-- A natural number below `2 ^ 53` is a `double`. -/
theorem to_double_nat {K : Type} [LinearOrderedField K] [FloorRing K] (m : Nat)
    (h : m < 2 ^ 53) : to_double ((m : K)) = m := by
  unfold to_double
  apply round_binary_exact 53 (-1022) _ (m : Int) 0
  · simp
  · rw [abs_of_nonneg (by positivity)]
    exact_mod_cast h
  · norm_num

/-- A natural number below `2 ^ 52` plus one half is a `double`. -/
theorem to_double_nat_half {K : Type} [LinearOrderedField K] [FloorRing K] (m : Nat)
    (h : m < 2 ^ 52) : to_double ((m : K) + 1 / 2) = (m : K) + 1 / 2 := by
  unfold to_double
  apply round_binary_exact 53 (-1022) _ (2 * (m : Int) + 1) (-1)
  · push_cast
    rw [zpow_neg_one]
    ring
  · rw [abs_of_nonneg (by positivity)]
    have : 2 * m + 1 < 2 ^ 53 := by omega
    exact_mod_cast this
  · norm_num


section
variable {K : Type} [LinearOrderedField K] [FloorRing K]

/-- The two ways `round_even` can go: down to the floor, the fractional part being at
most one half (and the floor even on a tie), or up. -/
theorem round_even_cases (y : K) :
    (round_even y = ⌊y⌋ ∧ y - ⌊y⌋ ≤ 1 / 2 ∧ (y - ⌊y⌋ = 1 / 2 → ⌊y⌋ % 2 = 0)) ∨
    (round_even y = ⌊y⌋ + 1 ∧ 1 / 2 ≤ y - ⌊y⌋ ∧ (y - ⌊y⌋ = 1 / 2 → ⌊y⌋ % 2 = 1)) := by
  unfold round_even
  split_ifs with h1 h2 h3
  · left
    exact ⟨rfl, h1.le, fun h => absurd h (ne_of_lt h1)⟩
  · right
    exact ⟨rfl, h2.le, fun h => absurd h.symm (ne_of_lt h2)⟩
  · left
    exact ⟨rfl, not_lt.1 h2, fun _ => h3⟩
  · right
    exact ⟨rfl, not_lt.1 h1, fun _ => by omega⟩

/-- Rounding does not go below an integer that the number is not below. -/
theorem int_le_round_even (M : Int) (y : K) (h : (M : K) ≤ y) : M ≤ round_even y := by
  have hf : M ≤ ⌊y⌋ := Int.le_floor.2 h
  rcases round_even_cases y with ⟨hr, _, _⟩ | ⟨hr, _, _⟩ <;> rw [hr] <;> omega

/-- Rounding does not go above an integer that the number is not above. -/
theorem round_even_le_int (M : Int) (y : K) (h : y ≤ (M : K)) : round_even y ≤ M := by
  rcases eq_or_lt_of_le h with heq | hlt
  · rw [heq, round_even_intCast]
  · have hf : ⌊y⌋ < M := Int.floor_lt.2 hlt
    rcases round_even_cases y with ⟨hr, _, _⟩ | ⟨hr, _, _⟩ <;> rw [hr] <;> omega

/-- A number below an integer `M` is rounded to `M` only if it is within one half of
it, and on a tie only if `M` is even. -/
theorem round_even_eq_int_gap (M : Int) (y : K) (hy : y < (M : K))
    (hr : round_even y = M) : (M : K) - y ≤ 1 / 2 ∧ ((M : K) - y = 1 / 2 → M % 2 = 0) := by
  have hf : ⌊y⌋ < M := Int.floor_lt.2 hy
  rcases round_even_cases y with ⟨h1, _, _⟩ | ⟨h1, h2, h3⟩
  · omega
  · have hM : M = ⌊y⌋ + 1 := by omega
    have hMc : (M : K) = (⌊y⌋ : K) + 1 := by
      rw [hM]
      push_cast
      rfl
    constructor
    · linarith
    · intro h
      have := h3 (by linarith)
      omega

/-- Rounding to an integer is odd. -/
theorem round_even_neg (y : K) : round_even (-y) = -round_even y := by
  by_cases hint : (⌊y⌋ : K) = y
  · rw [← hint, ← Int.cast_neg, round_even_intCast, round_even_intCast]
  · have hlt : (⌊y⌋ : K) < y := lt_of_le_of_ne (Int.floor_le y) hint
    have hfl : ⌊-y⌋ = -⌊y⌋ - 1 := by
      rw [Int.floor_eq_iff]
      have h2 : y < (⌊y⌋ : K) + 1 := Int.lt_floor_add_one y
      push_cast
      constructor <;> linarith
    have hfr : -y - ((⌊-y⌋ : Int) : K) = 1 - (y - (⌊y⌋ : K)) := by
      rw [hfl]
      push_cast
      ring
    rcases round_even_cases y with ⟨h1, h2, h3⟩ | ⟨h1, h2, h3⟩ <;>
      rcases round_even_cases (-y) with ⟨g1, g2, g3⟩ | ⟨g1, g2, g3⟩
    · rw [hfr] at g2 g3
      have he : y - (⌊y⌋ : K) = 1 / 2 := by linarith
      have a := h3 he
      have b := g3 (by linarith)
      omega
    · rw [g1, h1, hfl]
      ring
    · rw [g1, h1, hfl]
      ring
    · rw [hfr] at g2 g3
      have he : y - (⌊y⌋ : K) = 1 / 2 := by linarith
      have a := h3 he
      have b := g3 (by linarith)
      omega

/-- Rounding to a binary format is odd. -/
theorem round_binary_neg (prec : Nat) (emin : Int) (x : K) :
    round_binary prec emin (-x) = -round_binary prec emin x := by
  unfold round_binary
  by_cases h0 : x = 0
  · subst h0
    simp
  · have h1 : -x ≠ 0 := neg_ne_zero.2 h0
    rw [if_neg h0, if_neg h1, abs_neg]
    simp only [neg_div, round_even_neg]
    push_cast
    ring

/-- A value of a binary format is an integer multiple of the unit of its binade. -/
theorem round_binary_grid (prec : Nat) (emin : Int) (v : K)
    (hv : round_binary prec emin v = v) :
    ∃ z : Int, v = (z : K) * 2 ^ (max (binade |v|) emin - ((prec : Int) - 1)) := by
  by_cases h0 : v = 0
  · exact ⟨0, by simp [h0]⟩
  · unfold round_binary at hv
    rw [if_neg h0] at hv
    exact ⟨_, hv.symm⟩

end

section
variable {K : Type} [LinearOrderedField K] [FloorRing K]

/-- Adding one half in `double` arithmetic does not change the integer part: for
every `double` value `v` with `0 ≤ v < 2 ^ 51` other than `1/2 - 2 ^ (-54)`, the `double`
next below one half, the floor of the rounded sum `v + 1/2` is the floor of the
exact sum. -/
theorem to_double_add_half_floor (v : K) (hv : to_double v = v) (h0 : 0 ≤ v)
    (hlt : v < 2 ^ 51) (hne : v ≠ 1 / 2 - 1 / 2 ^ 54) :
    ⌊to_double (v + 1 / 2)⌋ = ⌊v + 1 / 2⌋ := by
  have h2 : (1 : K) < 2 := by norm_num
  have h2ne : (2 : K) ≠ 0 := by norm_num
  have hs_pos : 0 < v + 1 / 2 := by linarith
  have hs := binade_spec (v + 1 / 2) hs_pos
  have hfl0 : to_double (v + 1 / 2) =
      ((round_even ((v + 1 / 2) /
        2 ^ (max (binade (v + 1 / 2)) (-1022) - ((53 : Nat) - 1 : Int))) : Int) : K) *
        2 ^ (max (binade (v + 1 / 2)) (-1022) - ((53 : Nat) - 1 : Int)) := by
    unfold to_double round_binary
    rw [if_neg (ne_of_gt hs_pos), abs_of_pos hs_pos]
  generalize binade (v + 1 / 2) = e at hs hfl0
  -- the exponent of the sum lies between -1 and 51
  have he_lo : -1 ≤ e := by
    have h1 : (2 : K) ^ (-1 : Int) < 2 ^ (e + 1) := by
      have : (2 : K) ^ (-1 : Int) = 1 / 2 := by rw [zpow_neg_one]; norm_num
      rw [this]
      linarith [hs.2]
    have := (zpow_lt_zpow_iff_right₀ h2).1 h1
    omega
  have he_hi : e ≤ 51 := by
    have h1 : (2 : K) ^ e < 2 ^ (52 : Int) := by
      have : (2 : K) ^ (52 : Int) = 2 ^ 52 := by norm_cast
      rw [this]
      have : (2 : K) ^ 51 + 1 / 2 < 2 ^ 52 := by norm_num
      linarith [hs.1]
    have := (zpow_lt_zpow_iff_right₀ h2).1 h1
    omega
  obtain ⟨P, hP⟩ : ∃ P : Nat, (P : Int) = 52 - e := ⟨(52 - e).toNat, by omega⟩
  have hP1 : 1 ≤ P := by omega
  have hq : (2 : K) ^ (max e (-1022) - ((53 : Nat) - 1 : Int)) = ((2 : K) ^ P)⁻¹ := by
    have : max e (-1022) - ((53 : Nat) - 1 : Int) = -(P : Int) := by
      rw [max_eq_left (by omega)]
      push_cast
      omega
    rw [this, zpow_neg, zpow_natCast]
  have hPpos : (0 : K) < 2 ^ P := by positivity
  have hP2 : (2 : K) ≤ 2 ^ P := by
    calc (2 : K) = 2 ^ 1 := by norm_num
      _ ≤ 2 ^ P := pow_le_pow_right₀ (by norm_num) hP1
  -- the rounded sum
  have hfl : to_double (v + 1 / 2) =
      ((round_even ((v + 1 / 2) * 2 ^ P) : Int) : K) / 2 ^ P := by
    rw [hfl0, hq]
    field_simp
  have hn0 : 0 ≤ ⌊v + 1 / 2⌋ := Int.floor_nonneg.2 hs_pos.le
  have hn_le : ((⌊v + 1 / 2⌋ : Int) : K) ≤ v + 1 / 2 := Int.floor_le _
  have hn_lt : v + 1 / 2 < ((⌊v + 1 / 2⌋ : Int) : K) + 1 := Int.lt_floor_add_one _
  have hnfl : ∀ m : Int, (m : K) ≤ v + 1 / 2 → m ≤ ⌊v + 1 / 2⌋ := fun m hm => Int.le_floor.2 hm
  have hnlt : ∀ m : Int, v + 1 / 2 < (m : K) → ⌊v + 1 / 2⌋ < m := fun m hm => Int.floor_lt.2 hm
  rw [hfl]
  generalize ⌊v + 1 / 2⌋ = n at hn0 hn_le hn_lt hnfl hnlt ⊢
  obtain ⟨y, hy⟩ : ∃ y : K, y = (v + 1 / 2) * 2 ^ P := ⟨_, rfl⟩
  rw [← hy]
  have hlo : ((n * 2 ^ P : Int) : K) ≤ y := by
    push_cast
    rw [hy]
    exact mul_le_mul_of_nonneg_right hn_le hPpos.le
  have hhi : y < (((n + 1) * 2 ^ P : Int) : K) := by
    push_cast
    rw [hy]
    exact mul_lt_mul_of_pos_right hn_lt hPpos
  have hr_lo := int_le_round_even _ y hlo
  have hr_hi := round_even_le_int _ y hhi.le
  -- it suffices that the sum is not rounded up to the next integer
  suffices hne2 : round_even y ≠ (n + 1) * 2 ^ P by
    have hr_lt : round_even y < (n + 1) * 2 ^ P := lt_of_le_of_ne hr_hi hne2
    rw [Int.floor_eq_iff]
    constructor
    · rw [le_div_iff₀ hPpos]
      have : ((n * 2 ^ P : Int) : K) ≤ ((round_even y : Int) : K) := by exact_mod_cast hr_lo
      push_cast at this
      exact this
    · rw [div_lt_iff₀ hPpos]
      have : ((round_even y : Int) : K) < (((n + 1) * 2 ^ P : Int) : K) := by
        exact_mod_cast hr_lt
      push_cast at this
      exact this
  intro hr
  have hgap := (round_even_eq_int_gap _ y hhi hr).1
  push_cast at hgap
  -- the distance to the next integer is at most half a unit
  have hg : ((n : K) + 1 - (v + 1 / 2)) * 2 ^ P ≤ 1 / 2 := by
    have : ((n : K) + 1) * 2 ^ P - y = ((n : K) + 1 - (v + 1 / 2)) * 2 ^ P := by
      rw [hy]
      ring
    linarith
  have hg4 : (n : K) + 1 - (v + 1 / 2) ≤ 1 / 4 := by
    by_contra hc
    have hc2 : 1 / 4 < (n : K) + 1 - (v + 1 / 2) := not_le.1 hc
    have h1 : ((n : K) + 1 - (v + 1 / 2)) * 2 ≤ ((n : K) + 1 - (v + 1 / 2)) * 2 ^ P :=
      mul_le_mul_of_nonneg_left hP2 (by linarith)
    linarith
  rcases eq_or_lt_of_le h0 with hv0 | hvpos
  · -- v = 0
    rw [← hv0] at hg4
    have : (n : K) ≥ 0 := by exact_mod_cast hn0
    linarith
  · have hvs := binade_spec v hvpos
    obtain ⟨z, hz⟩ := round_binary_grid 53 (-1022) v hv
    rw [abs_of_pos hvpos] at hz
    have hbu : ∀ c : Int, (2 : K) ^ c ≤ v → v < 2 ^ (c + 1) → binade v = c :=
      fun c h1 h2 => binade_unique v c hvpos h1 h2
    generalize binade v = b at hvs hz hbu
    have hb_le : b ≤ e := by
      have h1 : (2 : K) ^ b < 2 ^ (e + 1) := by
        linarith [hvs.1, hs.2]
      have := (zpow_lt_zpow_iff_right₀ h2).1 h1
      omega
    rcases eq_or_lt_of_le hb_le with hbe | hbe
    · -- same binade: the sum is on the grid
      have hzq : v = (z : K) / 2 ^ P := by
        rw [hz, hbe, hq]
        field_simp
      have hyint : y = ((z + 2 ^ (P - 1) : Int) : K) := by
        rw [hy, hzq]
        have hpow : (2 : K) ^ P = 2 * 2 ^ (P - 1) := by
          rw [← pow_succ']
          congr 1
          omega
        push_cast
        field_simp
        rw [hpow]
        ring
      rw [hyint, round_even_intCast] at hr
      rw [hyint] at hhi
      have : ((z + 2 ^ (P - 1) : Int) : K) < (((z + 2 ^ (P - 1) : Int)) : K) := by
        rw [hr] at hhi ⊢
        exact hhi
      exact lt_irrefl _ this
    · -- lower binade: v < 2 ^ e ≤ v + 1/2
      have hv_lt : v < (2 : K) ^ e := by
        have h1 : (2 : K) ^ (b + 1) ≤ 2 ^ e := zpow_le_zpow_right₀ h2.le (by omega)
        linarith [hvs.2]
      rcases le_or_lt 0 e with he0 | he0
      · -- e ≥ 0: an integer power of two lies between v and the sum
        obtain ⟨E, hE⟩ : ∃ E : Nat, (E : Int) = e := ⟨e.toNat, by omega⟩
        have hpow : (2 : K) ^ e = (((2 ^ E : Nat) : Int) : K) := by
          rw [← hE, zpow_natCast]
          push_cast
          rfl
        have hle : (((2 ^ E : Nat) : Int)) ≤ n := by
          apply hnfl
          rw [← hpow]
          exact hs.1
        have hle2 : (2 : K) ^ e ≤ (n : K) := by
          rw [hpow]
          exact_mod_cast hle
        linarith
      · -- e = -1: v lies strictly between the two largest values below one half
        have he1 : e = -1 := by omega
        have hP53 : P = 53 := by omega
        have hhalf : (2 : K) ^ e = 1 / 2 := by
          rw [he1, zpow_neg_one]
          norm_num
        have hs1 : v + 1 / 2 < 1 := by
          have : (2 : K) ^ (e + 1) = 1 := by rw [he1]; norm_num
          linarith [hs.2]
        have hn_zero : n = 0 := by
          have : n < 1 := by
            apply hnlt
            exact_mod_cast hs1
          omega
        rw [hn_zero, hP53] at hg
        have hv_ge : 1 / 2 - 1 / 2 ^ 54 ≤ v := by
          have hpos53 : (0 : K) < 2 ^ 53 := by positivity
          have hg2 : (1 / 2 - v) * 2 ^ 53 ≤ 1 / 2 := by
            have e1 : ((0 : Int) : K) + 1 - (v + 1 / 2) = 1 / 2 - v := by
              push_cast
              ring
            rw [e1] at hg
            exact hg
          have hx : 1 / 2 - v ≤ 1 / 2 / 2 ^ 53 := by
            rw [le_div_iff₀ hpos53]
            exact hg2
          have e2 : (1 : K) / 2 / 2 ^ 53 = 1 / 2 ^ 54 := by norm_num
          rw [e2] at hx
          linarith
        have hv_gt : 1 / 2 - 1 / 2 ^ 54 < v := lt_of_le_of_ne hv_ge (Ne.symm hne)
        have hv_half : v < 1 / 2 := by rw [← hhalf]; exact hv_lt
        have hb2 : b = -2 := by
          apply hbu (-2)
          · have : (2 : K) ^ (-2 : Int) = 1 / 4 := by
              rw [zpow_neg]
              norm_num
            rw [this]
            have h4 : (1 : K) / 4 < 1 / 2 - 1 / 2 ^ 54 := by norm_num
            exact le_of_lt (lt_trans h4 hv_gt)
          · have : (2 : K) ^ (-2 + 1 : Int) = 1 / 2 := by
              norm_num
            rw [this]
            exact hv_half
        have hzv : v = (z : K) / 2 ^ 54 := by
          rw [hz, hb2]
          have : max (-2 : Int) (-1022) - ((53 : Nat) - 1 : Int) = -(54 : Nat) := by
            norm_num
          rw [this, zpow_neg, zpow_natCast]
          field_simp
        have hpos54 : (0 : K) < 2 ^ 54 := by positivity
        have hz1 : ((9007199254740991 : Int) : K) < (z : K) := by
          have : (1 / 2 - 1 / 2 ^ 54) * 2 ^ 54 < v * 2 ^ 54 :=
            mul_lt_mul_of_pos_right hv_gt hpos54
          rw [hzv] at this
          have e1 : (z : K) / 2 ^ 54 * 2 ^ 54 = z := by field_simp
          rw [e1] at this
          have e2 : ((1 : K) / 2 - 1 / 2 ^ 54) * 2 ^ 54 = ((9007199254740991 : Int) : K) := by
            norm_num
          rw [e2] at this
          exact this
        have hz2 : (z : K) < ((9007199254740992 : Int) : K) := by
          have : v * 2 ^ 54 < 1 / 2 * 2 ^ 54 := mul_lt_mul_of_pos_right hv_half hpos54
          rw [hzv] at this
          have e1 : (z : K) / 2 ^ 54 * 2 ^ 54 = z := by field_simp
          rw [e1] at this
          have e2 : ((1 : K) / 2) * 2 ^ 54 = ((9007199254740992 : Int) : K) := by norm_num
          rw [e2] at this
          exact this
        have hz1i : (9007199254740991 : Int) < z := Int.cast_lt.1 hz1
        have hz2i : z < (9007199254740992 : Int) := Int.cast_lt.1 hz2
        omega

end

/-! ## Lemmas on the C library model -/

/-- A digit is one of the ten digit characters. -/
theorem isdigit_cases {c : Char} (h : isdigit c = true) :
    c = '0' ∨ c = '1' ∨ c = '2' ∨ c = '3' ∨ c = '4' ∨ c = '5' ∨ c = '6' ∨ c = '7' ∨
      c = '8' ∨ c = '9' := by
  have hb : 48 ≤ c.toNat ∧ c.toNat ≤ 57 := by simpa [isdigit] using h
  have hc : Char.ofNat c.toNat = c := Char.ofNat_toNat c
  have hv : c.toNat = 48 ∨ c.toNat = 49 ∨ c.toNat = 50 ∨ c.toNat = 51 ∨ c.toNat = 52 ∨
      c.toNat = 53 ∨ c.toNat = 54 ∨ c.toNat = 55 ∨ c.toNat = 56 ∨ c.toNat = 57 := by omega
  rcases hv with h | h | h | h | h | h | h | h | h | h <;> rw [h] at hc <;>
    simp [← hc]

/-- What a digit is not, and that it belongs to the run set. -/
theorem isdigit_facts {c : Char} (h : isdigit c = true) :
    c ≠ '.' ∧ c ≠ ':' ∧ c ≠ NUL ∧ c ≠ '-' ∧ c ≠ '+' ∧ c ≠ 't' ∧ c ≠ 's' ∧
      isspace c = false ∧ in_run_set c = true := by
  rcases isdigit_cases h with h | h | h | h | h | h | h | h | h | h <;> subst h <;> decide

/-- The head of a non-empty digit string followed by anything is a digit. -/
theorem peek_digits {ds : List Char} (hd : is_digits ds) (rest : List Char) :
    isdigit (peek (ds ++ rest)) = true := by
  obtain ⟨hne, hall⟩ := hd
  cases ds with
  | nil => exact absurd rfl hne
  | cons c ds => exact hall c (by simp)

/-- Reading digits stops at a character that is not a digit. -/
theorem read_digits_stop (rest : List Char) (hrest : isdigit (peek rest) = false) (acc : Nat) :
    read_digits rest acc = (acc, rest) := by
  cases rest with
  | nil => rfl
  | cons c s =>
    have hc : isdigit c = false := hrest
    simp [read_digits, hc]

/-- Reading a digit string followed by a non-digit gives its value and the rest. -/
theorem read_digits_append (ds : List Char) (hds : ∀ c ∈ ds, isdigit c = true)
    (rest : List Char) (hrest : isdigit (peek rest) = false) (acc : Nat) :
    read_digits (ds ++ rest) acc =
      (ds.foldl (fun a c => 10 * a + (c.toNat - 48)) acc, rest) := by
  induction ds generalizing acc with
  | nil => simpa using read_digits_stop rest hrest acc
  | cons c ds ih =>
    have hc : isdigit c = true := hds c (by simp)
    have ih2 := ih (fun d hd => hds d (by simp [hd])) (10 * acc + (c.toNat - 48))
    simp [read_digits, hc, ih2]

/-- The scanner `scan_int` on a digit string followed by a non-digit. -/
theorem scan_int_digits {ds : List Char} (hd : is_digits ds) (rest : List Char)
    (hrest : isdigit (peek rest) = false) :
    scan_int (ds ++ rest) = some ((digits_value ds : Int), rest) := by
  have hpk := peek_digits hd rest
  obtain ⟨hne, hall⟩ := hd
  cases ds with
  | nil => exact absurd rfl hne
  | cons c ds =>
    have hc : isdigit c = true := hall c (by simp)
    obtain ⟨_, _, _, hm, hp, _, _, hsp, _⟩ := isdigit_facts hc
    have hrd := read_digits_append (c :: ds) hall rest hrest 0
    have hss : skip_space (c :: ds ++ rest) = c :: ds ++ rest := by
      simp [skip_space, hsp]
    have hpk2 : peek (c :: ds ++ rest) = c := rfl
    unfold scan_int
    simp only [hss, hpk2]
    rw [List.cons_append] at hrd hpk2
    simp [hm, hp, hc, hrd, digits_value, hpk2]

/-- The balanced remainder leaves a small natural number unchanged. -/
theorem bmod_of_small (v m : Nat) (h : 2 * v < m) : Int.bmod (v : Int) m = v := by
  have h1 : (v : Int) % (m : Int) = v := Int.emod_eq_of_lt (by omega) (by omega)
  rw [Int.bmod_pos]
  · exact h1
  · rw [h1]
    omega

/-- Conversion `%d` on a digit string that fits an `int`. -/
theorem sscanf_d_digits {ds : List Char} (hd : is_digits ds) (hv : digits_value ds < 2 ^ 31)
    (rest : List Char) (hrest : isdigit (peek rest) = false) :
    sscanf_d (ds ++ rest) = some (digits_value ds : Int) := by
  unfold sscanf_d
  rw [scan_int_digits hd rest hrest]
  simp only [Option.map_some']
  rw [bmod_of_small _ _ (by omega)]

/-- Conversion `%ld` on a digit string that fits a `long`. -/
theorem sscanf_ld_digits {ds : List Char} (hd : is_digits ds) (hv : digits_value ds < 2 ^ 63)
    (rest : List Char) (hrest : isdigit (peek rest) = false) :
    sscanf_ld (ds ++ rest) = some (digits_value ds : Int) := by
  unfold sscanf_ld
  rw [scan_int_digits hd rest hrest]
  simp only [Option.map_some']
  rw [bmod_of_small _ _ (by omega)]

/-- The inner skipping loop stops at once on `:`, `.` and the terminator. -/
theorem skip_field_stop (s : List Char) (h : peek s = ':' ∨ peek s = '.' ∨ peek s = NUL) :
    skip_field s = s := by
  cases s with
  | nil => rfl
  | cons c s =>
    have hc : c = ':' ∨ c = '.' ∨ c = NUL := h
    simp [skip_field, hc]

/-- The inner skipping loop passes over digits. -/
theorem skip_field_digits (ds : List Char) (hds : ∀ c ∈ ds, isdigit c = true)
    (rest : List Char) : skip_field (ds ++ rest) = skip_field rest := by
  induction ds with
  | nil => rfl
  | cons c ds ih =>
    obtain ⟨h1, h2, h3, _⟩ := isdigit_facts (hds c (by simp))
    have ih2 := ih (fun d hd => hds d (by simp [hd]))
    simp [skip_field, h1, h2, h3, ih2]

/-- The inner skipping loop never lengthens the text. -/
theorem skip_field_length (s : List Char) : (skip_field s).length ≤ s.length := by
  induction s with
  | nil => simp [skip_field]
  | cons c s ih =>
    unfold skip_field
    split
    · simp
    · simp
      omega

/-- With more iterations allowed than the text has characters, the loop of the
time branch is left by `return NULL` or by `break`: the bound is never used up. -/
theorem time_loop_total (fuel : Nat) :
    ∀ (str : List Char) (time : Int) (samples : Nat), str.length < fuel →
      time_loop fuel str time samples ≠ LoopExit.out_of_fuel := by
  induction fuel with
  | zero => intro str _ _ h; omega
  | succ fuel ih =>
    intro str time samples hlen
    unfold time_loop
    cases hscan : (if peek str = '.' then some time else sscanf_d str) with
    | none => simp
    | some t1 =>
      simp only
      by_cases hb : peek (skip_field str) = '.' ∨ peek (skip_field str) = NUL
      · rw [if_pos hb]
        simp
      · rw [if_neg hb]
        apply ih
        have h1 := skip_field_length str
        have h2 : skip_field str ≠ [] := by
          intro h0
          apply hb
          right
          rw [h0]
          rfl
        have h3 : (skip_field str).tail.length + 1 = (skip_field str).length := by
          cases hs : skip_field str with
          | nil => exact absurd hs h2
          | cons c r => simp
        omega

/-! ## Lemmas on the classification of the run -/

/-- The run of a text that splits into run characters and a rest that does not
start with one. -/
theorem run_len_append (run rest : List Char) (hrun : ∀ c ∈ run, in_run_set c = true)
    (hrest : in_run_set (peek rest) = false) : run_len (run ++ rest) = run.length := by
  induction run with
  | nil =>
    cases rest with
    | nil => rfl
    | cons c s =>
      have hc : in_run_set c = false := hrest
      simp [run_len, hc]
  | cons c run ih =>
    have hc : in_run_set c = true := hrun c (by simp)
    have ih2 := ih (fun d hd => hrun d (by simp [hd]))
    simp [run_len, hc, ih2]

/-- A run character is not the terminator. -/
theorem in_run_set_ne_NUL {c : Char} (h : in_run_set c = true) : c ≠ NUL := by
  intro h0
  subst h0
  revert h
  decide

/-- The flags `found_colon` and `found_dot` tell whether the character occurs in the run. -/
theorem found_before_append (run rest : List Char) (hrun : ∀ c ∈ run, in_run_set c = true)
    (ch : Char) : found_before (run ++ rest) run.length ch = decide (ch ∈ run) := by
  induction run with
  | nil =>
    unfold found_before
    cases strchr ([] ++ rest) ch <;> simp
  | cons c run ih =>
    have hc := in_run_set_ne_NUL (hrun c (by simp))
    have ih2 := ih (fun d hd => hrun d (by simp [hd]))
    by_cases heq : c = ch
    · subst heq
      simp [found_before, strchr]
    · have hne : ¬ ch = c := fun h => heq h.symm
      unfold found_before at ih2 ⊢
      simp only [List.cons_append, strchr, heq, hc, if_false, List.mem_cons, hne, false_or]
      rw [← ih2]
      cases strchr (run ++ rest) ch <;> simp

/-- The character before the end of the run is its last character. -/
theorem getD_last_append (run rest : List Char) (hne : run ≠ []) :
    (run ++ rest).getD (run.length - 1) NUL = run.getLast hne := by
  have hpos : 0 < run.length := List.length_pos.2 hne
  have hlt : run.length - 1 < run.length := by omega
  rw [List.getD_eq_getElem?_getD, List.getElem?_append_left hlt,
    List.getElem?_eq_getElem hlt, List.getLast_eq_getElem]
  rfl

/-- The flag `found_time` on a text split into its run and the rest. -/
theorem found_time_append (run rest : List Char) (hne : run ≠ [])
    (hrun : ∀ c ∈ run, in_run_set c = true) (hrest : in_run_set (peek rest) = false) :
    found_time (run ++ rest) =
      (decide (':' ∈ run) || decide ('.' ∈ run) || (run.getLast hne == 't')) := by
  unfold found_time
  simp only [run_len_append run rest hrun hrest, found_before_append run rest hrun,
    getD_last_append run rest hne]

/-- The flag `found_samples` on a text split into its run and the rest. -/
theorem found_samples_append (run rest : List Char) (hne : run ≠ [])
    (hrun : ∀ c ∈ run, in_run_set c = true) (hrest : in_run_set (peek rest) = false) :
    found_samples (run ++ rest) =
      (!(decide (':' ∈ run) || decide ('.' ∈ run) || (run.getLast hne == 't')) &&
        (run.getLast hne == 's')) := by
  unfold found_samples
  rw [found_time_append run rest hne hrun hrest, run_len_append run rest hrun hrest,
    getD_last_append run rest hne]

/-- A run classified as time is handled by the time branch, whatever the
default unit is. -/
theorem parsesamples_time (rate : ℚ) (run rest : List Char) (hne : run ≠ [])
    (hrun : ∀ c ∈ run, in_run_set c = true) (hrest : in_run_set (peek rest) = false)
    (ht : ':' ∈ run ∨ '.' ∈ run ∨ run.getLast hne = 't') (samples : Nat) (def_ : Char) :
    lsx_parsesamples rate (run ++ rest) samples def_ =
      time_branch rate (run ++ rest) run.length := by
  have hft : found_time (run ++ rest) = true := by
    rw [found_time_append run rest hne hrun hrest]
    rcases ht with h | h | h <;> simp [h]
  have hn : run.length ≠ 0 := fun h => hne (List.length_eq_zero.1 h)
  unfold lsx_parsesamples
  simp [run_len_append run rest hrun hrest, hn, hft]

/-- A run without `:` and `.` whose last character is a digit is handled by the
branch that the default unit selects. -/
theorem parsesamples_default (rate : ℚ) (run rest : List Char) (hne : run ≠ [])
    (hrun : ∀ c ∈ run, in_run_set c = true) (hrest : in_run_set (peek rest) = false)
    (hc : ':' ∉ run) (hd : '.' ∉ run) (hlast : isdigit (run.getLast hne) = true)
    (samples : Nat) (def_ : Char) :
    lsx_parsesamples rate (run ++ rest) samples def_ =
      if def_ = 't' then time_branch rate (run ++ rest) run.length
      else if def_ = 's' then samples_branch (run ++ rest) run.length samples
      else ⟨none, samples⟩ := by
  obtain ⟨_, _, _, _, _, h_t, h_s, _, _⟩ := isdigit_facts hlast
  have hft : found_time (run ++ rest) = false := by
    rw [found_time_append run rest hne hrun hrest]
    simp [hc, hd, h_t]
  have hfs : found_samples (run ++ rest) = false := by
    rw [found_samples_append run rest hne hrun hrest]
    simp [h_s]
  have hn : run.length ≠ 0 := fun h => hne (List.length_eq_zero.1 h)
  unfold lsx_parsesamples
  simp only [run_len_append run rest hrun hrest, hn, hft, hfs, if_false]
  by_cases h1 : def_ = 't'
  · simp [h1]
  · by_cases h2 : def_ = 's'
    · subst h2
      simp
    · simp [h1, h2]

/-! ## Theorems: lsx_parsesamples, samples mode -/

/-- Conversion to `size_t` leaves a natural number below `2 ^ 64` unchanged. -/
theorem int_to_size_t_nat (v : Nat) (h : v < 2 ^ 64) : int_to_size_t (v : Int) = v := by
  unfold int_to_size_t
  have h1 : (v : Int) % 2 ^ 64 = v := Int.emod_eq_of_lt (by omega) (by omega)
  rw [h1]
  simp

/-- A character outside the run set is not a digit. -/
theorem not_isdigit_of_not_in_run_set {c : Char} (h : in_run_set c = false) :
    isdigit c = false := by
  cases hd : isdigit c with
  | false => rfl
  | true =>
    have := (isdigit_facts hd).2.2.2.2.2.2.2.2
    rw [h] at this
    exact absurd this (by decide)

/-- Every character of a digit string is in the run set. -/
theorem digits_in_run_set {ds : List Char} (hd : is_digits ds) :
    ∀ c ∈ ds, in_run_set c = true :=
  fun c hc => (isdigit_facts (hd.2 c hc)).2.2.2.2.2.2.2.2

/-- The last character of a digit string is a digit. -/
theorem digits_getLast {ds : List Char} (hd : is_digits ds) :
    isdigit (ds.getLast hd.1) = true :=
  hd.2 _ (List.getLast_mem hd.1)

/-- No digit string contains the given non-digit. -/
theorem digits_not_mem {ds : List Char} (hd : is_digits ds) {ch : Char}
    (hch : isdigit ch = false) : ch ∉ ds := by
  intro hmem
  rw [hd.2 ch hmem] at hch
  exact absurd hch (by decide)

/-- C4. Samples mode: for every rate and default unit and every non-empty digit
string `D` whose value fits a `long`, the text `D` followed by `s` (and then by
a remainder that does not continue the run) gives the sample count `D` and the
remainder just past the `s`; so does the bare `D` when the default unit is `s`. -/
theorem parsesamples_samples_mode (rate : ℚ) (ds rest : List Char) (samples : Nat)
    (def_ : Char) (hd : is_digits ds) (hv : digits_value ds < 2 ^ 63)
    (hrest : in_run_set (peek rest) = false) :
    lsx_parsesamples rate (ds ++ 's' :: rest) samples def_ =
      ⟨some rest, digits_value ds⟩ ∧
    lsx_parsesamples rate (ds ++ rest) samples 's' = ⟨some rest, digits_value ds⟩ := by
  have hsz : int_to_size_t (digits_value ds : Int) = digits_value ds :=
    int_to_size_t_nat _ (by omega)
  constructor
  · have hrun : ∀ c ∈ ds ++ ['s'], in_run_set c = true := by
      intro c hc
      rcases List.mem_append.1 hc with h | h
      · exact digits_in_run_set hd c h
      · rw [List.mem_singleton.1 h]
        decide
    have hne : ds ++ ['s'] ≠ [] := by simp
    have hsplit : ds ++ 's' :: rest = (ds ++ ['s']) ++ rest := by simp
    have hc : ':' ∉ ds := digits_not_mem hd (by decide)
    have hdot : '.' ∉ ds := digits_not_mem hd (by decide)
    have hft : found_time ((ds ++ ['s']) ++ rest) = false := by
      rw [found_time_append _ rest hne hrun hrest]
      simp [hc, hdot]
    have hfs : found_samples ((ds ++ ['s']) ++ rest) = true := by
      rw [found_samples_append _ rest hne hrun hrest]
      simp [hc, hdot]
    have hscan : sscanf_ld (ds ++ 's' :: rest) = some (digits_value ds : Int) :=
      sscanf_ld_digits hd hv _ (show isdigit 's' = false by decide)
    rw [hsplit]
    unfold lsx_parsesamples
    simp only [run_len_append _ rest hrun hrest, hft, hfs]
    rw [← hsplit]
    simp [samples_branch, hscan, hsz]
  · have hscan : sscanf_ld (ds ++ rest) = some (digits_value ds : Int) :=
      sscanf_ld_digits hd hv _ (not_isdigit_of_not_in_run_set hrest)
    rw [parsesamples_default rate ds rest hd.1 (digits_in_run_set hd) hrest
      (digits_not_mem hd (by decide)) (digits_not_mem hd (by decide)) (digits_getLast hd)]
    simp [samples_branch, hscan, hsz]

/-- C4 on the text "44100s" at rate 44100 with default unit `t`, and on "44100"
with default unit `s`: 44100 samples and an empty remainder. -/
theorem parsesamples_samples_mode_witness :
    lsx_parsesamples 44100 ("44100".toList ++ 's' :: []) 0 't' =
      ⟨some [], digits_value "44100".toList⟩ ∧
    lsx_parsesamples 44100 ("44100".toList ++ []) 0 's' =
      ⟨some [], digits_value "44100".toList⟩ :=
  parsesamples_samples_mode 44100 "44100".toList [] 0 't'
    ⟨by decide, by decide⟩ (by decide) (by decide)

/-! ## Theorems: lsx_parsesamples, time mode -/

/-- The text after the last field of a time text does not start with a digit. -/
theorem not_isdigit_of_stop {s : List Char} (h : peek s = '.' ∨ peek s = NUL) :
    isdigit (peek s) = false := by
  rcases h with h | h <;> rw [h] <;> decide

/-- One pass of the loop over a field: the text starts with a digit, so the
field is read by `%d`. -/
theorem time_loop_step (fuel : Nat) (f rest : List Char) (time : Int) (a : Nat)
    (hf : is_digits f) (hv : digits_value f < 2 ^ 31) (hrest : isdigit (peek rest) = false)
    (ha : a + digits_value f < 2 ^ 64) :
    time_loop (fuel + 1) (f ++ rest) time a =
      if peek (skip_field rest) = '.' ∨ peek (skip_field rest) = NUL then
        LoopExit.brk (skip_field rest) (a + digits_value f)
      else time_loop fuel (skip_field rest).tail (digits_value f)
        ((a + digits_value f) * 60 % 2 ^ 64) := by
  have hpk : peek (f ++ rest) ≠ '.' := (isdigit_facts (peek_digits hf rest)).1
  have hsz : int_to_size_t ((a : Int) + (digits_value f : Int)) = a + digits_value f := by
    have := int_to_size_t_nat (a + digits_value f) ha
    rw [← this]
    push_cast
    rfl
  rw [time_loop]
  simp only [if_neg hpk, sscanf_d_digits hf hv rest hrest, hsz, skip_field_digits f hf.2 rest]

/-- Arithmetic of one more-significant field: no intermediate value exceeds the
final one. -/
theorem horner_step_bound (a v P B : Nat) (hP : 0 < P)
    (hbound : a * (P * 60) + (v * (P * 60) + B) < 2 ^ 64) :
    (a + v) * 60 < 2 ^ 64 ∧ a + v < 2 ^ 64 ∧
      (a + v) * 60 * P + B = a * (P * 60) + (v * (P * 60) + B) := by
  have hmul : (a + v) * 60 ≤ (a + v) * 60 * P := Nat.le_mul_of_pos_right _ hP
  have hexp : (a + v) * 60 * P + B = a * (P * 60) + (v * (P * 60) + B) := by ring
  refine ⟨by omega, by omega, hexp⟩

/-- The loop of the time branch on `f1:f2:...:fk` followed by `.` or by the end
of the text: it leaves by `break` with the base-60 value of the fields added to
the accumulator. -/
theorem time_loop_fields (fields : List (List Char)) :
    fields ≠ [] → (∀ f ∈ fields, is_digits f ∧ digits_value f < 2 ^ 31) →
    ∀ (tail : List Char), (peek tail = '.' ∨ peek tail = NUL) →
    ∀ (fuel : Nat) (time : Int) (a : Nat), fields.length ≤ fuel →
      a * 60 ^ (fields.length - 1) + base60 fields < 2 ^ 64 →
      time_loop fuel (colon_text fields ++ tail) time a =
        LoopExit.brk tail (a * 60 ^ (fields.length - 1) + base60 fields) := by
  induction fields with
  | nil => intro h; exact absurd rfl h
  | cons f rest ih =>
    intro _ hall tail htail fuel time a hfuel hbound
    obtain ⟨hf, hv⟩ := hall f (by simp)
    cases fuel with
    | zero => simp at hfuel
    | succ fuel =>
      cases rest with
      | nil =>
        simp only [List.length_singleton, Nat.sub_self, pow_zero, mul_one, base60,
          List.length_nil, add_zero] at hbound ⊢
        have hstop : skip_field tail = tail := skip_field_stop tail (Or.inr htail)
        rw [colon_text, time_loop_step fuel f tail time a hf hv (not_isdigit_of_stop htail)
          (by omega), hstop, if_pos htail]
      | cons g rest2 =>
        have hall2 : ∀ x ∈ g :: rest2, is_digits x ∧ digits_value x < 2 ^ 31 :=
          fun x hx => hall x (List.mem_cons_of_mem _ hx)
        have hlen : (f :: g :: rest2).length - 1 = (g :: rest2).length - 1 + 1 := by simp
        have hP : 0 < 60 ^ ((g :: rest2).length - 1) := by positivity
        have hb60 : base60 (f :: g :: rest2) =
            digits_value f * 60 ^ ((g :: rest2).length - 1 + 1) + base60 (g :: rest2) := by
          simp [base60]
        rw [hlen, hb60, pow_succ] at hbound ⊢
        obtain ⟨hsmall, hsum, hexp⟩ := horner_step_bound a (digits_value f) _ _ hP hbound
        have hcolon : peek (':' :: (colon_text (g :: rest2) ++ tail)) = ':' := rfl
        have hstop : skip_field (':' :: (colon_text (g :: rest2) ++ tail)) =
            ':' :: (colon_text (g :: rest2) ++ tail) :=
          skip_field_stop _ (Or.inl hcolon)
        have htext : colon_text (f :: g :: rest2) ++ tail =
            f ++ ':' :: (colon_text (g :: rest2) ++ tail) := by
          simp [colon_text]
        have hnb : ¬ (peek (':' :: (colon_text (g :: rest2) ++ tail)) = '.' ∨
            peek (':' :: (colon_text (g :: rest2) ++ tail)) = NUL) := by
          rw [hcolon]
          decide
        rw [htext, time_loop_step fuel f _ time a hf hv (by rw [hcolon]; decide)
          hsum, hstop, if_neg hnb, List.tail_cons, Nat.mod_eq_of_lt hsmall,
          ih (by simp) hall2 tail htail fuel _ _ (by simpa using hfuel) (by omega), hexp]

/-- The value of a digit string is below the power of ten of its length. -/
theorem digits_value_lt (ds : List Char) (hds : ∀ c ∈ ds, isdigit c = true) :
    digits_value ds < 10 ^ ds.length := by
  have key : ∀ (l : List Char), (∀ c ∈ l, isdigit c = true) → ∀ acc : Nat,
      l.foldl (fun a c => 10 * a + (c.toNat - 48)) acc + 1 ≤ (acc + 1) * 10 ^ l.length := by
    intro l
    induction l with
    | nil => intro _ acc; simp
    | cons c l ih =>
      intro hl acc
      have hc : isdigit c = true := hl c (by simp)
      have hb : 48 ≤ c.toNat ∧ c.toNat ≤ 57 := by simpa [isdigit] using hc
      have h1 := ih (fun d hd => hl d (by simp [hd])) (10 * acc + (c.toNat - 48))
      have h2 : 10 * acc + (c.toNat - 48) + 1 ≤ (acc + 1) * 10 := by omega
      calc (c :: l).foldl (fun a c => 10 * a + (c.toNat - 48)) acc + 1
          ≤ (10 * acc + (c.toNat - 48) + 1) * 10 ^ l.length := h1
        _ ≤ (acc + 1) * 10 * 10 ^ l.length := Nat.mul_le_mul_right _ h2
        _ = (acc + 1) * 10 ^ (c :: l).length := by
          rw [List.length_cons, pow_succ]
          ring
  have h := key ds hds 0
  simp only [zero_add, one_mul] at h
  unfold digits_value
  omega

/-- The decimal literal `.F` followed by a character that neither continues the digits
nor starts an exponent: the value `0.F` and the text after it. -/
theorem scan_decimal_point_digits {ds : List Char} (hd : is_digits ds) (rest : List Char)
    (hrest : isdigit (peek rest) = false) (he : peek rest ≠ 'e') (hE : peek rest ≠ 'E') :
    scan_decimal ('.' :: ds ++ rest) =
      some ((digits_value ds : ℚ) / (10 : ℚ) ^ ds.length, rest) := by
  have hpk : peek ('.' :: (ds ++ rest)) = '.' := rfl
  have hip : read_digits ('.' :: (ds ++ rest)) 0 = (0, '.' :: (ds ++ rest)) :=
    read_digits_stop _ (by rw [hpk]; decide) 0
  have hfp : read_digits (ds ++ rest) 0 = (digits_value ds, rest) :=
    read_digits_append ds hd.2 rest hrest 0
  have hlen : 0 < ds.length := List.length_pos.2 hd.1
  have hnd : ¬ ((ds.length + rest.length + 1 - (ds.length + rest.length + 1)) +
      (ds.length + rest.length - rest.length) = 0) := by omega
  have hsub : ds.length + rest.length - rest.length = ds.length := by omega
  unfold scan_decimal
  simp only [List.cons_append, hpk, hip, hfp, List.tail_cons, List.length_cons,
    List.length_append, hnd, hsub, he, hE, if_false, if_true, beq_self_eq_true,
    Bool.or_self, Bool.false_or, Bool.or_false, beq_iff_eq, Bool.false_eq_true]
  simp [hd.1, he, hE]

/-- A text that starts with a point is scanned as a decimal literal. -/
theorem scan_float_point (s : List Char) :
    scan_float ('.' :: s) =
      (scan_decimal ('.' :: s)).map fun p => (FloatLit.num p.1, p.2) := by
  have hss : skip_space ('.' :: s) = '.' :: s := by
    simp [skip_space, isspace]
  have hpk : peek ('.' :: s) = '.' := rfl
  have has : after_sign ('.' :: s) = '.' :: s := by
    unfold after_sign
    rw [hss, hpk]
    rfl
  have h1 : match_word "infinity".toList ('.' :: s) = none := by
    simp [match_word, tolower]
  have h2 : match_word "inf".toList ('.' :: s) = none := by
    simp [match_word, tolower]
  have h3 : match_word "nan".toList ('.' :: s) = none := by
    simp [match_word, tolower]
  unfold scan_float
  simp only [has, hss, hpk, h1, h2, h3, show ('.' == '-') = false by decide,
    show ('.' == '0') = false by decide, Bool.false_and, if_false, Bool.false_eq_true]

/-- Conversion `%f` on `.F` followed by a character that neither continues the digits nor
starts an exponent: the `float` nearest to `0.F`. -/
theorem sscanf_f_point_digits {ds : List Char} (hd : is_digits ds) (rest : List Char)
    (hrest : isdigit (peek rest) = false) (he : peek rest ≠ 'e') (hE : peek rest ≠ 'E') :
    sscanf_f ('.' :: ds ++ rest) =
      some (CDouble.fin (to_float ((digits_value ds : ℚ) / (10 : ℚ) ^ ds.length))) := by
  have hlt := digits_value_lt ds hd.2
  have hpos : (0 : ℚ) < (10 : ℚ) ^ ds.length := by positivity
  have hq : (digits_value ds : ℚ) / (10 : ℚ) ^ ds.length < 1 := by
    rw [div_lt_one hpos]
    exact_mod_cast hlt
  have hq0 : (0 : ℚ) ≤ (digits_value ds : ℚ) / (10 : ℚ) ^ ds.length := by positivity
  have hsmall : ¬ ((2 : ℚ) ^ 128 - 2 ^ 103 ≤ |(digits_value ds : ℚ) / (10 : ℚ) ^ ds.length|) := by
    rw [abs_of_nonneg hq0, not_le]
    have : (1 : ℚ) < 2 ^ 128 - 2 ^ 103 := by norm_num
    linarith
  unfold sscanf_f
  rw [List.cons_append, scan_float_point, ← List.cons_append,
    scan_decimal_point_digits hd rest hrest he hE]
  simp only [Option.map_some', FloatLit.as_float, float_of_rat, if_neg hsmall]

/-- Each field being non-empty, the text has at least as many characters as
there are fields. -/
theorem colon_text_length (fields : List (List Char)) (h : ∀ f ∈ fields, f ≠ []) :
    fields.length ≤ (colon_text fields).length := by
  induction fields with
  | nil => simp
  | cons f rest ih =>
    have hf : 0 < f.length := List.length_pos.2 (h f (by simp))
    have ih2 := ih (fun x hx => h x (List.mem_cons_of_mem _ hx))
    cases rest with
    | nil => simpa [colon_text] using hf
    | cons g rest2 =>
      simp only [colon_text, List.length_append, List.length_cons] at ih2 ⊢
      omega

/-- The time branch on `f1:...:fk`, an optional `.F` and a rest that neither
continues the literal nor the text when there is no fraction: the count is the
truncated `double` sum `time_sum`. -/
theorem time_branch_fields (rate : ℚ) (fields : List (List Char)) (F : Option (List Char))
    (rest : List Char) (n : Nat) (hfields : fields ≠ [])
    (hall : ∀ f ∈ fields, is_digits f ∧ digits_value f < 2 ^ 31)
    (hF : ∀ ds, F = some ds → is_digits ds)
    (hnone : F = none → peek rest = NUL)
    (hrest : isdigit (peek rest) = false) (he : peek rest ≠ 'e') (hE : peek rest ≠ 'E')
    (hacc : base60 fields < 2 ^ 64) :
    time_branch rate (colon_text fields ++ (frac_text F ++ rest)) n =
      ⟨some ((colon_text fields ++ (frac_text F ++ rest)).drop n),
        double_to_size_t (to_double
          (to_double ((double_to_size_t (time_product rate (base60 fields)) : ℕ) : ℚ) +
            to_double (to_double (rate * to_float (frac_value F)) + 1 / 2)))⟩ := by
  have htail : peek (frac_text F ++ rest) = '.' ∨ peek (frac_text F ++ rest) = NUL := by
    cases F with
    | none => exact Or.inr (hnone rfl)
    | some ds => exact Or.inl rfl
  have hfuel : fields.length ≤ (colon_text fields ++ (frac_text F ++ rest)).length + 1 := by
    have := colon_text_length fields (fun f hf => (hall f hf).1.1)
    simp only [List.length_append]
    omega
  have hloop := time_loop_fields fields hfields hall (frac_text F ++ rest) htail
    ((colon_text fields ++ (frac_text F ++ rest)).length + 1) 0 0 hfuel (by simpa using hacc)
  simp only [zero_mul, zero_add] at hloop
  unfold time_branch
  rw [hloop]
  cases F with
  | none =>
    have hnd : ¬ peek ([] ++ rest) = '.' := by
      rw [List.nil_append, hnone rfl]
      decide
    simp only [frac_text, frac_value, if_neg hnd, to_float, round_binary_zero, time_product]
  | some ds =>
    have hpk : peek ('.' :: ds ++ rest) = '.' := rfl
    simp only [frac_text, frac_value, hpk, if_true,
      sscanf_f_point_digits (hF ds rfl) rest hrest he hE, time_product]

/-- Conversion of a non-negative `double` below `2 ^ 64` to `size_t` is the floor. -/
theorem double_to_size_t_eq (x : ℚ) (h1 : x < 2 ^ 64) :
    double_to_size_t x = (Int.floor x).toNat := by
  unfold double_to_size_t
  apply Nat.mod_eq_of_lt
  have hfl : Int.floor x < 2 ^ 64 := by
    rw [Int.floor_lt]
    exact_mod_cast h1
  omega

/-- Conversion of a natural number below `2 ^ 64`, held in a `double`, to `size_t`. -/
theorem double_to_size_t_nat (m : Nat) (h : m < 2 ^ 64) : double_to_size_t (m : ℚ) = m := by
  rw [double_to_size_t_eq _ (by exact_mod_cast h)]
  simp

/-- Every character of `f1:...:fk` is in the run set. -/
theorem colon_text_in_run_set (fields : List (List Char))
    (hall : ∀ f ∈ fields, is_digits f) : ∀ c ∈ colon_text fields, in_run_set c = true := by
  induction fields with
  | nil => intro c hc; simp [colon_text] at hc
  | cons f rest ih =>
    have hf := digits_in_run_set (hall f (by simp))
    have ih2 := ih (fun x hx => hall x (List.mem_cons_of_mem _ hx))
    cases rest with
    | nil => simpa [colon_text] using hf
    | cons g rest2 =>
      intro c hc
      simp only [colon_text, List.mem_append, List.mem_cons] at hc
      rcases hc with h | h | h
      · exact hf c h
      · rw [h]
        decide
      · exact ih2 c h

/-- Every character of the optional `.F` is in the run set. -/
theorem frac_text_in_run_set (F : Option (List Char)) (hF : ∀ ds, F = some ds → is_digits ds) :
    ∀ c ∈ frac_text F, in_run_set c = true := by
  cases F with
  | none => intro c hc; simp [frac_text] at hc
  | some ds =>
    intro c hc
    simp only [frac_text, List.mem_cons] at hc
    rcases hc with h | h
    · rw [h]
      decide
    · exact digits_in_run_set (hF ds rfl) c h

/-- A time text (fields, optional fraction) that has a colon or a fraction, or is
parsed with default unit `t`, is handled by the time branch. -/
theorem parsesamples_time_text (rate : ℚ) (fields : List (List Char))
    (F : Option (List Char)) (samples : Nat) (def_ : Char) (hfields : fields ≠ [])
    (hall : ∀ f ∈ fields, is_digits f) (hF : ∀ ds, F = some ds → is_digits ds)
    (hmode : 2 ≤ fields.length ∨ F.isSome = true ∨ def_ = 't') :
    lsx_parsesamples rate (colon_text fields ++ frac_text F) samples def_ =
      time_branch rate (colon_text fields ++ frac_text F)
        (colon_text fields ++ frac_text F).length := by
  have hrun : ∀ c ∈ colon_text fields ++ frac_text F, in_run_set c = true := by
    intro c hc
    rcases List.mem_append.1 hc with h | h
    · exact colon_text_in_run_set fields hall c h
    · exact frac_text_in_run_set F hF c h
  have hne : colon_text fields ++ frac_text F ≠ [] := by
    have h1 := colon_text_length fields (fun f hf => (hall f hf).1)
    have h2 : 0 < fields.length := List.length_pos.2 hfields
    intro h0
    have h3 := congrArg List.length h0
    simp only [List.length_append, List.length_nil] at h3
    omega
  have hnil : in_run_set (peek ([] : List Char)) = false := by decide
  have key := fun ht => parsesamples_time rate (colon_text fields ++ frac_text F) [] hne hrun
    hnil ht samples def_
  simp only [List.append_nil] at key
  cases F with
  | some ds => exact key (Or.inr (Or.inl (by simp [frac_text])))
  | none =>
    cases fields with
    | nil => exact absurd rfl hfields
    | cons f rest =>
      cases rest with
      | cons g rest2 => exact key (Or.inl (by simp [colon_text]))
      | nil =>
        have hdef : def_ = 't' := by
          rcases hmode with h | h | h
          · simp at h
          · simp at h
          · exact h
        have hf := hall f (by simp)
        have hd := parsesamples_default rate f [] hf.1 (digits_in_run_set hf) hnil
          (digits_not_mem hf (by decide)) (digits_not_mem hf (by decide)) (digits_getLast hf)
          samples def_
        simp only [List.append_nil, hdef, if_true] at hd
        simpa [colon_text, frac_text, hdef] using hd

/-- The floor of a natural number plus one half. -/
theorem floor_nat_half (m : Nat) : (Int.floor ((m : ℚ) + 1 / 2)).toNat = m := by
  have hfl : Int.floor ((m : ℚ) + 1 / 2) = (m : ℤ) := by
    rw [Int.floor_eq_iff]
    constructor
    · push_cast
      linarith
    · push_cast
      linarith
  rw [hfl]
  exact Int.toNat_ofNat _

/-- C1 (amended). For every positive rate and every time-mode text
`f1:...:fk` with an optional `.F` (fields fitting an `int`, no `size_t` overflow),
`lsx_parsesamples` succeeds with an empty remainder and stores the truncation of
`S + (rate * f + 0.5)`, where `S` is the truncation of `rate * seconds`, `f` is the
fraction rounded to `float`, and every product and sum is rounded to `double`
(`time_sum`). When none of these operations rounds and `rate * seconds` is an
integer (`time_exact`), this is the round-half-up of `rate * (seconds + fraction)`. -/
theorem parsesamples_time_value (rate : ℚ) (fields : List (List Char))
    (F : Option (List Char)) (samples : Nat) (def_ : Char) (hrate : 0 < rate)
    (hfields : fields ≠ [])
    (hall : ∀ f ∈ fields, is_digits f ∧ digits_value f < 2 ^ 31)
    (hF : ∀ ds, F = some ds → is_digits ds)
    (hmode : 2 ≤ fields.length ∨ F.isSome = true ∨ def_ = 't')
    (hacc : base60 fields < 2 ^ 64)
    (hfit1 : time_product rate (base60 fields) < 2 ^ 64)
    (hfit2 : time_sum rate (base60 fields) (frac_value F) < 2 ^ 64) :
    lsx_parsesamples rate (colon_text fields ++ frac_text F) samples def_ =
      ⟨some [], (Int.floor (time_sum rate (base60 fields) (frac_value F))).toNat⟩ ∧
    (time_exact rate (base60 fields) (frac_value F) →
      lsx_parsesamples rate (colon_text fields ++ frac_text F) samples def_ =
        ⟨some [], round_half_up (rate * ((base60 fields : ℚ) + frac_value F))⟩) := by
  have _hpos : 0 ≤ rate := hrate.le
  have hbranch := time_branch_fields rate fields F [] (colon_text fields ++ frac_text F).length
    hfields hall hF (fun _ => rfl) (by decide) (by decide) (by decide) hacc
  simp only [List.append_nil, List.drop_length] at hbranch
  have hmain : lsx_parsesamples rate (colon_text fields ++ frac_text F) samples def_ =
      ⟨some [], (Int.floor (time_sum rate (base60 fields) (frac_value F))).toNat⟩ := by
    rw [parsesamples_time_text rate fields F samples def_ hfields (fun f hf => (hall f hf).1)
      hF hmode, hbranch, double_to_size_t_eq _ hfit1]
    have hsum : to_double (to_double
        (((Int.floor (time_product rate (base60 fields))).toNat : ℕ) : ℚ) +
          to_double (to_double (rate * to_float (frac_value F)) + 1 / 2)) =
        time_sum rate (base60 fields) (frac_value F) := rfl
    rw [hsum, double_to_size_t_eq _ hfit2]
  refine ⟨hmain, ?_⟩
  rintro ⟨he1, he2, he3, he4, he5, he6, he7⟩
  rw [hmain]
  have hsum : time_sum rate (base60 fields) (frac_value F) =
      rate * ((base60 fields : ℚ) + frac_value F) + 1 / 2 := by
    unfold time_sum time_product
    rw [he2, he3, he4, he3, he1, he5, he6, he7]
    ring
  rw [hsum]
  rfl

/-- C1 at rate 44100 on the text "0:01.5": 66150 samples. -/
theorem parsesamples_time_value_witness :
    lsx_parsesamples 44100 (colon_text ["0".toList, "01".toList] ++ frac_text (some "5".toList))
      0 't' =
      ⟨some [], round_half_up (44100 * ((base60 ["0".toList, "01".toList] : ℚ) +
        frac_value (some "5".toList)))⟩ ∧
    round_half_up (44100 * ((base60 ["0".toList, "01".toList] : ℚ) +
        frac_value (some "5".toList))) = 66150 :=
  ⟨(parsesamples_time_value 44100 ["0".toList, "01".toList] (some "5".toList) 0 't'
      (by norm_num) (by decide) (by decide)
      (by intro ds h; cases h; exact ⟨by decide, by decide⟩)
      (by decide) (by decide) (by decide!) (by decide!)).2
      ⟨by decide!, by decide!, by decide!, by decide!, by decide!, by decide!, by decide!⟩,
   by decide!⟩

/-- C1 as stated fails at the rate 1/2 on the text "1.5", where the claim gives
`floor (1/2 * 1.5 + 1/2) = 1` and the code stores 0 (the product `rate * seconds`
is truncated before the fraction is added), and at the rate 44100 on the text
"0.005", where the claim gives `floor (220.5 + 1/2) = 221` and the code stores 220
(the fraction is a `float`, and the `float` nearest to 0.005 is smaller than 0.005). -/
theorem parsesamples_time_value_counterexample :
    (colon_text ["1".toList] ++ frac_text (some "5".toList) = "1.5".toList ∧
      lsx_parsesamples (1 / 2) (colon_text ["1".toList] ++ frac_text (some "5".toList)) 0 't' =
        ⟨some [], 0⟩ ∧
      round_half_up ((1 / 2) * ((base60 ["1".toList] : ℚ) + frac_value (some "5".toList))) =
        1) ∧
    (colon_text ["0".toList] ++ frac_text (some "005".toList) = "0.005".toList ∧
      lsx_parsesamples 44100 (colon_text ["0".toList] ++ frac_text (some "005".toList)) 0 't' =
        ⟨some [], 220⟩ ∧
      to_float (frac_value (some "005".toList)) = 5368709 / 1073741824 ∧
      round_half_up (44100 * ((base60 ["0".toList] : ℚ) + frac_value (some "005".toList))) =
        221) := by
  decide!

/-- C5 (amended). Time mode without a fractional part: for every positive integer
rate and every text `f1:f2:...:fk` (`k ≥ 1`, non-empty digit fields that fit an
`int`, the text being in time mode: a colon is present or the default unit is
`t`), the loop accumulates `f1 * 60 ^ (k - 1) + ... + fk` seconds and the sample
count is the rate times that value, provided this product is below `2 ^ 52`. -/
theorem parsesamples_hms (r : Nat) (fields : List (List Char)) (samples : Nat) (def_ : Char)
    (hr : 0 < r) (hfields : fields ≠ [])
    (hall : ∀ f ∈ fields, is_digits f ∧ digits_value f < 2 ^ 31)
    (hmode : 2 ≤ fields.length ∨ def_ = 't')
    (hfit : r * base60 fields < 2 ^ 52) :
    time_loop ((colon_text fields).length + 1) (colon_text fields) 0 0 =
      LoopExit.brk [] (base60 fields) ∧
    lsx_parsesamples (r : ℚ) (colon_text fields) samples def_ =
      ⟨some [], r * base60 fields⟩ := by
  have hle : base60 fields ≤ r * base60 fields := Nat.le_mul_of_pos_left _ hr
  have hacc : base60 fields < 2 ^ 64 := by omega
  constructor
  · have hfuel : fields.length ≤ (colon_text fields).length + 1 := by
      have := colon_text_length fields (fun f hf => (hall f hf).1.1)
      omega
    have hloop := time_loop_fields fields hfields hall [] (Or.inr rfl)
      ((colon_text fields).length + 1) 0 0 hfuel (by simpa using hacc)
    simpa using hloop
  · have hmode2 : 2 ≤ fields.length ∨ (none : Option (List Char)).isSome = true ∨ def_ = 't' := by
      rcases hmode with h | h
      · exact Or.inl h
      · exact Or.inr (Or.inr h)
    have hcls := parsesamples_time_text (r : ℚ) fields none samples def_ hfields
      (fun f hf => (hall f hf).1) (fun _ h => by cases h) hmode2
    have hbranch := time_branch_fields (r : ℚ) fields none [] (colon_text fields).length
      hfields hall (fun _ h => by cases h) (fun _ => rfl) (by decide) (by decide) (by decide)
      hacc
    simp only [frac_text, List.append_nil, List.drop_length, frac_value] at hcls hbranch
    have hprod : time_product (r : ℚ) (base60 fields) = ((r * base60 fields : ℕ) : ℚ) := by
      unfold time_product
      rw [to_double_nat _ (by omega)]
      have h1 : (base60 fields : ℚ) * (r : ℚ) = ((r * base60 fields : ℕ) : ℚ) := by
        push_cast
        ring
      rw [h1, to_double_nat _ (by omega)]
    have hzero : to_double (to_double ((r : ℚ) * to_float (0 : ℚ)) + 1 / 2) = 1 / 2 := by
      have h0 : to_float (0 : ℚ) = 0 := round_binary_zero 24 (-126)
      have h1 : to_double (0 : ℚ) = 0 := round_binary_zero 53 (-1022)
      have h2 := to_double_nat_half (K := ℚ) 0 (by norm_num)
      simp only [Nat.cast_zero, zero_add] at h2
      rw [h0, mul_zero, h1, zero_add, h2]
    rw [hcls, hbranch, hprod, double_to_size_t_nat _ (by omega), hzero,
      to_double_nat _ (by omega), to_double_nat_half _ hfit,
      double_to_size_t_eq _ (by
        have h1 : ((r * base60 fields : ℕ) : ℚ) + 1 ≤ 2 ^ 64 := by
          have : r * base60 fields + 1 ≤ 2 ^ 64 := by omega
          exact_mod_cast this
        linarith), floor_nat_half]

/-- C5 at rate 8000 on the text "1:02:03": 3723 seconds, 29784000 samples. -/
theorem parsesamples_hms_witness :
    time_loop ((colon_text ["1".toList, "02".toList, "03".toList]).length + 1)
        (colon_text ["1".toList, "02".toList, "03".toList]) 0 0 =
      LoopExit.brk [] (base60 ["1".toList, "02".toList, "03".toList]) ∧
    lsx_parsesamples ((8000 : ℕ) : ℚ) (colon_text ["1".toList, "02".toList, "03".toList]) 0 's' =
      ⟨some [], 8000 * base60 ["1".toList, "02".toList, "03".toList]⟩ :=
  parsesamples_hms 8000 ["1".toList, "02".toList, "03".toList] 0 's' (by decide) (by decide)
    (by decide) (by decide) (by decide)

/-- C5 as stated fails at the rate 44100 on the text "1:0:0:0:0:0:0:1": the seconds are
`60 ^ 7 + 1 = 2799360000001` and the rate times that value is 123451776000044100,
below `2 ^ 64` (no overflow), but the count passes through `double` arithmetic and
the code stores 123451776000044096. It fails already just above `2 ^ 52`: at the
rate 1 on the text "5791666:0:0:0:0:145770497" the seconds are `2 ^ 52 + 1` and the code
stores `2 ^ 52 + 2`. -/
theorem parsesamples_hms_counterexample :
    (colon_text ["1".toList, "0".toList, "0".toList, "0".toList, "0".toList, "0".toList,
        "0".toList, "1".toList] = "1:0:0:0:0:0:0:1".toList ∧
      base60 ["1".toList, "0".toList, "0".toList, "0".toList, "0".toList, "0".toList,
        "0".toList, "1".toList] = 2799360000001 ∧
      44100 * 2799360000001 = 123451776000044100 ∧ 123451776000044100 < 2 ^ 64 ∧
      lsx_parsesamples 44100 "1:0:0:0:0:0:0:1".toList 0 't' =
        ⟨some [], 123451776000044096⟩) ∧
    (colon_text ["5791666".toList, "0".toList, "0".toList, "0".toList, "0".toList,
        "145770497".toList] = "5791666:0:0:0:0:145770497".toList ∧
      base60 ["5791666".toList, "0".toList, "0".toList, "0".toList, "0".toList,
        "145770497".toList] = 2 ^ 52 + 1 ∧
      lsx_parsesamples 1 "5791666:0:0:0:0:145770497".toList 0 't' =
        ⟨some [], 2 ^ 52 + 2⟩) := by
  decide!

/-- C3 (amended). For every non-negative rate, every default unit and all
non-empty digit strings `N` (fitting an `int`) and `M`, the text `N.Ms` is parsed
by the time branch, not as the integer `N`: the count is the truncation of
`S + (rate * f + 0.5)`, where `S` is the truncation of `rate * N`, `f` is `0.M` rounded
to `float`, and every product and sum is rounded to `double` (`time_sum`); it is
the round-half-up of `rate * N.M` when none of these operations rounds and
`rate * N` is an integer (`time_exact`); the remainder is past the `s`. More
generally every run that contains `:` or `.` or ends in `t` is handled by the time
branch whatever the default unit is. -/
theorem parsesamples_punctuation (rate : ℚ) (N M rest : List Char) (samples : Nat)
    (def_ : Char) (hrate : 0 ≤ rate) (hN : is_digits N) (hNv : digits_value N < 2 ^ 31)
    (hM : is_digits M) (hrest : in_run_set (peek rest) = false)
    (hfit1 : time_product rate (digits_value N) < 2 ^ 64)
    (hfit2 : time_sum rate (digits_value N) (frac_value (some M)) < 2 ^ 64) :
    lsx_parsesamples rate (N ++ '.' :: M ++ 's' :: rest) samples def_ =
      ⟨some rest, (Int.floor (time_sum rate (digits_value N) (frac_value (some M)))).toNat⟩ ∧
    (time_exact rate (digits_value N) (frac_value (some M)) →
      lsx_parsesamples rate (N ++ '.' :: M ++ 's' :: rest) samples def_ =
        ⟨some rest, round_half_up (rate * ((digits_value N : ℚ) + frac_value (some M)))⟩) ∧
    (∀ (run tail : List Char) (hne : run ≠ []), (∀ c ∈ run, in_run_set c = true) →
      in_run_set (peek tail) = false →
      (':' ∈ run ∨ '.' ∈ run ∨ run.getLast hne = 't') →
      ∀ (rate2 : ℚ) (s2 : Nat) (d2 : Char),
        lsx_parsesamples rate2 (run ++ tail) s2 d2 =
          time_branch rate2 (run ++ tail) run.length) := by
  have _hpos : 0 ≤ rate := hrate
  have hb60 : base60 [N] = digits_value N := by simp [base60]
  have hrun : ∀ c ∈ N ++ '.' :: M ++ ['s'], in_run_set c = true := by
    intro c hc
    simp only [List.mem_append, List.mem_cons, List.mem_singleton] at hc
    rcases hc with (h | h | h) | h
    · exact digits_in_run_set hN c h
    · rw [h]; decide
    · exact digits_in_run_set hM c h
    · simp at h
      rw [h]; decide
  have hne : N ++ '.' :: M ++ ['s'] ≠ [] := by simp
  have hsplit : N ++ '.' :: M ++ 's' :: rest = (N ++ '.' :: M ++ ['s']) ++ rest := by simp
  have htext : N ++ '.' :: M ++ 's' :: rest =
      colon_text [N] ++ (frac_text (some M) ++ 's' :: rest) := by
    simp [colon_text, frac_text]
  have hcls : lsx_parsesamples rate (N ++ '.' :: M ++ 's' :: rest) samples def_ =
      time_branch rate (N ++ '.' :: M ++ 's' :: rest) (N ++ '.' :: M ++ ['s']).length := by
    rw [hsplit]
    exact parsesamples_time rate _ rest hne hrun hrest (Or.inr (Or.inl (by simp))) samples def_
  have hacc : base60 [N] < 2 ^ 64 := by
    rw [hb60]
    omega
  have hbranch := time_branch_fields rate [N] (some M) ('s' :: rest)
    (N ++ '.' :: M ++ ['s']).length (by simp)
    (by intro f hf; rw [List.mem_singleton.1 hf]; exact ⟨hN, hNv⟩)
    (by intro ds h; cases h; exact hM) (fun h => by cases h)
    (show isdigit 's' = false by decide) (show 's' ≠ 'e' by decide)
    (show 's' ≠ 'E' by decide) hacc
  have hdrop : (N ++ '.' :: M ++ 's' :: rest).drop (N ++ '.' :: M ++ ['s']).length = rest := by
    rw [hsplit]
    exact List.drop_left' rfl
  rw [← htext, hdrop, hb60] at hbranch
  have hmain : lsx_parsesamples rate (N ++ '.' :: M ++ 's' :: rest) samples def_ =
      ⟨some rest,
        (Int.floor (time_sum rate (digits_value N) (frac_value (some M)))).toNat⟩ := by
    rw [hcls, hbranch, double_to_size_t_eq _ hfit1]
    have hsum : to_double (to_double
        (((Int.floor (time_product rate (digits_value N))).toNat : ℕ) : ℚ) +
          to_double (to_double (rate * to_float (frac_value (some M))) + 1 / 2)) =
        time_sum rate (digits_value N) (frac_value (some M)) := rfl
    rw [hsum, double_to_size_t_eq _ hfit2]
  refine ⟨hmain, ?_, ?_⟩
  · rintro ⟨he1, he2, he3, he4, he5, he6, he7⟩
    rw [hmain]
    have hsum : time_sum rate (digits_value N) (frac_value (some M)) =
        rate * ((digits_value N : ℚ) + frac_value (some M)) + 1 / 2 := by
      unfold time_sum time_product
      rw [he2, he3, he4, he3, he1, he5, he6, he7]
      ring
    rw [hsum]
    rfl
  · intro run tail hne2 hrun2 htail2 ht rate2 s2 d2
    exact parsesamples_time rate2 run tail hne2 hrun2 htail2 ht s2 d2

/-- C3 at rate 8000 on the text "1.5s" with default unit `s`: 12000 samples, the
round-half-up of `8000 * 1.5`, and not 1. -/
theorem parsesamples_punctuation_witness :
    lsx_parsesamples 8000 ("1".toList ++ '.' :: "5".toList ++ 's' :: []) 0 's' =
      ⟨some [], round_half_up (8000 * ((digits_value "1".toList : ℚ) +
        frac_value (some "5".toList)))⟩ ∧
    round_half_up (8000 * ((digits_value "1".toList : ℚ) + frac_value (some "5".toList))) =
      12000 :=
  ⟨(parsesamples_punctuation 8000 "1".toList "5".toList [] 0 's' (by norm_num) (by decide)
      (by decide) (by decide) (by decide) (by decide!) (by decide!)).2.1
      ⟨by decide!, by decide!, by decide!, by decide!, by decide!, by decide!, by decide!⟩,
   by decide!⟩

/-- C3 as stated fails at the rate 1/2 on the text "1.5s", where the claim gives the
round-half-up of `1/2 * 1.5`, which is 1, and the code stores 0 (the product
`rate * N` is truncated before the fraction is added), and at the rate 44100 on
the text "0.005s", where the claim gives the round-half-up of 220.5, which is 221,
and the code stores 220 (the fraction is a `float`). -/
theorem parsesamples_punctuation_counterexample :
    ("1".toList ++ '.' :: "5".toList ++ 's' :: [] = "1.5s".toList ∧
      lsx_parsesamples (1 / 2) ("1".toList ++ '.' :: "5".toList ++ 's' :: []) 0 's' =
        ⟨some [], 0⟩ ∧
      round_half_up ((1 / 2) * ((digits_value "1".toList : ℚ) +
        frac_value (some "5".toList))) = 1) ∧
    ("0".toList ++ '.' :: "005".toList ++ 's' :: [] = "0.005s".toList ∧
      lsx_parsesamples 44100 ("0".toList ++ '.' :: "005".toList ++ 's' :: []) 0 's' =
        ⟨some [], 220⟩ ∧
      round_half_up (44100 * ((digits_value "0".toList : ℚ) +
        frac_value (some "005".toList))) = 221) := by
  decide!

/-- C2 fails on the code: the texts "0:30", "0:30,0:05" and "0:30,:" have the same
run "0:30"; at rate 44100 the first gives 1323000 samples (30 s), the second
79600500 (1805 s) and the third fails, because the loop of the time branch
reads on past the end of the run. -/
theorem parsesamples_reads_past_run :
    "0:30,0:05".toList.take (run_len "0:30,0:05".toList) = "0:30".toList ∧
    "0:30,:".toList.take (run_len "0:30,:".toList) = "0:30".toList ∧
    "0:30".toList.take (run_len "0:30".toList) = "0:30".toList ∧
    lsx_parsesamples 44100 "0:30".toList 0 't' = ⟨some [], 1323000⟩ ∧
    lsx_parsesamples 44100 "0:30,0:05".toList 0 't' = ⟨some ",0:05".toList, 79600500⟩ ∧
    (lsx_parsesamples 44100 "0:30,:".toList 0 't').ret = none := by
  decide!

/-! ## Theorems: lsx_parse_frequency -/

/-- The plain branch with an end pointer, as one equation. -/
theorem lsx_parse_frequency_plain_eq (pow : CDouble → CDouble → CDouble) (text : List Char)
    (hp : peek text ≠ '%') :
    lsx_parse_frequency pow text true =
      match strtod text with
      | none => some (CDouble.fin (-1), some text)
      | some (d, e) =>
        if peek e = 'k' then
          some (if (d.mul_const 1000).lt_zero then CDouble.fin (-1) else d.mul_const 1000,
            some e.tail)
        else some (if d.lt_zero then CDouble.fin (-1) else d, some e) := by
  unfold lsx_parse_frequency
  rw [if_neg hp]
  cases h : strtod text with
  | none => simp
  | some p =>
    obtain ⟨d, e⟩ := p
    by_cases hk : peek e = 'k' <;> simp [hk]

/-- A value that is not below zero and is not a NaN is `+inf` or a finite value
that is not negative. -/
theorem CDouble.not_lt_zero {v : CDouble} (h : v.lt_zero = false) :
    v = CDouble.nan ∨ v = CDouble.inf false ∨ ∃ q : ℚ, v = CDouble.fin q ∧ 0 ≤ q := by
  cases v with
  | fin q =>
    right; right
    refine ⟨q, rfl, ?_⟩
    simpa [CDouble.lt_zero] using h
  | inf neg =>
    right; left
    simp only [CDouble.lt_zero] at h
    rw [h]
  | nan => left; rfl

/-- The words `INF`, `INFINITY` and `NAN` do not start with a digit or a point. -/
theorem match_word_digit (s : List Char) (h : isdigit (peek s) = true ∨ peek s = '.') :
    match_word "infinity".toList s = none ∧ match_word "inf".toList s = none ∧
      match_word "nan".toList s = none := by
  cases s with
  | nil =>
    rcases h with h | h
    · exact absurd h (by decide)
    · exact absurd h (by decide)
  | cons c r =>
    have hc : isdigit c = true ∨ c = '.' := h
    have hl : tolower c ≠ 'i' ∧ tolower c ≠ 'n' := by
      rcases hc with hd | hd
      · rcases isdigit_cases hd with h | h | h | h | h | h | h | h | h | h <;> subst h <;>
          decide
      · subst hd
        decide
    simp [match_word, hl.1, hl.2]

/-- On a text that starts, after white space and sign, with a digit or a point and
not with `0x`, `strtod` converts the leading decimal literal to the nearest `double`. -/
theorem strtod_decimal (s : List Char)
    (h1 : isdigit (peek (after_sign s)) = true ∨ peek (after_sign s) = '.')
    (h2 : tolower (peek (after_sign s).tail) ≠ 'x') :
    strtod s = (decimal_literal s).map fun p => (double_of_rat p.1, p.2) := by
  obtain ⟨m1, m2, m3⟩ := match_word_digit (after_sign s) h1
  have hx : (tolower (peek (after_sign s).tail) == 'x') = false := by
    simpa using h2
  unfold strtod scan_float decimal_literal
  simp only [m1, m2, m3, hx, Bool.and_false, if_false, Bool.false_eq_true]
  cases scan_decimal (after_sign s) with
  | none => rfl
  | some p =>
    simp only [Option.map_some', FloatLit.as_double]

/-- C6 (amended). Plain branch of `lsx_parse_frequency` with an end pointer: when
`strtod` converts nothing the result is -1; when it converts a literal (decimal
or hexadecimal, or an infinity) to the `double` `d` and a `k` follows, the value
is the `double` product `d * 1000` and the remainder is past the `k`, otherwise
the value is `d` and the remainder is past the literal; a value below zero gives
-1 instead; so every result other than -1 that is not a NaN is `+inf` or a finite
value that is not negative. On a text that starts (after white space and sign)
with a digit or a point and not with `0x`, `d` is the `double` nearest to the value
of the leading decimal literal, an infinity beyond the range of `double`. -/
theorem lsx_parse_frequency_plain (pow : CDouble → CDouble → CDouble) (text : List Char)
    (hp : peek text ≠ '%') :
    (strtod text = none →
      lsx_parse_frequency pow text true = some (CDouble.fin (-1), some text)) ∧
    (∀ d e, strtod text = some (d, e) → peek e = 'k' →
      ((d.mul_const 1000).lt_zero = false →
        lsx_parse_frequency pow text true = some (d.mul_const 1000, some e.tail)) ∧
      ((d.mul_const 1000).lt_zero = true →
        lsx_parse_frequency pow text true = some (CDouble.fin (-1), some e.tail))) ∧
    (∀ d e, strtod text = some (d, e) → peek e ≠ 'k' →
      (d.lt_zero = false → lsx_parse_frequency pow text true = some (d, some e)) ∧
      (d.lt_zero = true →
        lsx_parse_frequency pow text true = some (CDouble.fin (-1), some e))) ∧
    (∀ v r, lsx_parse_frequency pow text true = some (v, r) → v ≠ CDouble.fin (-1) →
      v ≠ CDouble.nan → v = CDouble.inf false ∨ ∃ q : ℚ, v = CDouble.fin q ∧ 0 ≤ q) ∧
    ((isdigit (peek (after_sign text)) = true ∨ peek (after_sign text) = '.') →
      tolower (peek (after_sign text).tail) ≠ 'x' →
      strtod text = (decimal_literal text).map fun p => (double_of_rat p.1, p.2)) := by
  have heq := lsx_parse_frequency_plain_eq pow text hp
  refine ⟨?_, ?_, ?_, ?_, strtod_decimal text⟩
  · intro h
    rw [heq, h]
  · intro d e h hk
    rw [heq, h]
    simp only [hk, if_true]
    constructor
    · intro hd
      rw [hd]
      rfl
    · intro hd
      rw [hd]
      rfl
  · intro d e h hk
    rw [heq, h]
    simp only [hk, if_false]
    constructor
    · intro hd
      rw [hd]
      rfl
    · intro hd
      rw [hd]
      rfl
  · intro v r h hv hnan
    rw [heq] at h
    have key : ∀ x : CDouble, v = (if x.lt_zero then CDouble.fin (-1) else x) →
        v = CDouble.inf false ∨ ∃ q : ℚ, v = CDouble.fin q ∧ 0 ≤ q := by
      intro x hx
      cases hl : x.lt_zero with
      | true =>
        rw [hl] at hx
        exact absurd hx hv
      | false =>
        rw [hl] at hx
        simp only [Bool.false_eq_true, if_false] at hx
        rw [hx]
        rcases CDouble.not_lt_zero hl with h1 | h1 | h1
        · exact absurd (hx.trans h1) hnan
        · exact Or.inl h1
        · exact Or.inr h1
    cases hs : strtod text with
    | none =>
      rw [hs] at h
      simp only [Option.some.injEq, Prod.mk.injEq] at h
      exact absurd h.1.symm hv
    | some p =>
      obtain ⟨d, e⟩ := p
      rw [hs] at h
      by_cases hk : peek e = 'k'
      · simp only [hk, if_true, Option.some.injEq, Prod.mk.injEq] at h
        exact key _ h.1.symm
      · simp only [hk, if_false, Option.some.injEq, Prod.mk.injEq] at h
        exact key _ h.1.symm

/-- C6 on the texts "440", "2k" and "-5": 440, 2000 and the error value. -/
theorem lsx_parse_frequency_plain_witness :
    lsx_parse_frequency (fun _ _ => CDouble.nan) ['4', '4', '0'] true =
      some (CDouble.fin 440, some []) ∧
    lsx_parse_frequency (fun _ _ => CDouble.nan) ['2', 'k'] true =
      some ((CDouble.fin 2).mul_const 1000, some []) ∧
    (CDouble.fin 2).mul_const 1000 = CDouble.fin 2000 ∧
    lsx_parse_frequency (fun _ _ => CDouble.nan) ['-', '5'] true =
      some (CDouble.fin (-1), some []) :=
  ⟨((lsx_parse_frequency_plain (fun _ _ => CDouble.nan) ['4', '4', '0'] (by decide)).2.2.1
      (CDouble.fin 440) [] (by decide!) (by decide)).1 (by decide!),
   ((lsx_parse_frequency_plain (fun _ _ => CDouble.nan) ['2', 'k'] (by decide)).2.1
      (CDouble.fin 2) ['k'] (by decide!) (by decide)).1 (by decide!),
   by decide!,
   ((lsx_parse_frequency_plain (fun _ _ => CDouble.nan) ['-', '5'] (by decide)).2.2.1
      (CDouble.fin (-5)) [] (by decide!) (by decide)).2 (by decide!)⟩

/-- C6 as stated fails on the text "0x10", whose leading decimal literal is "0" with
the text "x10" after it, where the code returns 16 with an empty remainder
(`strtod` reads a hexadecimal literal), and on the text "nan", which has no
decimal literal, where the code returns a NaN, a result that is neither the
error value nor a non-negative number. -/
theorem lsx_parse_frequency_plain_counterexample :
    (decimal_literal "0x10".toList = some (0, "x10".toList) ∧
      lsx_parse_frequency (fun _ _ => CDouble.nan) "0x10".toList true =
        some (CDouble.fin 16, some [])) ∧
    (decimal_literal "nan".toList = none ∧
      lsx_parse_frequency (fun _ _ => CDouble.nan) "nan".toList true =
        some (CDouble.nan, some []) ∧
      CDouble.nan ≠ CDouble.fin (-1)) := by
  decide!

/-- The bit trick on naturals: `n & (n - 1)` is zero exactly for the powers of two. -/
theorem land_pred_eq_zero_iff (n : Nat) (hn : 1 ≤ n) :
    n &&& (n - 1) = 0 ↔ ∃ k, n = 2 ^ k := by
  induction n using Nat.strong_induction_on with
  | _ n ih =>
    by_cases h1 : n = 1
    · subst h1
      exact ⟨fun _ => ⟨0, rfl⟩, fun _ => by decide⟩
    · have hdiv : (n &&& (n - 1)) / 2 = (n / 2) &&& ((n - 1) / 2) := Nat.and_div_two
      have hmod := @Nat.and_mod_two_eq_one n (n - 1)
      rcases Nat.mod_two_eq_zero_or_one n with he | ho
      · have hj : (n - 1) / 2 = n / 2 - 1 := by omega
        have ihj := ih (n / 2) (by omega) (by omega)
        rw [hj] at hdiv
        have hm2 : (n &&& (n - 1)) % 2 ≠ 1 := by
          intro h
          have := hmod.1 h
          omega
        constructor
        · intro h0
          have h3 : n / 2 &&& (n / 2 - 1) = 0 := by rw [← hdiv, h0]
          obtain ⟨k, hk⟩ := ihj.1 h3
          exact ⟨k + 1, by rw [Nat.pow_succ]; omega⟩
        · rintro ⟨k, hk⟩
          cases k with
          | zero => simp at hk; omega
          | succ k =>
            have h3 : n / 2 = 2 ^ k := by rw [hk, Nat.pow_succ]; omega
            have h2 := ihj.2 ⟨k, h3⟩
            omega
      · have hj : (n - 1) / 2 = n / 2 := by omega
        rw [hj, Nat.and_self] at hdiv
        constructor
        · intro h0
          rw [h0] at hdiv
          omega
        · rintro ⟨k, hk⟩
          cases k with
          | zero => simp at hk; omega
          | succ k => rw [Nat.pow_succ] at hk; omega

/-- On an `int` that is at least 2 the bitwise AND of the source is the one on
naturals. -/
theorem land_pred_of_nat (n : Nat) (hn : 1 ≤ n) :
    Int.land (n : Int) ((n : Int) - 1) = ((n &&& (n - 1) : Nat) : Int) := by
  have h : ((n : Int) - 1) = ((n - 1 : Nat) : Int) := by omega
  rw [h]
  rfl

/-- The guard in terms of naturals. -/
theorem is_power_of_2_spec (x : Int) :
    is_power_of_2 x = true ↔ 2 ≤ x ∧ ∃ k : Nat, x = 2 ^ k := by
  unfold is_power_of_2
  by_cases h2 : x < 2
  · simp [h2]
  · obtain ⟨n, rfl⟩ := Int.eq_ofNat_of_zero_le (by omega : 0 ≤ x)
    have hn : 1 ≤ n := by omega
    rw [land_pred_of_nat n hn]
    have key := land_pred_eq_zero_iff n hn
    simp only [h2, decide_False, Bool.false_or, Bool.not_eq_true', bne_eq_false_iff_eq]
    constructor
    · intro h
      have h0 : n &&& (n - 1) = 0 := by exact_mod_cast h
      obtain ⟨k, hk⟩ := key.1 h0
      exact ⟨by omega, k, by exact_mod_cast hk⟩
    · rintro ⟨_, k, hk⟩
      have hk1 : n = 2 ^ k := by exact_mod_cast hk
      have := key.2 ⟨k, hk1⟩
      exact_mod_cast this

/-- C8. For every 32-bit signed `x`, `is_power_of_2 x` holds exactly when
`x = 2 ^ k` for some `1 ≤ k ≤ 30`; `lsx_safe_rdft` and `lsx_safe_cdft` pass their
assertion exactly for those lengths and abort otherwise, whatever the cache, the
transform type and the data are. -/
theorem is_power_of_2_iff (x : Int) (hlo : -2 ^ 31 ≤ x) (hhi : x < 2 ^ 31) :
    (is_power_of_2 x = true ↔ ∃ k : Nat, 1 ≤ k ∧ k ≤ 30 ∧ x = 2 ^ k) ∧
    (∀ (bl sl : Int → Nat) (f : DFT) (c : FFTCache) (ty : Int) (d : List ℚ),
      ((lsx_safe_rdft bl sl f c x ty d).isSome = true ↔
        ∃ k : Nat, 1 ≤ k ∧ k ≤ 30 ∧ x = 2 ^ k) ∧
      ((lsx_safe_cdft bl sl f c x ty d).isSome = true ↔
        ∃ k : Nat, 1 ≤ k ∧ k ≤ 30 ∧ x = 2 ^ k)) := by
  have main : is_power_of_2 x = true ↔ ∃ k : Nat, 1 ≤ k ∧ k ≤ 30 ∧ x = 2 ^ k := by
    rw [is_power_of_2_spec]
    constructor
    · rintro ⟨h2, k, hk⟩
      refine ⟨k, ?_, ?_, hk⟩
      · rcases Nat.eq_zero_or_pos k with h0 | h0
        · subst h0; simp at hk; omega
        · exact h0
      · by_contra hgt
        have hle : (2 : Int) ^ 31 ≤ 2 ^ k :=
          pow_le_pow_right₀ (by norm_num) (by omega)
        omega
    · rintro ⟨k, h1, _, hk⟩
      refine ⟨?_, k, hk⟩
      have hle : (2 : Int) ^ 1 ≤ 2 ^ k := pow_le_pow_right₀ (by norm_num) h1
      omega
  refine ⟨main, fun bl sl f c ty d => ⟨?_, ?_⟩⟩
  · rw [← main]
    unfold lsx_safe_rdft
    cases is_power_of_2 x <;> simp
  · rw [← main]
    unfold lsx_safe_cdft
    cases is_power_of_2 x <;> simp

/-- C8 at the length 16: the guard passes. -/
theorem is_power_of_2_iff_witness :
    (is_power_of_2 16 = true ↔ ∃ k : Nat, 1 ≤ k ∧ k ≤ 30 ∧ (16 : Int) = 2 ^ k) ∧
    (∀ (bl sl : Int → Nat) (f : DFT) (c : FFTCache) (ty : Int) (d : List ℚ),
      ((lsx_safe_rdft bl sl f c 16 ty d).isSome = true ↔
        ∃ k : Nat, 1 ≤ k ∧ k ≤ 30 ∧ (16 : Int) = 2 ^ k) ∧
      ((lsx_safe_cdft bl sl f c 16 ty d).isSome = true ↔
        ∃ k : Nat, 1 ≤ k ∧ k ≤ 30 ∧ (16 : Int) = 2 ^ k)) :=
  is_power_of_2_iff 16 (by decide) (by decide)

/-- A request of length 0 releases both buffers and resets the capacity. -/
theorem update_fft_cache_zero (bl sl : Int → Nat) (c : FFTCache) :
    update_fft_cache bl sl c 0 = FFTCache.fresh := by
  simp [update_fft_cache, FFTCache.fresh]

/-- The capacity after a non-zero request. -/
theorem update_fft_cache_n (bl sl : Int → Nat) (c : FFTCache) (len : Int) (h : len ≠ 0) :
    (update_fft_cache bl sl c len).n = max c.n len := by
  unfold update_fft_cache
  by_cases hgt : len > c.n
  · simp [h, hgt]
    omega
  · simp [h, hgt]
    omega

/-- Over non-zero requests the capacity does not decrease and bounds every request. -/
theorem update_fft_cache_seq_n (bl sl : Int → Nat) (lens : List Int) :
    ∀ c : FFTCache, (∀ l ∈ lens, l ≠ 0) →
      c.n ≤ (update_fft_cache_seq bl sl c lens).n ∧
      ∀ l ∈ lens, l ≤ (update_fft_cache_seq bl sl c lens).n := by
  induction lens with
  | nil => intro c _; simp [update_fft_cache_seq]
  | cons a rest ih =>
    intro c hnz
    have ha : a ≠ 0 := hnz a (by simp)
    have hrest : ∀ l ∈ rest, l ≠ 0 := fun l hl => hnz l (by simp [hl])
    have hstep := update_fft_cache_n bl sl c a ha
    obtain ⟨h1, h2⟩ := ih (update_fft_cache bl sl c a) hrest
    have heq : update_fft_cache_seq bl sl c (a :: rest) =
        update_fft_cache_seq bl sl (update_fft_cache bl sl c a) rest := rfl
    rw [heq]
    refine ⟨by omega, ?_⟩
    intro l hl
    rcases List.mem_cons.1 hl with rfl | hl
    · omega
    · exact h2 l hl

/-- C9. `update_fft_cache(0)` gives capacity 0 with both buffers null; a non-zero
request `len` gives capacity `max n len` and leaves the whole cache (so both
buffers) untouched unless `len > n`; over any sequence of non-zero requests the
capacity never decreases from one point of the sequence to a later one and is at
least every length requested. -/
theorem update_fft_cache_grow_only (bl sl : Int → Nat) (c : FFTCache) (len : Int)
    (before after : List Int) :
    update_fft_cache bl sl c 0 = { n := 0, lsx_fft_br := none, lsx_fft_sc := none } ∧
    (update_fft_cache bl sl c len).n = (if len = 0 then 0 else max c.n len) ∧
    (len ≠ 0 ∧ len ≤ c.n → update_fft_cache bl sl c len = c) ∧
    ((∀ l ∈ before ++ after, l ≠ 0) →
      c.n ≤ (update_fft_cache_seq bl sl c before).n ∧
      (update_fft_cache_seq bl sl c before).n ≤
        (update_fft_cache_seq bl sl c (before ++ after)).n ∧
      ∀ l ∈ before ++ after, l ≤ (update_fft_cache_seq bl sl c (before ++ after)).n) := by
  refine ⟨update_fft_cache_zero bl sl c, ?_, ?_, ?_⟩
  · by_cases h : len = 0
    · subst h
      simp [update_fft_cache]
    · rw [update_fft_cache_n bl sl c len h]
      simp [h]
  · rintro ⟨h0, hle⟩
    have hgt : ¬ len > c.n := by omega
    simp [update_fft_cache, h0, hgt]
  · intro hnz
    have hb : ∀ l ∈ before, l ≠ 0 := fun l hl => hnz l (List.mem_append_left _ hl)
    have ha : ∀ l ∈ after, l ≠ 0 := fun l hl => hnz l (List.mem_append_right _ hl)
    have hsplit : update_fft_cache_seq bl sl c (before ++ after) =
        update_fft_cache_seq bl sl (update_fft_cache_seq bl sl c before) after := by
      simp [update_fft_cache_seq, List.foldl_append]
    refine ⟨(update_fft_cache_seq_n bl sl before c hb).1, ?_,
      (update_fft_cache_seq_n bl sl (before ++ after) c hnz).2⟩
    rw [hsplit]
    exact (update_fft_cache_seq_n bl sl after _ ha).1

/-- C10. From every cache state a request of length 0 yields the start state, so
a following request `L > 0` gives the same cache as on a never-used cache; the
bit-reversal table is then a fresh block whose entry 0 holds 0. For a request
`L > 0` on any cache the entry 0 is written when the capacity before was 0, and
when it was not 0 the table is the old one or its reallocation, unwritten. -/
theorem update_fft_cache_reset (bl sl : Int → Nat) (c : FFTCache) (L : Int) (hL : 0 < L) :
    update_fft_cache bl sl c 0 = FFTCache.fresh ∧
    update_fft_cache bl sl (update_fft_cache bl sl c 0) L =
      update_fft_cache bl sl FFTCache.fresh L ∧
    update_fft_cache bl sl FFTCache.fresh L =
      { n := L
        lsx_fft_br := some ((List.replicate (bl L) none).set 0 (some 0))
        lsx_fft_sc := some (List.replicate (sl L) none) } ∧
    (c.n = 0 → (update_fft_cache bl sl c L).lsx_fft_br =
      (lsx_realloc c.lsx_fft_br (bl L)).map fun b => b.set 0 (some 0)) ∧
    (c.n ≠ 0 → (update_fft_cache bl sl c L).lsx_fft_br = c.lsx_fft_br ∨
      (update_fft_cache bl sl c L).lsx_fft_br = lsx_realloc c.lsx_fft_br (bl L)) := by
  have h0 : L ≠ 0 := by omega
  refine ⟨update_fft_cache_zero bl sl c, by rw [update_fft_cache_zero], ?_, ?_, ?_⟩
  · simp [update_fft_cache, FFTCache.fresh, h0, hL, lsx_realloc]
  · intro hn
    simp [update_fft_cache, h0, hn, hL]
  · intro hn
    by_cases hgt : L > c.n
    · right
      simp [update_fft_cache, h0, hn, hgt]
    · left
      simp [update_fft_cache, h0, hgt]

/-- C10 at the used cache of capacity 16 and the request of length 4. -/
theorem update_fft_cache_reset_witness :
    update_fft_cache (fun _ => 2) (fun _ => 2) ⟨16, some [some 3, none], some [none, none]⟩ 0 =
      FFTCache.fresh ∧
    update_fft_cache (fun _ => 2) (fun _ => 2)
        (update_fft_cache (fun _ => 2) (fun _ => 2)
          ⟨16, some [some 3, none], some [none, none]⟩ 0) 4 =
      update_fft_cache (fun _ => 2) (fun _ => 2) FFTCache.fresh 4 ∧
    update_fft_cache (fun _ => 2) (fun _ => 2) FFTCache.fresh 4 =
      { n := 4
        lsx_fft_br := some [some 0, none]
        lsx_fft_sc := some [none, none] } :=
  have h := update_fft_cache_reset (fun _ => 2) (fun _ => 2)
    ⟨16, some [some 3, none], some [none, none]⟩ 4 (by decide)
  ⟨h.1, h.2.1, h.2.2.1⟩

/-! ## Theorems: lsx_gcd and lsx_lcm -/

/-- The recursion of `lsx_gcd` computes the greatest common divisor. -/
theorem lsx_gcd_eq_gcd (b : Nat) : ∀ a : Nat, lsx_gcd a b = Nat.gcd a b := by
  induction b using Nat.strong_induction_on with
  | _ b ih =>
    intro a
    rw [lsx_gcd]
    by_cases hb : b = 0
    · simp [hb]
    · rw [if_neg hb, ih (a % b) (Nat.mod_lt _ (Nat.pos_of_ne_zero hb)) b,
        Nat.gcd_comm b (a % b), ← Nat.gcd_rec, Nat.gcd_comm]

/-- C18. For all unsigned 32-bit `a` and `b` the call `lsx_gcd(a, b)` returns
(the recursion is well founded on `b`) a 32-bit value that divides `a` and `b`
and is divided by every common divisor of `a` and `b`; `lsx_gcd(a, 0) = a` and
`lsx_gcd(0, 0) = 0`. -/
theorem lsx_gcd_is_gcd (a b : Nat) (ha : a < 2 ^ 32) (hb : b < 2 ^ 32) :
    lsx_gcd a b ∣ a ∧ lsx_gcd a b ∣ b ∧
    (∀ d, d ∣ a → d ∣ b → d ∣ lsx_gcd a b) ∧
    lsx_gcd a b < 2 ^ 32 ∧
    lsx_gcd a 0 = a ∧ lsx_gcd 0 0 = 0 := by
  rw [lsx_gcd_eq_gcd, lsx_gcd_eq_gcd, lsx_gcd_eq_gcd]
  refine ⟨Nat.gcd_dvd_left a b, Nat.gcd_dvd_right a b, fun d h1 h2 => Nat.dvd_gcd h1 h2,
    ?_, Nat.gcd_zero_right a, rfl⟩
  rcases Nat.eq_zero_or_pos a with h0 | hpos
  · subst h0
    simpa using hb
  · exact lt_of_le_of_lt (Nat.gcd_le_left b hpos) ha

/-- C18 at `a = 48000`, `b = 44100`. -/
theorem lsx_gcd_is_gcd_witness :
    lsx_gcd 48000 44100 ∣ 48000 ∧ lsx_gcd 48000 44100 ∣ 44100 ∧
    (∀ d, d ∣ 48000 → d ∣ 44100 → d ∣ lsx_gcd 48000 44100) ∧
    lsx_gcd 48000 44100 < 2 ^ 32 ∧
    lsx_gcd 48000 0 = 48000 ∧ lsx_gcd 0 0 = 0 :=
  lsx_gcd_is_gcd 48000 44100 (by decide) (by decide)

/-- C19 (amended). For all unsigned 32-bit `a` and `b`, not both zero, whose
least common multiple is below `2 ^ 32`: the divisor `lsx_gcd(a, b)` is non-zero,
the product `a * (b / lsx_gcd(a, b))` is formed without overflow and is the least
common multiple, which `lsx_lcm` returns; when `a` and `b` are positive neither
the divisor nor the quotient exceeds the result. -/
theorem lsx_lcm_is_lcm (a b : Nat) (_ha : a < 2 ^ 32) (hb : b < 2 ^ 32)
    (hne : a ≠ 0 ∨ b ≠ 0) (hl : Nat.lcm a b < 2 ^ 32) :
    lsx_gcd a b ≠ 0 ∧
    a * (b / lsx_gcd a b) = Nat.lcm a b ∧
    b / lsx_gcd a b < 2 ^ 32 ∧
    lsx_lcm a b = some (Nat.lcm a b) ∧
    (0 < a → 0 < b → lsx_gcd a b ≤ Nat.lcm a b ∧ b / lsx_gcd a b ≤ Nat.lcm a b) := by
  have hg : lsx_gcd a b = Nat.gcd a b := lsx_gcd_eq_gcd b a
  have hg0 : Nat.gcd a b ≠ 0 := by
    intro h0
    rcases hne with h | h
    · exact h (Nat.eq_zero_of_gcd_eq_zero_left h0)
    · exact h (Nat.eq_zero_of_gcd_eq_zero_right h0)
  have hprod : a * (b / Nat.gcd a b) = Nat.lcm a b := by
    rw [Nat.lcm, Nat.mul_div_assoc _ (Nat.gcd_dvd_right a b)]
  have hq : b / Nat.gcd a b ≤ b := Nat.div_le_self _ _
  unfold lsx_lcm
  rw [hg]
  refine ⟨hg0, hprod, by omega, ?_, ?_⟩
  · rw [if_neg hg0, hprod, Nat.mod_eq_of_lt hl]
  · intro hapos hbpos
    have hlpos : 0 < Nat.lcm a b := Nat.lcm_pos hapos hbpos
    constructor
    · exact le_trans (Nat.gcd_le_left b hapos) (Nat.le_of_dvd hlpos (Nat.dvd_lcm_left a b))
    · exact le_trans hq (Nat.le_of_dvd hlpos (Nat.dvd_lcm_right a b))

/-- C19 at the rates 48000 and 44100: the least common multiple 7056000. -/
theorem lsx_lcm_is_lcm_witness :
    lsx_gcd 48000 44100 ≠ 0 ∧
    48000 * (44100 / lsx_gcd 48000 44100) = Nat.lcm 48000 44100 ∧
    44100 / lsx_gcd 48000 44100 < 2 ^ 32 ∧
    lsx_lcm 48000 44100 = some (Nat.lcm 48000 44100) ∧
    Nat.lcm 48000 44100 = 7056000 :=
  have h := lsx_lcm_is_lcm 48000 44100 (by decide) (by decide) (by decide) (by decide)
  ⟨h.1, h.2.1, h.2.2.1, h.2.2.2.1, by decide⟩

/-- C19 as stated fails at `a = b = 0`: the least common multiple 0 is below
`2 ^ 32`, but the divisor `lsx_gcd(0, 0)` is 0 and the division is undefined. -/
theorem lsx_lcm_is_lcm_counterexample :
    Nat.lcm 0 0 < 2 ^ 32 ∧ lsx_gcd 0 0 = 0 ∧ lsx_lcm 0 0 = none := by
  have h0 : lsx_gcd 0 0 = 0 := by rw [lsx_gcd_eq_gcd]; rfl
  refine ⟨by decide, h0, ?_⟩
  unfold lsx_lcm
  rw [if_pos h0]

/-! ## Theorems: lsx_parsesamples, empty run and omitted field -/

/-- C16. For every rate and default unit, a text that is empty or whose first
character is not one of the digits, `:`, `.`, `t`, `s` makes `lsx_parsesamples`
return NULL and leave the sample count as it was. -/
theorem parsesamples_empty_run (rate : ℚ) (str : List Char) (samples : Nat) (def_ : Char)
    (h : str = [] ∨ in_run_set (peek str) = false) :
    lsx_parsesamples rate str samples def_ = ⟨none, samples⟩ := by
  have hrun : run_len str = 0 := by
    cases str with
    | nil => rfl
    | cons c s =>
      rcases h with h | h
      · cases h
      · have hc : in_run_set c = false := h
        simp [run_len, hc]
  unfold lsx_parsesamples
  simp [hrun]

/-- C16 at rate 8000 on the empty text with default unit `t`, the count being 7
before the call. -/
theorem parsesamples_empty_run_witness :
    lsx_parsesamples 8000 [] 7 't' = ⟨none, 7⟩ :=
  parsesamples_empty_run 8000 [] 7 't' (Or.inl rfl)

/-- The loop of the time branch on `A:.` followed by anything: it leaves at the
`.` with `61 * A` seconds, the field `A` being added again for the omitted one. -/
theorem time_loop_omitted_field (fuel : Nat) (A rest : List Char) (time : Int)
    (hA : is_digits A) (hv : digits_value A < 2 ^ 31) :
    time_loop (fuel + 2) (A ++ ':' :: '.' :: rest) time 0 =
      LoopExit.brk ('.' :: rest) (61 * digits_value A) := by
  have hstop : skip_field (':' :: '.' :: rest) = ':' :: '.' :: rest :=
    skip_field_stop _ (Or.inl rfl)
  have hnb : ¬ (peek (':' :: '.' :: rest) = '.' ∨ peek (':' :: '.' :: rest) = NUL) := by
    show ¬ (':' = '.' ∨ ':' = NUL)
    decide
  have hsmall : (0 + digits_value A) * 60 < 2 ^ 64 := by omega
  rw [time_loop_step (fuel + 1) A (':' :: '.' :: rest) time 0 hA hv
    (show isdigit ':' = false by decide) (by omega), hstop, if_neg hnb, List.tail_cons,
    Nat.mod_eq_of_lt hsmall, time_loop]
  have hpk : peek ('.' :: rest) = '.' := rfl
  have hstop2 : skip_field ('.' :: rest) = '.' :: rest := skip_field_stop _ (Or.inr (Or.inl rfl))
  have hsz : int_to_size_t ((((0 + digits_value A) * 60 : Nat) : Int) + (digits_value A : Int)) =
      61 * digits_value A := by
    have h := int_to_size_t_nat (61 * digits_value A) (by omega)
    rw [← h]
    congr 1
    push_cast
    ring
  simp only [hpk, if_true, hstop2, hsz, true_or]

/-- C17 fails on the code. At rate 44100 the text ".5" gives 22050 samples, as
claimed, but the text "1:.5" gives 2712150 samples, the count of 61.5 s, where
the claim gives the round-half-up of `44100 * 60.5`, which is 2668050: the loop
leaves with 61 seconds, the 1 read for the first field being added once more
for the omitted field. On every text `A:.` followed by anything the loop leaves
with `61 * A` seconds. -/
theorem parsesamples_omitted_field :
    (lsx_parsesamples 44100 ".5".toList 0 't' =
        ⟨some [], round_half_up (44100 * (5 / 10))⟩ ∧
      round_half_up (44100 * (5 / 10)) = 22050 ∧
      time_loop ("1:.5".toList.length + 1) "1:.5".toList 0 0 = LoopExit.brk ".5".toList 61 ∧
      lsx_parsesamples 44100 "1:.5".toList 0 't' = ⟨some [], 2712150⟩ ∧
      round_half_up (44100 * (60 * 1 + 5 / 10)) = 2668050) ∧
    (∀ (fuel : Nat) (A rest : List Char) (time : Int), is_digits A →
      digits_value A < 2 ^ 31 →
      time_loop (fuel + 2) (A ++ ':' :: '.' :: rest) time 0 =
        LoopExit.brk ('.' :: rest) (61 * digits_value A)) :=
  ⟨by decide!, fun fuel A rest time hA hv => time_loop_omitted_field fuel A rest time hA hv⟩

/-! ## Theorems: lsx_power_spectrum -/

/-- The digits found by `sqrt_bits` keep the square root between `r` and `r + 2 ^ b`. -/
theorem sqrt_bits_spec (n : Nat) :
    ∀ (b r : Nat), r * r ≤ n → n < (r + 2 ^ b) * (r + 2 ^ b) →
      sqrt_bits b n r * sqrt_bits b n r ≤ n ∧
        n < (sqrt_bits b n r + 1) * (sqrt_bits b n r + 1) := by
  intro b
  induction b with
  | zero =>
    intro r h1 h2
    simpa [sqrt_bits] using And.intro h1 h2
  | succ b ih =>
    intro r h1 h2
    unfold sqrt_bits
    split_ifs with hc
    · apply ih _ hc
      have : r + 2 ^ b + 2 ^ b = r + 2 ^ (b + 1) := by
        rw [pow_succ]
        ring
      rw [this]
      exact h2
    · exact ih _ h1 (not_le.1 hc)

/-- The function `nat_sqrt` is the integer square root. -/
theorem nat_sqrt_spec (n : Nat) :
    nat_sqrt n * nat_sqrt n ≤ n ∧ n < (nat_sqrt n + 1) * (nat_sqrt n + 1) := by
  unfold nat_sqrt
  apply sqrt_bits_spec n _ 0 (by simp)
  rcases Nat.eq_zero_or_pos n with h0 | hpos
  · subst h0
    simp
  · have hs := (nat_log2_spec n hpos).2
    have h1 : nat_log2 n + 1 ≤ 2 * (nat_log2 n / 2 + 1) := by omega
    have h2 : 2 ^ (nat_log2 n + 1) ≤ 2 ^ (2 * (nat_log2 n / 2 + 1)) :=
      Nat.pow_le_pow_right (by norm_num) h1
    have h3 : (0 + 2 ^ (nat_log2 n / 2 + 1)) * (0 + 2 ^ (nat_log2 n / 2 + 1)) =
        2 ^ (2 * (nat_log2 n / 2 + 1)) := by
      rw [zero_add, ← pow_add]
      congr 1
      ring
    rw [h3]
    omega

/-- The window loop multiplies each of the first `count` cells by its factor, in
`double` arithmetic, and leaves the other cells alone. -/
theorem window_loop_apply (coef : Nat → ℚ) (count : Nat) (h : Nat → ℚ) (j : Nat) :
    window_loop coef count h j = if j < count then to_double (h j * coef j) else h j := by
  induction count generalizing j with
  | zero => simp [window_loop]
  | succ n ih =>
    have hstep : window_loop coef (n + 1) h =
        Function.update (window_loop coef n h) n
          (to_double (window_loop coef n h n * coef n)) := by
      simp [window_loop, List.range_succ, List.foldl_append]
    have hn : window_loop coef n h n = h n := by
      have := ih n
      simpa using this
    rw [hstep]
    by_cases hj : j = n
    · subst hj
      simp [hn]
    · rw [Function.update_noteq hj, ih]
      by_cases hlt : j < n
      · have : j < n + 1 := by omega
        simp [hlt, this]
      · have : ¬ j < n + 1 := by omega
        simp [hlt, this]

/-- The window loop on a `float` array: each of the first `count` cells is multiplied
by its factor in `double` arithmetic and the product is converted to `float`. -/
theorem window_loop_f_apply (coef : Nat → ℚ) (count : Nat) (h : Nat → ℚ) (j : Nat) :
    window_loop_f coef count h j =
      if j < count then to_float (to_double (h j * coef j)) else h j := by
  induction count generalizing j with
  | zero => simp [window_loop_f]
  | succ n ih =>
    have hstep : window_loop_f coef (n + 1) h =
        Function.update (window_loop_f coef n h) n
          (to_float (to_double (window_loop_f coef n h n * coef n))) := by
      simp [window_loop_f, List.range_succ, List.foldl_append]
    have hn : window_loop_f coef n h n = h n := by
      have := ih n
      simpa using this
    rw [hstep]
    by_cases hj : j = n
    · subst hj
      simp [hn]
    · rw [Function.update_noteq hj, ih]
      by_cases hlt : j < n
      · have : j < n + 1 := by omega
        simp [hlt, this]
      · have : ¬ j < n + 1 := by omega
        simp [hlt, this]

/-- The mirrored index `m - i` as a rational number. -/
theorem mirror_cast (m : Int) (i : Nat) (hi : (i : Int) ≤ m) :
    (((m - i).toNat : Nat) : ℚ) = (m : ℚ) - (i : ℚ) := by
  have h1 : (((m - i).toNat : Nat) : Int) = m - i := Int.toNat_of_nonneg (by omega)
  have h2 : ((((m - i).toNat : Nat) : Int) : ℚ) = ((m - i : Int) : ℚ) := by rw [h1]
  push_cast at h2
  exact h2

/-- Half an integer of magnitude below `2 ^ 53` is a `double`. -/
theorem to_double_half_int (k : Int) (hk : |k| < 2 ^ 53) :
    to_double ((k : ℚ) / 2) = (k : ℚ) / 2 := by
  unfold to_double
  apply round_binary_exact 53 (-1022) _ k (-1)
  · rw [zpow_neg_one]
    ring
  · exact hk
  · norm_num

/-- The distance `fabs(i - m / 2.)` of the Bartlett factor is exact. -/
theorem bartlett_distance (m : Int) (hm : |m| < 2 ^ 31) (i : Nat) (hi : (i : Int) ≤ m) :
    |to_double ((i : ℚ) - to_double ((m : ℚ) / 2))| = |(i : ℚ) - (m : ℚ) / 2| := by
  have hm2 := abs_lt.1 hm
  rw [to_double_half_int m (by rw [abs_lt]; constructor <;> linarith [hm2.1, hm2.2])]
  have h1 : (i : ℚ) - (m : ℚ) / 2 = ((2 * (i : Int) - m : Int) : ℚ) / 2 := by
    push_cast
    ring
  rw [h1, to_double_half_int _ (by rw [abs_lt]; constructor <;> omega)]

/-- The Bartlett factor at `m - i` and at `i`. -/
theorem bartlett_coef_symm (m : Int) (hm : |m| < 2 ^ 31) (i : Nat) (hi : (i : Int) ≤ m) :
    bartlett_coef m (m - i).toNat = bartlett_coef m i := by
  have hmi : (((m - i).toNat : Nat) : Int) ≤ m := by omega
  unfold bartlett_coef
  rw [bartlett_distance m hm i hi, bartlett_distance m hm _ hmi, mirror_cast m i hi]
  have h : (m : ℚ) - (i : ℚ) - (m : ℚ) / 2 = -((i : ℚ) - (m : ℚ) / 2) := by ring
  rw [h, abs_neg]

/-- C12 (amended). For every buffer length `N` with `2 ≤ N < 2 ^ 31`, `m = N - 1`, and every
index `i ≤ m`: `lsx_apply_bartlett` multiplies `h[j]` by its factor for every `j ≤ m`, the
factor at `m - i` equals the factor at `i` in `double` arithmetic, and a constant
buffer becomes a palindrome. The other window functions multiply `h[j]` by their
factors as well (`cos` being any function), but no symmetry is stated for them. -/
theorem window_symmetric (N : Int) (hN : 2 ≤ N) (hN2 : N < 2 ^ 31) (i : Nat)
    (hi : (i : Int) ≤ N - 1) :
    (∀ (h : Nat → ℚ) (j : Nat), (j : Int) ≤ N - 1 →
      lsx_apply_bartlett h N j = to_double (h j * bartlett_coef (N - 1) j)) ∧
    bartlett_coef (N - 1) (N - 1 - i).toNat = bartlett_coef (N - 1) i ∧
    (∀ c : ℚ,
      lsx_apply_bartlett (fun _ => c) N (N - 1 - i).toNat =
        lsx_apply_bartlett (fun _ => c) N i) ∧
    (∀ (cos : ℚ → ℚ) (h : Nat → ℚ) (j : Nat), (j : Int) ≤ N - 1 →
      lsx_apply_hann cos h N j = to_double (h j * hann_coef cos (N - 1) j) ∧
      lsx_apply_hann_f cos h N j = to_float (to_double (h j * hann_coef cos (N - 1) j)) ∧
      lsx_apply_hamming cos h N j = to_double (h j * hamming_coef cos (N - 1) j)) := by
  have hm : |N - 1| < 2 ^ 31 := by
    rw [abs_lt]
    constructor <;> omega
  have happly : ∀ (h : Nat → ℚ) (j : Nat), (j : Int) ≤ N - 1 →
      lsx_apply_bartlett h N j = to_double (h j * bartlett_coef (N - 1) j) := by
    intro h j hj
    have hlt : j < N.toNat := by omega
    unfold lsx_apply_bartlett
    simp only [window_loop_apply, hlt, if_true]
  have hsym := bartlett_coef_symm (N - 1) hm i hi
  refine ⟨happly, hsym, ?_, ?_⟩
  · intro c
    have hmi : (((N - 1 - i).toNat : Nat) : Int) ≤ N - 1 := by omega
    rw [happly (fun _ => c) i hi, happly (fun _ => c) (N - 1 - i).toNat hmi, hsym]
  · intro cos h j hj
    have hlt : j < N.toNat := by omega
    unfold lsx_apply_hann lsx_apply_hann_f lsx_apply_hamming
    simp only [window_loop_apply, window_loop_f_apply, hlt, if_true, and_self]

/-- C12 (amended) at the buffer length 5 and the index 1, mirrored to 3: both Bartlett
factors are 1/2. -/
theorem window_symmetric_witness :
    bartlett_coef (5 - 1) ((5 : Int) - 1 - (1 : Nat)).toNat = bartlett_coef (5 - 1) 1 ∧
    bartlett_coef (5 - 1) 1 = 1 / 2 :=
  ⟨(window_symmetric 5 (by decide) (by decide) 1 (by decide)).2.1, by decide!⟩

/-- C12 as stated fails for `lsx_apply_kaiser` at the buffer length 6 (`m = 5`) with
`beta = 1`: the abscissa `2. * i / m - 1` is -0.6 at `i = 1` and 0.6000000000000001 at
`i = 4`, the factors are 0.9213698460470594 and 0.9213698460470592, and the
buffer of ones does not become a palindrome. -/
theorem window_symmetric_counterexample :
    kaiser_x 5 1 = -(5404319552844595 / 9007199254740992) ∧
    kaiser_x 5 4 = 1351079888211149 / 2251799813685248 ∧
    kaiser_coef 64 1 5 1 = some (1037370223831987 / 1125899906842624) ∧
    kaiser_coef 64 1 5 4 = some (4149480895327947 / 4503599627370496) ∧
    (lsx_apply_kaiser 64 (fun _ => 1) 6 1).map (fun g => (g 1, g 4)) =
      some (1037370223831987 / 1125899906842624, 4149480895327947 / 4503599627370496) ∧
    (1037370223831987 / 1125899906842624 : ℚ) ≠ 4149480895327947 / 4503599627370496 := by
  decide!

/-! ## Theorems: lsx_kaiser_beta -/

/-- The third branch of `lsx_kaiser_beta` as a function of `x = att - 20.96`. -/
theorem kaiser_mid_mono (x y : ℝ) (hx : 0 ≤ x) (hxy : x ≤ y) :
    0.58417 * x ^ (0.4 : ℝ) + 0.07886 * x ≤ 0.58417 * y ^ (0.4 : ℝ) + 0.07886 * y := by
  have h1 : x ^ (0.4 : ℝ) ≤ y ^ (0.4 : ℝ) := Real.rpow_le_rpow hx hxy (by norm_num)
  nlinarith

/-- The third branch of `lsx_kaiser_beta` is non-negative. -/
theorem kaiser_mid_nonneg (x : ℝ) (hx : 0 ≤ x) :
    0 ≤ 0.58417 * x ^ (0.4 : ℝ) + 0.07886 * x := by
  have h1 : 0 ≤ x ^ (0.4 : ℝ) := Real.rpow_nonneg hx _
  nlinarith

/-- The value `29.04 ^ 0.4` is at most 3.87 (its fifth power is `29.04 ^ 2`). -/
theorem kaiser_mid_at_fifty : (29.04 : ℝ) ^ (0.4 : ℝ) ≤ 3.87 := by
  have hy0 : 0 ≤ (29.04 : ℝ) ^ (0.4 : ℝ) := Real.rpow_nonneg (by norm_num) _
  have h5 : ((29.04 : ℝ) ^ (0.4 : ℝ)) ^ (5 : ℕ) = (29.04 : ℝ) ^ (2 : ℕ) := by
    rw [← Real.rpow_natCast, ← Real.rpow_mul (by norm_num), ← Real.rpow_natCast]
    norm_num
  by_contra hgt
  have hlt : (3.87 : ℝ) < (29.04 : ℝ) ^ (0.4 : ℝ) := not_le.1 hgt
  have hpow : (3.87 : ℝ) ^ (5 : ℕ) < ((29.04 : ℝ) ^ (0.4 : ℝ)) ^ (5 : ℕ) :=
    pow_lt_pow_left₀ hlt (by norm_num) (by norm_num)
  rw [h5] at hpow
  norm_num at hpow

/-- The third branch stays below the value of the second branch at 50 dB. -/
theorem kaiser_mid_le (a : ℝ) (h1 : 20.96 < a) (h2 : a ≤ 50) :
    0.58417 * (a - 20.96) ^ (0.4 : ℝ) + 0.07886 * (a - 20.96) ≤ 4.55126 := by
  have hm := kaiser_mid_mono (a - 20.96) 29.04 (by linarith) (by linarith)
  have h50 := kaiser_mid_at_fifty
  linarith

/-- The result of `lsx_kaiser_beta` is never negative. -/
theorem kaiser_beta_nonneg (att : ℝ) : 0 ≤ lsx_kaiser_beta att := by
  unfold lsx_kaiser_beta
  split_ifs with h1 h2 h3
  · linarith
  · linarith
  · exact kaiser_mid_nonneg _ (by linarith)
  · exact le_refl 0

/-- C20 (amended). The result of `lsx_kaiser_beta` is non-negative for every
attenuation, and for `att1 ≤ att2` it does not decrease when both are at most
100 dB (so across the boundaries at 20.96 and 50 dB), when both are above
100 dB, or when `att2` is at least 100.0113 dB. -/
theorem kaiser_beta_monotone (att1 att2 : ℝ) (h : att1 ≤ att2)
    (hb : att2 ≤ 100 ∨ 100 < att1 ∨ 100.0113 ≤ att2) :
    0 ≤ lsx_kaiser_beta att1 ∧ lsx_kaiser_beta att1 ≤ lsx_kaiser_beta att2 := by
  refine ⟨kaiser_beta_nonneg att1, ?_⟩
  have hnn := kaiser_beta_nonneg att2
  unfold lsx_kaiser_beta at hnn ⊢
  split_ifs at hnn ⊢ with a1 b1 b2 b3 a2 b1 b2 b3 a3 b1 b2 b3 b1 b2 b3
  all_goals first
    | linarith
    | (rcases hb with hb | hb | hb <;> linarith)
    | exact kaiser_mid_mono _ _ (by linarith) (by linarith)
    | (have hm := kaiser_mid_le att1 (by linarith) (by linarith); linarith)

/-- C20 (amended) at 60 dB and 80 dB. -/
theorem kaiser_beta_monotone_witness :
    0 ≤ lsx_kaiser_beta 60 ∧ lsx_kaiser_beta 60 ≤ lsx_kaiser_beta 80 :=
  kaiser_beta_monotone 60 80 (by norm_num) (Or.inl (by norm_num))

/-- C20 as stated fails across the boundary at 100 dB: `lsx_kaiser_beta 100` is
10.06126, `lsx_kaiser_beta 100.01` is 10.061117. -/
theorem kaiser_beta_monotone_counterexample :
    (100 : ℝ) ≤ 100.01 ∧ lsx_kaiser_beta 100 = 10.06126 ∧
    lsx_kaiser_beta 100.01 = 10.061117 ∧
    ¬ (lsx_kaiser_beta 100 ≤ lsx_kaiser_beta 100.01) := by
  have h1 : lsx_kaiser_beta 100 = 10.06126 := by
    unfold lsx_kaiser_beta
    norm_num
  have h2 : lsx_kaiser_beta 100.01 = 10.061117 := by
    unfold lsx_kaiser_beta
    norm_num
  refine ⟨by norm_num, h1, h2, ?_⟩
  rw [h1, h2]
  norm_num

/-! ## Theorems: lsx_generate_wave_table -/

/-- The phase 0 has offset 0. -/
theorem wave_phase_offset_zero (size : Nat) : wave_phase_offset size 0 = 0 := by
  have h1 : to_double (0 : ℚ) = 0 := round_binary_zero 53 (-1022)
  have h2 := to_double_nat_half (K := ℚ) 0 (by norm_num)
  simp only [Nat.cast_zero, zero_add] at h2
  have h3 : c_trunc ((1 : ℚ) / 2) = 0 := by decide!
  unfold wave_phase_offset double_to_uint32
  rw [zero_div, h1, zero_div, h1, zero_mul, h1, zero_add, h2, h3]
  rfl

/-- The table of the `double` representation is made of the scaled values. -/
theorem wave_table_double_eq (w : lsx_wave_t) (size : Nat) (min max : ℝ) (phase : ℚ)
    (hsz : size < 2 ^ 32) :
    lsx_generate_wave_table w sox_data_t.SOX_DOUBLE size min max phase =
      some ((List.range size).map fun t =>
        TableCell.double_cell (wave_scaled w size min max (wave_phase_offset size phase) t)) := by
  unfold lsx_generate_wave_table
  rw [if_neg (by omega)]
  refine congrArg some ?_
  rw [← List.filterMap_eq_map]
  apply List.filterMap_congr
  intro t _
  simp only [wave_store, Function.comp]

/-- C13 (amended). The wave table is a function of the integer phase offset and
has period `size` in it: for every shape, output representation, table size
`> 0`, `min`, `max` and phases `phase1`, `phase2` whose offsets `p` and `p + size`
(as the code computes them in `double` arithmetic) satisfy `p + 2 * size ≤ 2 ^ 32`,
every entry index `t` gets the same `point`, and `lsx_generate_wave_table` fills the
same table for `phase2` as for `phase1`. -/
theorem wave_table_periodic (w : lsx_wave_t) (dt : sox_data_t) (size : Nat)
    (min max : ℝ) (phase1 phase2 : ℚ) (hsize : 0 < size)
    (hoff : wave_phase_offset size phase2 = wave_phase_offset size phase1 + size)
    (hfit : wave_phase_offset size phase1 + 2 * size ≤ 2 ^ 32) :
    (∀ t, t < size →
      wave_point size (wave_phase_offset size phase2) t =
        wave_point size (wave_phase_offset size phase1) t) ∧
    (lsx_generate_wave_table w dt size min max phase1).isSome = true ∧
    lsx_generate_wave_table w dt size min max phase2 =
      lsx_generate_wave_table w dt size min max phase1 := by
  have hpoint : ∀ t, t < size →
      wave_point size (wave_phase_offset size phase2) t =
        wave_point size (wave_phase_offset size phase1) t := by
    intro t ht
    rw [hoff]
    generalize wave_phase_offset size phase1 = p at hfit
    unfold wave_point
    rw [Nat.mod_eq_of_lt (show t + (p + size) < 2 ^ 32 by omega),
      Nat.mod_eq_of_lt (show t + p < 2 ^ 32 by omega), ← Nat.add_assoc, Nat.add_mod_right]
  have hsz : ¬ 2 ^ 32 ≤ size := by omega
  refine ⟨hpoint, ?_, ?_⟩
  · unfold lsx_generate_wave_table
    rw [if_neg hsz]
    rfl
  · unfold lsx_generate_wave_table
    rw [if_neg hsz, if_neg hsz]
    refine congrArg some (List.filterMap_congr ?_)
    intro t ht
    have htl : t < size := List.mem_range.1 ht
    unfold wave_scaled
    rw [hpoint t htl]

/-- C13 (amended) at the sine table of 8 `float` elements in `[-1, 1]`, for the phases
0 and `2 * M_PI`, whose offsets are 0 and 8. -/
theorem wave_table_periodic_witness :
    wave_phase_offset 8 0 = 0 ∧ wave_phase_offset 8 (2 * M_PI) = 8 ∧
    lsx_generate_wave_table lsx_wave_t.SOX_WAVE_SINE sox_data_t.SOX_FLOAT 8 (-1) 1 (2 * M_PI) =
      lsx_generate_wave_table lsx_wave_t.SOX_WAVE_SINE sox_data_t.SOX_FLOAT 8 (-1) 1 0 :=
  ⟨by decide!, by decide!,
    (wave_table_periodic lsx_wave_t.SOX_WAVE_SINE sox_data_t.SOX_FLOAT 8 (-1) 1 0 (2 * M_PI)
      (by decide) (by decide!) (by decide!)).2.2⟩

/-- The scaled values of the triangle table of 4 elements in `[0, 1]`, by `point`. -/
theorem wave_scaled_triangle_four (p t : Nat) :
    wave_scaled lsx_wave_t.SOX_WAVE_TRIANGLE 4 0 1 p t =
      if wave_point 4 p t = 0 then 1 / 2
      else if wave_point 4 p t = 1 then 1
      else if wave_point 4 p t = 2 then 1 / 2
      else 0 := by
  have hlt : wave_point 4 p t < 4 := Nat.mod_lt _ (by norm_num)
  unfold wave_scaled wave_shape
  have hc : wave_point 4 p t = 0 ∨ wave_point 4 p t = 1 ∨ wave_point 4 p t = 2 ∨
      wave_point 4 p t = 3 := by omega
  rcases hc with h | h | h | h <;> rw [h] <;>
    simp only [show wave_quadrant 4 0 = 0 by decide, show wave_quadrant 4 1 = 1 by decide,
      show wave_quadrant 4 2 = 2 by decide, show wave_quadrant 4 3 = 3 by decide] <;>
    norm_num

/-- C13 as stated fails at the triangle table of 4 `double` elements in `[0, 1]`, for the
phase `3 * M_PI / 4` and the phase one full turn larger, `3 * M_PI / 4 + 2 * M_PI`, both
formed in `double` arithmetic: the code computes the offset 2 for the first and 5,
not `2 + 4`, for the second (the `double` expression is just below 6), and the two
tables differ. -/
theorem wave_table_periodic_counterexample :
    to_double (to_double (3 * M_PI) / 4) = 2652839157010665 / 1125899906842624 ∧
    to_double (2652839157010665 / 1125899906842624 + to_double (2 * M_PI)) =
      18998197087967 / 2199023255552 ∧
    wave_phase_offset 4 (2652839157010665 / 1125899906842624) = 2 ∧
    wave_phase_offset 4 (18998197087967 / 2199023255552) = 5 ∧
    lsx_generate_wave_table lsx_wave_t.SOX_WAVE_TRIANGLE sox_data_t.SOX_DOUBLE 4 0 1
        (2652839157010665 / 1125899906842624) =
      some [TableCell.double_cell (1 / 2), TableCell.double_cell 0,
        TableCell.double_cell (1 / 2), TableCell.double_cell 1] ∧
    lsx_generate_wave_table lsx_wave_t.SOX_WAVE_TRIANGLE sox_data_t.SOX_DOUBLE 4 0 1
        (18998197087967 / 2199023255552) =
      some [TableCell.double_cell 1, TableCell.double_cell (1 / 2),
        TableCell.double_cell 0, TableCell.double_cell (1 / 2)] ∧
    lsx_generate_wave_table lsx_wave_t.SOX_WAVE_TRIANGLE sox_data_t.SOX_DOUBLE 4 0 1
        (18998197087967 / 2199023255552) ≠
      lsx_generate_wave_table lsx_wave_t.SOX_WAVE_TRIANGLE sox_data_t.SOX_DOUBLE 4 0 1
        (2652839157010665 / 1125899906842624) := by
  have h1 : wave_phase_offset 4 (2652839157010665 / 1125899906842624) = 2 := by decide!
  have h2 : wave_phase_offset 4 (18998197087967 / 2199023255552) = 5 := by decide!
  have t1 : lsx_generate_wave_table lsx_wave_t.SOX_WAVE_TRIANGLE sox_data_t.SOX_DOUBLE 4 0 1
      (2652839157010665 / 1125899906842624) =
      some [TableCell.double_cell (1 / 2), TableCell.double_cell 0,
        TableCell.double_cell (1 / 2), TableCell.double_cell 1] := by
    rw [wave_table_double_eq _ _ _ _ _ (by norm_num), h1]
    simp only [wave_scaled_triangle_four, List.range_succ, List.range_zero, List.nil_append,
      List.cons_append, List.map_cons, List.map_nil,
      show wave_point 4 2 0 = 2 by decide, show wave_point 4 2 1 = 3 by decide,
      show wave_point 4 2 2 = 0 by decide, show wave_point 4 2 3 = 1 by decide]
    norm_num
  have t2 : lsx_generate_wave_table lsx_wave_t.SOX_WAVE_TRIANGLE sox_data_t.SOX_DOUBLE 4 0 1
      (18998197087967 / 2199023255552) =
      some [TableCell.double_cell 1, TableCell.double_cell (1 / 2),
        TableCell.double_cell 0, TableCell.double_cell (1 / 2)] := by
    rw [wave_table_double_eq _ _ _ _ _ (by norm_num), h2]
    simp only [wave_scaled_triangle_four, List.range_succ, List.range_zero, List.nil_append,
      List.cons_append, List.map_cons, List.map_nil,
      show wave_point 4 5 0 = 1 by decide, show wave_point 4 5 1 = 2 by decide,
      show wave_point 4 5 2 = 3 by decide, show wave_point 4 5 3 = 0 by decide]
    norm_num
  refine ⟨by decide!, by decide!, h1, h2, t1, t2, ?_⟩
  rw [t1, t2]
  intro h
  simp only [Option.some.injEq, List.cons.injEq, TableCell.double_cell.injEq] at h
  norm_num at h

/-- Round half away from zero gives a nearest integer, and on a tie the one of
larger magnitude. -/
theorem round_half_away_nearest (v : ℝ) :
    |((round_half_away v : Int) : ℝ) - v| ≤ 1 / 2 ∧
    (|((round_half_away v : Int) : ℝ) - v| = 1 / 2 → |v| < |((round_half_away v : Int) : ℝ)|) := by
  unfold round_half_away c_trunc
  by_cases h : 0 ≤ v
  · have h2 : (0 : ℝ) ≤ v + 0.5 := by linarith
    rw [if_pos h, if_pos h2]
    have hle : ((Int.floor (v + 0.5) : Int) : ℝ) ≤ v + 0.5 := Int.floor_le _
    have hlt : v + 0.5 < ((Int.floor (v + 0.5) : Int) : ℝ) + 1 := Int.lt_floor_add_one _
    generalize ((Int.floor (v + 0.5) : Int) : ℝ) = r at hle hlt
    norm_num at hle hlt
    constructor
    · rw [abs_le]
      constructor <;> linarith
    · intro htie
      have hr : r - v = 1 / 2 := by
        rcases abs_eq (by norm_num : (0 : ℝ) ≤ 1 / 2) |>.1 htie with h1 | h1
        · exact h1
        · linarith
      rw [abs_of_nonneg h, abs_of_nonneg (by linarith)]
      linarith
  · have hneg : v < 0 := not_le.1 h
    have h2 : ¬ (0 : ℝ) ≤ v - 0.5 := by
      intro h3
      linarith
    rw [if_neg h, if_neg h2]
    have hle : v - 0.5 ≤ ((Int.ceil (v - 0.5) : Int) : ℝ) := Int.le_ceil _
    have hlt : ((Int.ceil (v - 0.5) : Int) : ℝ) < v - 0.5 + 1 := Int.ceil_lt_add_one _
    generalize ((Int.ceil (v - 0.5) : Int) : ℝ) = r at hle hlt
    norm_num at hle hlt
    constructor
    · rw [abs_le]
      constructor <;> linarith
    · intro htie
      have hr : r - v = -(1 / 2) := by
        rcases abs_eq (by norm_num : (0 : ℝ) ≤ 1 / 2) |>.1 htie with h1 | h1
        · linarith
        · exact h1
      rw [abs_of_neg hneg, abs_of_neg (by linarith)]
      linarith

/-- The balanced remainder leaves an integer of the signed range unchanged. -/
theorem bmod_of_fits (z : Int) (bits : Nat) (hlo : -2 ^ bits ≤ z) (hhi : z < 2 ^ bits) :
    Int.bmod z (2 ^ (bits + 1)) = z := by
  have hpos : (0 : Int) < 2 ^ bits := by positivity
  have hcast : (((2 ^ (bits + 1) : Nat) : Int)) = 2 * 2 ^ bits := by
    push_cast
    ring
  rw [Int.bmod_def, hcast]
  have hhalf : (2 * (2 : Int) ^ bits + 1) / 2 = 2 ^ bits := by omega
  rw [hhalf]
  by_cases hz : 0 ≤ z
  · have hm : z % (2 * 2 ^ bits) = z := Int.emod_eq_of_lt hz (by omega)
    rw [hm, if_pos hhi]
  · have hm : z % (2 * 2 ^ bits) = z + 2 * 2 ^ bits := by
      have h1 : (z + 2 * 2 ^ bits) % (2 * 2 ^ bits) = z + 2 * 2 ^ bits :=
        Int.emod_eq_of_lt (by omega) (by omega)
      rw [← h1, Int.add_emod_self]
    rw [hm, if_neg (by omega)]
    omega

/-- The truncation of an exact sum `v + 0.5` or `v - 0.5` is the round half away from
zero of `v`. -/
theorem wave_round_eq (d : ℝ) :
    c_trunc (d + if d < 0 then -0.5 else 0.5) = round_half_away d := by
  unfold round_half_away
  by_cases h : 0 ≤ d
  · have hn : ¬ d < 0 := not_lt.2 h
    rw [if_neg hn, if_pos h]
  · have hn : d < 0 := not_le.1 h
    rw [if_pos hn, if_neg h]
    congr 1

/-- The rounding step of the integer representations in `double` arithmetic: for every
`double` value `v` of magnitude below `2 ^ 51` other than the two values
`±(1/2 - 2 ^ (-54))` next to one half, the truncation of the rounded sum `v + 0.5` or
`v - 0.5` is `v` rounded half away from zero. -/
theorem wave_round_double (v : ℝ) (hv : to_double v = v) (hlt : |v| < 2 ^ 51)
    (hne : |v| ≠ 1 / 2 - 1 / 2 ^ 54) :
    c_trunc (to_double (v + if v < 0 then -0.5 else 0.5)) = round_half_away v := by
  have hhalf : (0.5 : ℝ) = 1 / 2 := by norm_num
  unfold round_half_away
  by_cases h : 0 ≤ v
  · have hn : ¬ v < 0 := not_lt.2 h
    rw [abs_of_nonneg h] at hlt hne
    rw [if_neg hn, if_pos h, hhalf]
    have hfl := to_double_add_half_floor v hv h hlt hne
    have hx : 0 ≤ to_double (v + 1 / 2) := round_binary_nonneg 53 (-1022) _ (by linarith)
    unfold c_trunc
    rw [if_pos hx, if_pos (by linarith), hfl]
  · have hn : v < 0 := not_le.1 h
    rw [abs_of_neg hn] at hlt hne
    rw [if_pos hn, if_neg h, hhalf]
    have hw : to_double (-v) = -v := by
      unfold to_double at hv ⊢
      rw [round_binary_neg, hv]
    have hfl := to_double_add_half_floor (-v) hw (by linarith) hlt hne
    have hx : 0 ≤ to_double (-v + 1 / 2) := round_binary_nonneg 53 (-1022) _ (by linarith)
    have hsum : to_double (v + -(1 / 2)) = -to_double (-v + 1 / 2) := by
      have : v + -(1 / 2) = -(-v + 1 / 2) := by ring
      rw [this]
      unfold to_double
      rw [round_binary_neg]
    have hsub : v - 1 / 2 = -(-v + 1 / 2) := by ring
    have hneg : ¬ (0 : ℝ) ≤ v - 1 / 2 := by
      intro hc
      linarith
    have hrhs : c_trunc (v - 1 / 2) = -⌊to_double (-v + 1 / 2)⌋ := by
      unfold c_trunc
      rw [if_neg hneg, hsub, Int.ceil_neg, hfl]
    rw [hsum, hrhs]
    unfold c_trunc
    by_cases hz : (0 : ℝ) ≤ -to_double (-v + 1 / 2)
    · have h0 : to_double (-v + 1 / 2) = 0 := by linarith
      rw [if_pos hz, h0]
      simp
    · rw [if_neg hz, Int.ceil_neg]

/-- C15 (amended). For every `double` value `v` that the code holds after scaling, other than
the two values `±(1/2 - 2 ^ (-54))` = ±0.49999999999999994 next to one half, the entry
stored for `SOX_SHORT` and `SOX_INT` is `v` rounded half away from zero (`trunc (v + 0.5)`
for `v ≥ 0`, `trunc (v - 0.5)` for `v < 0`, a nearest integer, on a tie the one of larger
magnitude) whenever that integer fits the type; `SOX_DOUBLE` stores `v` and `SOX_FLOAT`
stores `v` rounded to `float` (for `v` within the range of `float`). -/
theorem wave_table_rounding (v : ℝ) (hv : to_double v = v)
    (hne : |v| ≠ 1 / 2 - 1 / 2 ^ 54) :
    (-2 ^ 15 ≤ round_half_away v → round_half_away v < 2 ^ 15 →
      wave_store sox_data_t.SOX_SHORT v =
        some (TableCell.short_cell (round_half_away v))) ∧
    (-2 ^ 31 ≤ round_half_away v → round_half_away v < 2 ^ 31 →
      wave_store sox_data_t.SOX_INT v =
        some (TableCell.int_cell (round_half_away v))) ∧
    (round_half_away v = (if 0 ≤ v then c_trunc (v + 0.5) else c_trunc (v - 0.5)) ∧
      |((round_half_away v : Int) : ℝ) - v| ≤ 1 / 2 ∧
      (|((round_half_away v : Int) : ℝ) - v| = 1 / 2 →
        |v| < |((round_half_away v : Int) : ℝ)|)) ∧
    wave_store sox_data_t.SOX_DOUBLE v = some (TableCell.double_cell v) ∧
    (|v| < 2 ^ 128 - 2 ^ 103 →
      wave_store sox_data_t.SOX_FLOAT v = some (TableCell.float_cell (to_float v))) := by
  have hnear := round_half_away_nearest v
  have hbound : -2 ^ 31 ≤ round_half_away v → round_half_away v < 2 ^ 31 → |v| < 2 ^ 51 := by
    intro h1 h2
    have h3 := abs_le.1 hnear.1
    have h1r : (-2 ^ 31 : ℝ) ≤ ((round_half_away v : Int) : ℝ) := by exact_mod_cast h1
    have h2r : ((round_half_away v : Int) : ℝ) < 2 ^ 31 := by exact_mod_cast h2
    rw [abs_lt]
    constructor
    · have : (-(2 : ℝ) ^ 51) < -2 ^ 31 - 1 := by norm_num
      linarith [h3.2]
    · have : (2 : ℝ) ^ 31 + 1 < 2 ^ 51 := by norm_num
      linarith [h3.1]
  refine ⟨?_, ?_, ⟨rfl, hnear⟩, rfl, fun _ => rfl⟩
  · intro h1 h2
    have hlt := hbound (by omega) (by omega)
    simp only [wave_store, double_to_int, wave_round_double v hv hlt hne]
    rw [bmod_of_fits _ 15 h1 h2]
  · intro h1 h2
    have hlt := hbound h1 h2
    simp only [wave_store, double_to_int, wave_round_double v hv hlt hne]
    rw [bmod_of_fits _ 31 h1 h2]

/-- C15 (amended) at the tie `v = 5/2`: the entry stored for `SOX_SHORT` is 3. -/
theorem wave_table_rounding_witness :
    wave_store sox_data_t.SOX_SHORT (5 / 2) = some (TableCell.short_cell 3) := by
  have hv : to_double (5 / 2 : ℝ) = 5 / 2 := by
    unfold to_double
    apply round_binary_exact 53 (-1022) _ 5 (-1)
    · rw [zpow_neg_one]
      norm_num
    · norm_num
    · norm_num
  have hne : |(5 / 2 : ℝ)| ≠ 1 / 2 - 1 / 2 ^ 54 := by
    rw [abs_of_pos (by norm_num)]
    norm_num
  have hr : round_half_away (5 / 2) = 3 := by
    unfold round_half_away c_trunc
    rw [if_pos (by norm_num), if_pos (by norm_num), Int.floor_eq_iff]
    norm_num
  have h := (wave_table_rounding (5 / 2) hv hne).1 (by rw [hr]; norm_num) (by rw [hr]; norm_num)
  rw [hr] at h
  exact h

/-- C15 as stated fails at the triangle table of one `int` element with
`min = max = 1/2 - 2 ^ (-54)`, the `double` next below one half, and phase 0: the scaled
value `v` is this `double`, the nearest integer is 0 (`trunc (v + 0.5) = 0` in exact
terms), but the `double` sum `v + 0.5` is 1 (a tie, rounded to even), and the code
stores 1. -/
theorem wave_table_rounding_counterexample :
    to_double (9007199254740991 / 18014398509481984 : ℝ) =
      9007199254740991 / 18014398509481984 ∧
    wave_scaled lsx_wave_t.SOX_WAVE_TRIANGLE 1 (9007199254740991 / 18014398509481984)
      (9007199254740991 / 18014398509481984) (wave_phase_offset 1 0) 0 =
        9007199254740991 / 18014398509481984 ∧
    round_half_away (9007199254740991 / 18014398509481984) = 0 ∧
    lsx_generate_wave_table lsx_wave_t.SOX_WAVE_TRIANGLE sox_data_t.SOX_INT 1
        (9007199254740991 / 18014398509481984) (9007199254740991 / 18014398509481984) 0 =
      some [TableCell.int_cell 1] := by
  have hv : to_double (9007199254740991 / 18014398509481984 : ℝ) =
      9007199254740991 / 18014398509481984 := by
    have h := round_binary_ratCast (K := ℝ) 53 (-1022) (9007199254740991 / 18014398509481984)
    have h2 : round_binary 53 (-1022) (9007199254740991 / 18014398509481984 : ℚ) =
        9007199254740991 / 18014398509481984 := by decide!
    rw [h2] at h
    unfold to_double
    push_cast at h
    exact h
  have hsum : to_double ((9007199254740991 / 18014398509481984 : ℝ) + 0.5) = 1 := by
    have h := round_binary_ratCast (K := ℝ) 53 (-1022) (18014398509481983 / 18014398509481984)
    have h2 : round_binary 53 (-1022) (18014398509481983 / 18014398509481984 : ℚ) = 1 := by
      decide!
    rw [h2] at h
    have h3 : (9007199254740991 / 18014398509481984 : ℝ) + 0.5 =
        ((18014398509481983 / 18014398509481984 : ℚ) : ℝ) := by
      push_cast
      norm_num
    unfold to_double
    rw [h3, h]
    norm_num
  have hsc : wave_scaled lsx_wave_t.SOX_WAVE_TRIANGLE 1 (9007199254740991 / 18014398509481984)
      (9007199254740991 / 18014398509481984) (wave_phase_offset 1 0) 0 =
        9007199254740991 / 18014398509481984 := by
    unfold wave_scaled
    rw [sub_self, mul_zero, zero_add]
  have hr : round_half_away (9007199254740991 / 18014398509481984) = 0 := by
    unfold round_half_away c_trunc
    rw [if_pos (by norm_num), if_pos (by norm_num), Int.floor_eq_iff]
    norm_num
  refine ⟨hv, hsc, hr, ?_⟩
  unfold lsx_generate_wave_table
  rw [if_neg (by norm_num)]
  simp only [List.range_succ, List.range_zero, List.nil_append, List.filterMap_cons,
    List.filterMap_nil, hsc, wave_store]
  have hnn : ¬ (9007199254740991 / 18014398509481984 : ℝ) < 0 := by norm_num
  rw [if_neg hnn, hsum]
  have ht : c_trunc (1 : ℝ) = 1 := by
    unfold c_trunc
    rw [if_pos (by norm_num)]
    exact Int.floor_one
  simp only [double_to_int, ht]
  rfl

/-- The table of the `float` representation is made of the scaled values, rounded to
`float`. -/
theorem wave_table_float_eq (w : lsx_wave_t) (size : Nat) (min max : ℝ) (phase : ℚ)
    (hsz : size < 2 ^ 32) :
    lsx_generate_wave_table w sox_data_t.SOX_FLOAT size min max phase =
      some ((List.range size).map fun t =>
        TableCell.float_cell
          (to_float (wave_scaled w size min max (wave_phase_offset size phase) t))) := by
  unfold lsx_generate_wave_table
  rw [if_neg (by omega)]
  refine congrArg some ?_
  rw [← List.filterMap_eq_map]
  apply List.filterMap_congr
  intro t _
  simp only [wave_store, Function.comp]

/-- The value 3/2 is a `float`. -/
theorem to_float_three_halves : to_float (3 / 2 : ℝ) = 3 / 2 := by
  unfold to_float
  apply round_binary_exact 24 (-126) _ 3 (-1)
  · rw [zpow_neg_one]
    norm_num
  · norm_num
  · norm_num

/-- The normalized value of the sine lies in `[0, 1]`. -/
theorem wave_shape_sine_bounds (size point : Nat) :
    0 ≤ wave_shape lsx_wave_t.SOX_WAVE_SINE size point ∧
    wave_shape lsx_wave_t.SOX_WAVE_SINE size point ≤ 1 := by
  unfold wave_shape
  have h1 := Real.neg_one_le_sin ((point : ℝ) / (size : ℝ) * 2 * Real.pi)
  have h2 := Real.sin_le_one ((point : ℝ) / (size : ℝ) * 2 * Real.pi)
  constructor <;> simp only <;> linarith

/-- For a table of at most `2 ^ 30` elements the quadrant is the mathematical one,
it is at most 3, and the normalized value of the triangle lies in `[0, 1]`. -/
theorem wave_shape_triangle_bounds (size point : Nat) (hsize : size ≤ 2 ^ 30)
    (hpoint : point < size) :
    wave_quadrant size point = 4 * point / size ∧ wave_quadrant size point ≤ 3 ∧
    0 ≤ wave_shape lsx_wave_t.SOX_WAVE_TRIANGLE size point ∧
    wave_shape lsx_wave_t.SOX_WAVE_TRIANGLE size point ≤ 1 := by
  have hspos : 0 < size := by omega
  have hq : wave_quadrant size point = 4 * point / size := by
    unfold wave_quadrant
    rw [Nat.mod_eq_of_lt (by omega)]
  have hq3 : 4 * point / size ≤ 3 := by
    have : 4 * point / size < 4 := (Nat.div_lt_iff_lt_mul hspos).2 (by omega)
    omega
  have hlo : size * (4 * point / size) ≤ 4 * point := Nat.mul_div_le _ _
  have hhi : 4 * point < size * (4 * point / size + 1) := Nat.lt_mul_div_succ _ hspos
  have hsr : (0 : ℝ) < (size : ℝ) := by exact_mod_cast hspos
  have hd : (point : ℝ) * 2 / (size : ℝ) * (size : ℝ) = (point : ℝ) * 2 := by
    field_simp
  refine ⟨hq, by rw [hq]; exact hq3, ?_⟩
  unfold wave_shape
  simp only [hq]
  generalize hqv : 4 * point / size = q at hq3 hlo hhi
  have hlor : (size : ℝ) * (q : ℝ) ≤ 4 * (point : ℝ) := by exact_mod_cast hlo
  have hhir : 4 * (point : ℝ) < (size : ℝ) * ((q : ℝ) + 1) := by exact_mod_cast hhi
  generalize (point : ℝ) * 2 / (size : ℝ) = d at hd
  have hdlo : (q : ℝ) / 2 ≤ d := by
    by_contra hc
    have hc2 : d < (q : ℝ) / 2 := not_le.1 hc
    nlinarith
  have hdhi : d < ((q : ℝ) + 1) / 2 := by
    by_contra hc
    have hc2 : ((q : ℝ) + 1) / 2 ≤ d := not_lt.1 hc
    nlinarith
  have hcases : q = 0 ∨ q = 1 ∨ q = 2 ∨ q = 3 := by omega
  rcases hcases with h | h | h | h <;> subst h <;> norm_num at hdlo hdhi ⊢ <;>
    constructor <;> linarith

/-- C14 fails on the code for tables of more than `2 ^ 30` elements. In the
triangle table of `2 ^ 31` `float` elements with `min = 0`, `max = 1` and phase 0,
entry `2 ^ 30` has `point = 2 ^ 30`; the product `4 * point` wraps to 0 in 32 bits,
so the quadrant taken is 0 where `floor (4 * point / size)` is 2, and the entry
stored is 1.5, above `max`. For the sine, and for the triangle of at most `2 ^ 30`
elements, every scaled value lies in `[min, max]`. -/
theorem wave_table_bounds :
    (wave_point (2 ^ 31) (wave_phase_offset (2 ^ 31) 0) (2 ^ 30) = 2 ^ 30 ∧
      wave_quadrant (2 ^ 31) (2 ^ 30) = 0 ∧ 4 * 2 ^ 30 / 2 ^ 31 = 2 ∧
      wave_shape lsx_wave_t.SOX_WAVE_TRIANGLE (2 ^ 31) (2 ^ 30) = 3 / 2 ∧
      (∃ table : List TableCell,
        lsx_generate_wave_table lsx_wave_t.SOX_WAVE_TRIANGLE sox_data_t.SOX_FLOAT (2 ^ 31)
          0 1 0 = some table ∧
        table[2 ^ 30]? = some (TableCell.float_cell (3 / 2))) ∧
      (1 : ℝ) < 3 / 2) ∧
    (∀ (w : lsx_wave_t) (size : Nat) (min max : ℝ) (p t : Nat),
      (w = lsx_wave_t.SOX_WAVE_SINE ∨
        (w = lsx_wave_t.SOX_WAVE_TRIANGLE ∧ size ≤ 2 ^ 30)) →
      0 < size → min ≤ max →
      (0 ≤ wave_shape w size (wave_point size p t) ∧
        wave_shape w size (wave_point size p t) ≤ 1) ∧
      min ≤ wave_scaled w size min max p t ∧ wave_scaled w size min max p t ≤ max) := by
  have hpoint : wave_point (2 ^ 31) (wave_phase_offset (2 ^ 31) 0) (2 ^ 30) = 2 ^ 30 := by
    rw [wave_phase_offset_zero]
    decide
  have hquad : wave_quadrant (2 ^ 31) (2 ^ 30) = 0 := by decide
  have hshape : wave_shape lsx_wave_t.SOX_WAVE_TRIANGLE (2 ^ 31) (2 ^ 30) = 3 / 2 := by
    unfold wave_shape
    simp only [hquad, if_true]
    norm_num
  refine ⟨⟨hpoint, hquad, by decide, hshape, ?_, by norm_num⟩, ?_⟩
  · refine ⟨_, wave_table_float_eq _ (2 ^ 31) 0 1 0 (by decide), ?_⟩
    rw [List.getElem?_map, List.getElem?_range (by decide)]
    simp only [Option.map_some', wave_scaled, hpoint, hshape]
    have harg : (3 / 2 : ℝ) * (1 - 0) + 0 = 3 / 2 := by norm_num
    rw [harg, to_float_three_halves]
  · intro w size min max p t hw hsize hmm
    have hpt : wave_point size p t < size := Nat.mod_lt _ hsize
    have hb : 0 ≤ wave_shape w size (wave_point size p t) ∧
        wave_shape w size (wave_point size p t) ≤ 1 := by
      rcases hw with h | ⟨h, hs⟩
      · rw [h]
        exact wave_shape_sine_bounds _ _
      · rw [h]
        exact (wave_shape_triangle_bounds size _ hs hpt).2.2
    refine ⟨hb, ?_, ?_⟩
    · unfold wave_scaled
      nlinarith [hb.1, hb.2]
    · unfold wave_scaled
      nlinarith [hb.1, hb.2]

end Sox
